import Mathlib

/-!
Shallow embedding of `epac/taxonomy_util.py` (classes `TaxCode`, `Taxonomy`,
`TaxTreeBuilder`) and proofs about the claims of the specification.

Python dictionaries are embedded as insertion-ordered association lists
(`List (String × α)`); Python exceptions (`KeyError`, `IndexError`,
`NameError`) are embedded as `Except String` / `Option`; Python string
formatting `"%d"` is embedded by `natDecimal`.  Every definition follows the
control flow of the source line by line; comments cite the source lines.
-/

namespace TaxonomyUtil

/-- Embedding of the class constant `Taxonomy.EMPTY_RANK = "-"`. -/
def EMPTY_RANK : String := "-"

/-- Embedding of Python `s.split("@@")` (`Taxonomy.RANK_UID_DELIM = "@@"`) on
character lists: leftmost non-overlapping matches; the empty string splits to
`[""]`, exactly as in Python. -/
def pySplitUID : List Char → List (List Char)
  | [] => [[]]
  | [c] => [[c]]
  | c :: c' :: rest =>
    if c = '@' ∧ c' = '@' then
      [] :: pySplitUID rest
    else
      match pySplitUID (c' :: rest) with
      | h :: t => (c :: h) :: t
      | [] => [[c]]

/-- Embedding of Python `"@@".join(parts)` on character lists. -/
def uidJoin : List (List Char) → List Char
  | [] => []
  | [x] => x
  | x :: y :: xs => x ++ '@' :: '@' :: uidJoin (y :: xs)

/-- Decides whether a character list contains the delimiter `"@@"` as a
substring (used to state the side conditions under which the UID round trip
is exact). -/
def hasDelim : List Char → Bool
  | [] => false
  | [_] => false
  | c :: c' :: rest => (c = '@' && c' = '@') || hasDelim (c' :: rest)

/-- Decimal rendering worker, structurally recursive on a fuel argument that
always dominates the number of digits (the fuel-0 branch is unreachable from
`decChars`). -/
def decCharsGo : Nat → Nat → List Char
  | 0, _ => []
  | fuel + 1, n =>
    if n < 10 then [Char.ofNat (48 + n)]
    else decCharsGo fuel (n / 10) ++ [Char.ofNat (48 + n % 10)]

/-- Decimal rendering of a natural number: the embedding of Python `"%d"`
formatting. -/
def decChars (n : Nat) : List Char :=
  decCharsGo (n + 1) n

/-- String form of `decChars`. -/
def natDecimal (n : Nat) : String := ⟨decChars n⟩

/-- Embedding of `Taxonomy.lowest_assigned_rank_level` (source lines 178-183):
scan indices `n-1, n-2, ...` and return the first index holding a non-empty
rank, or `-1` if the whole path is empty.  The first argument below is the
number of positions still to scan, so `lowFrom ranks ranks.length` starts at
the last index, exactly like the Python `while` loop. -/
def lowFrom (ranks : List String) : Nat → Int
  | 0 => -1
  | i + 1 => if ranks.getD i "" ≠ EMPTY_RANK then (i : Int) else lowFrom ranks i

/-- Embedding of `Taxonomy.lowest_assigned_rank_level(ranks)`. -/
def lowest_assigned_rank_level (ranks : List String) : Int :=
  lowFrom ranks ranks.length

/-- Embedding of `Taxonomy.lowest_assigned_rank(ranks)` (source lines
185-191): `None` is embedded as `none`. -/
def lowest_assigned_rank (ranks : List String) : Option String :=
  let lvl := lowest_assigned_rank_level ranks
  if 0 ≤ lvl then some (ranks.getD lvl.toNat "") else none

/-- Embedding of the Python slice `l[:k]` for a possibly negative bound `k`
(negative bounds count from the end, clamped at zero). -/
def pySliceTo (l : List String) (k : Int) : List String :=
  if 0 ≤ k then l.take k.toNat else l.take (l.length - (-k).toNat)

/-- Embedding of the Python subscript `l[i]` with Python's negative-index
semantics; `none` models an `IndexError`. -/
def pyIdx (l : List String) (i : Int) : Option String :=
  if 0 ≤ i then l[i.toNat]?
  else if (-i).toNat ≤ l.length then l[l.length - (-i).toNat]? else none

/-- Embedding of `Taxonomy.get_rank_uid(ranks, rank_level)` (source lines
193-197).  Python's default argument `rank_level=-1` selects the lowest
assigned level; callers passing an explicit `-1` (as `add_tree_node` can)
get the same behaviour, exactly as in the source. -/
def get_rank_uid (ranks : List String) (rank_level : Int) : String :=
  let lvl := if rank_level = -1 then lowest_assigned_rank_level ranks else rank_level
  ⟨uidJoin ((pySliceTo ranks (lvl + 1)).map String.data)⟩

/-- Embedding of `Taxonomy.split_rank_uid(rank_uid, min_lvls)` (source lines
199-205). -/
def split_rank_uid (rank_uid : String) (min_lvls : Nat) : List String :=
  let ranks := (pySplitUID rank_uid.data).map (fun l => (⟨l⟩ : String))
  if ranks.length < min_lvls then ranks ++ List.replicate (min_lvls - ranks.length) EMPTY_RANK
  else ranks

/-- Embedding of Python `s.strip(';')`: remove leading and trailing `';'`
characters. -/
def pyStripSemis (s : List Char) : List Char :=
  ((s.dropWhile (fun c => c = ';')).reverse.dropWhile (fun c => c = ';')).reverse

/-- Embedding of Python `";".join(parts)` on character lists. -/
def semiJoin : List (List Char) → List Char
  | [] => []
  | [x] => x
  | x :: y :: xs => x ++ ';' :: semiJoin (y :: xs)

/-- Embedding of `Taxonomy.lineage_str(ranks)` (source lines 174-176):
`";".join(ranks).strip(';')`. -/
def lineage_str (ranks : List String) : String :=
  ⟨pyStripSemis (semiJoin (ranks.map String.data))⟩

/-- The source calls `self.lineage_str(sid)` with a sequence-identifier
STRING in several places (lines 377-378, 381, 391, 396, 417, 441, 443);
Python then iterates over the characters of the identifier, so
`lineage_str("seq1")` is `"s;e;q;1"`.  This embeds that call. -/
def lineage_str_of_str (sid : String) : String :=
  lineage_str (sid.data.map (fun c => String.singleton c))

/-! ### Python dictionaries as insertion-ordered association lists -/

/-- Dictionary lookup `d[k]` / `d.get(k)`: first binding of `k`. -/
def alookup (l : List (String × α)) (k : String) : Option α :=
  (l.find? (fun p => p.1 == k)).map Prod.snd

/-- Dictionary membership `k in d`. -/
def amem (l : List (String × α)) (k : String) : Bool :=
  l.any (fun p => p.1 == k)

/-- Dictionary assignment `d[k] = v`: update the existing binding in place,
else append a new binding (Python dicts preserve insertion order). -/
def aset (l : List (String × α)) (k : String) (v : α) : List (String × α) :=
  if amem l k then l.map (fun p => if p.1 == k then (k, v) else p)
  else l ++ [(k, v)]

/-- Dictionary deletion `del d[k]`; `none` models the `KeyError` raised when
the key is absent. -/
def adel (l : List (String × α)) (k : String) : Option (List (String × α)) :=
  if amem l k then some (l.filter (fun p => p.1 != k)) else none

/-- The key list of a dictionary. -/
def akeys (l : List (String × α)) : List String :=
  l.map Prod.fst

/-! ### The `Taxonomy` store (source lines 168-446) -/

/-- The two indices owned by `Taxonomy` (source lines 212-225): the forward
map `seq_ranks_map` (sequence id to rank path) and the reverse index
`rank_seqs_map` (rank UID to list of sequence ids).  `self.prefix` is
embedded as `idPrefix` (`prefix` is a Lean keyword). -/
structure Taxonomy where
  idPrefix : String
  seq_ranks_map : List (String × List String)
  rank_seqs_map : List (String × List String)
deriving DecidableEq, Repr

/-- Embedding of the `Taxonomy.__init__` path taking an in-memory `tax_map`
(source lines 218-222): the reverse index is built by appending each id to
its rank group in iteration order. -/
def taxFromMap (pfx : String) (tax_map : List (String × List String)) : Taxonomy :=
  { idPrefix := pfx
    seq_ranks_map := tax_map
    rank_seqs_map := tax_map.foldl
      (fun m p =>
        let rank_id := get_rank_uid p.2 (-1)
        aset m rank_id ((alookup m rank_id).getD [] ++ [p.1])) [] }

/-- Embedding of Python `s.startswith(pre)` on the underlying characters. -/
def pyStartswith (s pre : String) : Bool :=
  pre.data.isPrefixOf s.data

/-- Embedding of `Taxonomy.get_seq_ranks(seq_id)` (source lines 261-264);
`none` models the `KeyError` on a missing identifier. -/
def Taxonomy.get_seq_ranks (t : Taxonomy) (seq_id : String) : Option (List String) :=
  let sid := if pyStartswith seq_id t.idPrefix then seq_id else t.idPrefix ++ seq_id
  alookup t.seq_ranks_map sid

/-- Embedding of `Taxonomy.seq_rank_id(seq_id)` (source lines 270-272). -/
def Taxonomy.seq_rank_id (t : Taxonomy) (seq_id : String) : Option String :=
  (t.get_seq_ranks seq_id).map (fun r => get_rank_uid r (-1))

/-- Embedding of `Taxonomy.get_rank_seqs(rank_id)` (source lines 274-275):
`self.rank_seqs_map.get(rank_id, [])`. -/
def Taxonomy.get_rank_seqs (t : Taxonomy) (rank_id : String) : List String :=
  (alookup t.rank_seqs_map rank_id).getD []

/-- Embedding of `Taxonomy.remove_seq(seqid)` (source lines 252-255).  The
source body is
`rank_id = self.seq_rank_id(seqid); self.rank_seqs_map[rank_id].remove(seq_id); del self.seq_ranks_map[seqid]`
where `seq_id` (with an underscore) is an UNBOUND name, so after the two
lookups succeed the call always raises `NameError` and no map is modified;
the `del` line is unreachable. -/
def Taxonomy.remove_seq (t : Taxonomy) (seqid : String) : Except String Taxonomy :=
  match t.seq_rank_id seqid with
  | none => .error "KeyError"
  | some rank_id =>
    match alookup t.rank_seqs_map rank_id with
    | none => .error "KeyError"
    | some _ => .error "NameError: name seq_id is not defined"

/-- Embedding of `Taxonomy.rename_seq(old, new)` (source lines 257-259):
copy the forward-map binding to the new id and delete the old one.  The
source touches only `seq_ranks_map`; the reverse index is left alone. -/
def Taxonomy.rename_seq (t : Taxonomy) (old_seqid new_seqid : String) : Except String Taxonomy :=
  match alookup t.seq_ranks_map old_seqid with
  | none => .error "KeyError"
  | some ranks =>
    match adel (aset t.seq_ranks_map new_seqid ranks) old_seqid with
    | none => .error "KeyError"
    | some m => .ok { t with seq_ranks_map := m }

/-- Embedding of the loop of `Taxonomy.merge_ranks` (source lines 284-287):
collect every group of `rank_ids` in order and delete each key from the
reverse index (a missing key raises `KeyError`). -/
def mergeCollect (rank_ids : List String) (acc : List String)
    (m : List (String × List String)) :
    Except String (List String × List (String × List String)) :=
  match rank_ids with
  | [] => .ok (acc, m)
  | rid :: rest =>
    let g := (alookup m rid).getD []
    match adel m rid with
    | none => .error "KeyError"
    | some m' => mergeCollect rest (acc ++ g) m'

/-- Embedding of `Taxonomy.merge_ranks(rank_ids, name_prefix)` (source lines
280-300).  With fewer than 2 keys the call returns `None` untouched; the
returned `Option String` is the Python return value. -/
def Taxonomy.merge_ranks (t : Taxonomy) (rank_ids : List String) (namePfx : String) :
    Except String (Option String × Taxonomy) :=
  if rank_ids.length < 2 then .ok (none, t)
  else
    match mergeCollect rank_ids [] t.rank_seqs_map with
    | .error e => .error e
    | .ok (all_sid, m) =>
      let first_taxon := split_rank_uid (rank_ids.headD "") 0
      let merge_lvl := lowest_assigned_rank_level first_taxon
      match pyIdx first_taxon merge_lvl with
      | none => .error "IndexError"
      | some base =>
        let new_name := namePfx ++ base
        let new_rank := pySliceTo first_taxon merge_lvl ++ [new_name]
        let new_rank_id := get_rank_uid new_rank (-1)
        .ok (some new_rank_id,
          { t with
            rank_seqs_map := aset m new_rank_id all_sid
            seq_ranks_map := all_sid.foldl (fun sm sid => aset sm sid new_rank) t.seq_ranks_map })

/-- Embedding of the reversed inner loop of `Taxonomy.close_taxonomy_gaps`
(source lines 352-359) over the positions `1 .. len-1` of one path, deepest
first.  The input is the path without its root entry; the result is the
rewritten list together with the final `last_rank` and `gap_count` of the
scan.  The recursion processes the deeper suffix first, exactly like the
Python loop `for i in reversed(range(1, len(ranks)))`.  The guard
`elif last_rank:` (source line 357) is Python TRUTHINESS: it is false both
for the initial `None` (here `none`) and for the empty string `""` (here
`some ""`), so a gap whose most recently seen name below is the empty
string is left unfilled and the counter is not incremented. -/
def cgAux : List String → List String × Option String × Nat
  | [] => ([], none, 0)
  | x :: xs =>
    let r := cgAux xs
    if x ≠ EMPTY_RANK then (x :: r.1, some x, r.2.2)
    else
      match r.2.1 with
      | some lr =>
        if lr = "" then (x :: r.1, some lr, r.2.2)
        else (("parent" ++ natDecimal (r.2.2 + 1) ++ "_" ++ lr) :: r.1, some lr, r.2.2 + 1)
      | none => (x :: r.1, none, r.2.2)

/-- The effect of `close_taxonomy_gaps` on a single path: position 0 is never
touched (the loop starts at index 1). -/
def close_gaps_path (ranks : List String) : List String :=
  match ranks with
  | [] => []
  | h :: tl => h :: (cgAux tl).1

/-- Embedding of `Taxonomy.close_taxonomy_gaps()` (source lines 350-359):
each stored path is rewritten in place, independently of the others. -/
def Taxonomy.close_taxonomy_gaps (t : Taxonomy) : Taxonomy :=
  { t with seq_ranks_map := t.seq_ranks_map.map (fun p => (p.1, close_gaps_path p.2)) }

/-! ### `Taxonomy.check_for_duplicates` (source lines 361-399) -/

/-- A conflict / audit record appended to `dups`: a 4-tuple in detection
mode, a 5-tuple in autofix mode. -/
inductive DupRec
  | four (old_sid old_lin sid lin : String)
  | five (old_sid old_lin sid lin fixed_lin : String)
deriving DecidableEq, Repr

/-- The loop state of `check_for_duplicates`: the local dictionaries
`parent_map`, `dups`, `old_fixed`, `old_ranks` (a Python set of positions is
embedded as a duplicate-free list) and the store itself, which the autofix
branch mutates while iterating. -/
structure DupState where
  parent_map : List (String × String)
  dups : List DupRec
  old_fixed : List (String × String)
  old_ranks : List (String × List Nat)
  tax : Taxonomy
deriving DecidableEq, Repr

/-- The autofix block of `check_for_duplicates` (source lines 376-389), run
when a conflict has been detected for the current sequence `sid` at position
`i` against the registered first occurrence `old_sid`.  `parent` is the
local variable captured at line 370.  All path reads go through the current
store, mirroring Python's in-place list mutation. -/
def dupAutofix (sid : String) (i : Nat) (old_sid parent : String) (st : DupState) :
    Except String DupState :=
  let orig_name := lineage_str_of_str sid
  let orig_old_name := lineage_str_of_str old_sid
  let st1 :=
    if ¬ amem st.old_fixed old_sid then
      { st with
        old_fixed := aset st.old_fixed old_sid (lineage_str_of_str old_sid)
        old_ranks := aset st.old_ranks old_sid [] }
    else st
  let fixedSet := (alookup st1.old_ranks old_sid).getD []
  let doOld : Except String DupState :=
    if ¬ fixedSet.contains i then
      match alookup st1.tax.seq_ranks_map old_sid with
      | none => .error "KeyError"
      | some oldr =>
        match oldr[i]? with
        | none => .error "IndexError"
        | some oi =>
          let newOld := oldr.set i (oi ++ "_" ++ oldr.getD (i - 1) "")
          .ok { st1 with
            tax := { st1.tax with seq_ranks_map := aset st1.tax.seq_ranks_map old_sid newOld }
            old_ranks := aset st1.old_ranks old_sid (fixedSet ++ [i]) }
    else .ok st1
  match doOld with
  | .error e => .error e
  | .ok st2 =>
    match alookup st2.tax.seq_ranks_map sid with
    | none => .error "KeyError"
    | some cur =>
      let newCur := cur.set i (cur.getD i "" ++ "_" ++ parent)
      let rec5 := DupRec.five old_sid orig_old_name sid orig_name (lineage_str_of_str sid)
      .ok { st2 with
        tax := { st2.tax with seq_ranks_map := aset st2.tax.seq_ranks_map sid newCur }
        dups := st2.dups ++ [rec5] }

/-- The inner loop of `check_for_duplicates` (source lines 367-392) for one
sequence `sid` over the position list `is` (which the caller passes as
`range(1, len(ranks))`).  Finding the empty-rank marker breaks out of the
loop.  Every read of `ranks` is a live lookup in the current store, because
Python's `ranks` aliases the stored list that the autofix branch mutates. -/
def dupInner (autofix : Bool) (sid : String) : List Nat → DupState → Except String DupState
  | [], st => .ok st
  | i :: rest, st =>
    match alookup st.tax.seq_ranks_map sid with
    | none => .error "KeyError"
    | some ranks =>
      let ri := ranks.getD i ""
      if ri = EMPTY_RANK then .ok st
      else
        let parent := ranks.getD (i - 1) ""
        if ¬ amem st.parent_map ri then
          dupInner autofix sid rest { st with parent_map := aset st.parent_map ri sid }
        else
          let old_sid := (alookup st.parent_map ri).getD ""
          match st.tax.get_seq_ranks old_sid with
          | none => .error "KeyError"
          | some oldr =>
            match oldr[i - 1]? with
            | none => .error "IndexError"
            | some op =>
              if op ≠ parent then
                if autofix then
                  match dupAutofix sid i old_sid parent st with
                  | .error e => .error e
                  | .ok st' => dupInner autofix sid rest st'
                else
                  let rec4 := DupRec.four old_sid (lineage_str_of_str old_sid) sid
                    (lineage_str_of_str sid)
                  dupInner autofix sid rest { st with dups := st.dups ++ [rec4] }
              else dupInner autofix sid rest st

/-- The outer loop of `check_for_duplicates` (source line 366): iterate the
sequence ids in dictionary order; the position range of each sequence is
fixed when its turn starts (rank-path lengths never change during the
pass). -/
def dupOuter (autofix : Bool) : List String → DupState → Except String DupState
  | [], st => .ok st
  | sid :: rest, st =>
    match alookup st.tax.seq_ranks_map sid with
    | none => .error "KeyError"
    | some ranks =>
      match dupInner autofix sid (List.range' 1 (ranks.length - 1)) st with
      | .error e => .error e
      | .ok st' => dupOuter autofix rest st'

/-- Embedding of `Taxonomy.check_for_duplicates(autofix)` (source lines
361-399), returning the `dups` report and the (possibly mutated) store; an
error models an uncaught Python exception. -/
def Taxonomy.check_for_duplicates (t : Taxonomy) (autofix : Bool) :
    Except String (List DupRec × Taxonomy) :=
  match dupOuter autofix (akeys t.seq_ranks_map) ⟨[], [], [], [], t⟩ with
  | .error e => .error e
  | .ok st =>
    if autofix then
      .ok (st.dups ++ st.old_fixed.map (fun p => DupRec.five p.1 p.2 p.1 p.2
        (lineage_str_of_str p.1)), st.tax)
    else .ok (st.dups, st.tax)

/-! ### `Taxonomy.check_for_disbalance` (source lines 401-446)

The `if 0:` block at lines 403-411 is dead code and is not modelled. -/

/-- An error record: a pair in detection mode, a triple in autofix mode. -/
inductive ErrRec
  | two (sid lin : String)
  | three (sid old_lin new_lin : String)
deriving DecidableEq, Repr

/-- Python `name.endswith("dae") or name.endswith("neae")` (source line
424): a drop candidate. -/
def isDropName (r : String) : Bool :=
  "dae".data.isSuffixOf r.data || "neae".data.isSuffixOf r.data

/-- Python `name.endswith("ceae") or name.endswith("ales")` (source line
426): a keep candidate. -/
def isKeepName (r : String) : Bool :=
  "ceae".data.isSuffixOf r.data || "ales".data.isSuffixOf r.data

/-- The classification loop of the autofix branch (source lines 419-429):
positions `1 .. len-1` are split into `dropq` (suffix `dae`/`neae`), `keepq`
(suffix `ceae`/`ales`) and `restq`, in scan order.  Returns
`(dropq, keepq, restq)`. -/
def disbQueues (ranks : List String) : List Nat × List Nat × List Nat :=
  (List.range' 1 (ranks.length - 1)).foldl
    (fun acc i =>
      let r := ranks.getD i ""
      if isDropName r then (acc.1 ++ [i], acc.2.1, acc.2.2)
      else if isKeepName r then (acc.1, acc.2.1 ++ [i], acc.2.2)
      else (acc.1, acc.2.1, acc.2.2 ++ [i]))
    ([], [], [])

/-- `to_remove = (dropq + restq + keepq)[:len(ranks)-7]` (source lines
431-432). -/
def disbToRemove (ranks : List String) : List Nat :=
  ((disbQueues ranks).1 ++ (disbQueues ranks).2.2 ++ (disbQueues ranks).2.1).take
    (ranks.length - 7)

/-- The rebuild loop (source lines 434-437): keep the positions not listed in
`to_remove`, in their original order. -/
def disbFix (ranks : List String) : List String :=
  (List.range ranks.length).foldl
    (fun acc i => if (disbToRemove ranks).contains i then acc else acc ++ [ranks.getD i ""]) []

/-- One iteration of the `check_for_disbalance` loop (source lines 414-444)
on a single map entry: the optional error record and the resulting entry. -/
def disbStep (autofix : Bool) (p : String × List String) : Option ErrRec × (String × List String) :=
  if 7 < p.2.length then
    if autofix then
      (some (.three p.1 (lineage_str_of_str p.1) (lineage_str_of_str p.1)), (p.1, disbFix p.2))
    else (some (.two p.1 (lineage_str_of_str p.1)), p)
  else (none, p)

/-- Embedding of `Taxonomy.check_for_disbalance(autofix)` (source lines
401-446).  Each loop iteration reads and rewrites only its own map entry and
the key set never changes, so the in-place dictionary loop is a `map` (for
the store) plus a `filterMap` (for the report) in iteration order. -/
def Taxonomy.check_for_disbalance (t : Taxonomy) (autofix : Bool) : List ErrRec × Taxonomy :=
  (t.seq_ranks_map.filterMap (fun p => (disbStep autofix p).1),
   { t with seq_ranks_map := t.seq_ranks_map.map (fun p => (disbStep autofix p).2) })

/-! ### `TaxCode` (source lines 8-165)

A Python pair `(suffix, exact_match)` in the code tables is a 2-tuple whose
components are sometimes tuples of strings and sometimes (by a missing
comma) bare strings; `endswith` and `in` behave differently on the two
forms, which `PyStrs` captures. -/

/-- A Python value that is either a bare string or a tuple of strings. -/
inductive PyStrs
  | str (s : String)
  | tup (l : List String)
deriving DecidableEq, Repr

/-- Embedding of Python `name.endswith(spec)`: with a tuple, any-of; with a
string, a single suffix test. -/
def pyEndswith (name : String) (spec : PyStrs) : Bool :=
  match spec with
  | .str s => s.data.isSuffixOf name.data
  | .tup l => l.any (fun s => s.data.isSuffixOf name.data)

/-- Substring test on character lists (the semantics of Python
`needle in hay` for strings; the empty needle always matches). -/
def isSubList (needle : List Char) : List Char → Bool
  | [] => needle.isEmpty
  | c :: rest => needle.isPrefixOf (c :: rest) || isSubList needle rest

/-- Embedding of Python `name in spec`: with a tuple, membership; with a
string, a SUBSTRING test. -/
def pyIn (name : String) (spec : PyStrs) : Bool :=
  match spec with
  | .str s => isSubList name.data s.data
  | .tup l => l.any (fun s => s == name)

/-- A per-nomenclature-code table: canonical level with its
`(suffix, exact_match)` recognition pair, listed in ascending key order
(the source always iterates `sorted(self.tax_code.keys())`). -/
abbrev TaxCodeTable := List (Nat × PyStrs × PyStrs)

/-- `TaxCode.STD_RANKS` (source line 36). -/
def STD_RANKS : List Nat := [1, 2, 4, 7, 12, 18, 19]

/-- `TaxCode.BAC_TAX_CODE` (source lines 38-52); entries such as
`(("idae"), ())` are a bare string and an empty tuple. -/
def bacCode : TaxCodeTable :=
  [(1, .tup [], .tup ["bacteria", "archaea"]),
   (2, .tup [], .tup []),
   (4, .tup [], .tup []),
   (5, .str "idae", .tup []),
   (7, .str "ales", .tup []),
   (8, .str "ineae", .tup []),
   (12, .str "aceae", .tup []),
   (13, .str "oideae", .tup []),
   (18, .tup [], .tup []),
   (19, .tup [], .tup []),
   (20, .tup [], .tup []),
   (21, .tup [], .tup []),
   (22, .tup [], .tup [])]

/-- `TaxCode.BOT_TAX_CODE` (source lines 54-74). -/
def botCode : TaxCodeTable :=
  [(1, .tup [], .tup ["plantae", "algae", "fungi"]),
   (2, .tup ["phyta", "phycota", "mycota"], .tup []),
   (3, .tup ["phytina", "phycotina", "mycotina"], .tup []),
   (4, .tup ["opsida", "phyceae", "mycetes"], .tup []),
   (5, .tup ["idae", "phycidae", "mycetidae"], .tup []),
   (6, .str "anae", .tup []),
   (7, .str "ales", .tup []),
   (8, .str "ineae", .tup []),
   (9, .str "aria", .tup []),
   (10, .str "acea", .tup []),
   (12, .str "aceae", .tup []),
   (13, .str "oideae", .tup []),
   (15, .str "eae", .tup []),
   (16, .str "inae", .tup []),
   (18, .tup [], .tup []),
   (19, .tup [], .tup []),
   (20, .tup [], .tup []),
   (21, .tup [], .tup []),
   (22, .tup [], .tup [])]

/-- `TaxCode.ZOO_TAX_CODE` (source lines 76-99).  The source dict literal
binds the key 13 twice (`(("inae"), ())` then `(("odd"), ())`); in Python
the later binding wins, so level 13 maps to the bare string `"odd"` and
there is no level 14 entry.  `(("animalia"))` is a bare string. -/
def zooCode : TaxCodeTable :=
  [(1, .tup [], .str "animalia"),
   (2, .tup [], .tup ["chordata", "arthropoda", "mollusca", "nematoda"]),
   (3, .tup [], .tup ["vertebrata", "myriapoda", "crustacea", "hexapoda"]),
   (4, .tup [], .tup ["mammalia", "aves", "reptilia", "amphibia", "insecta"]),
   (5, .tup [], .tup []),
   (6, .tup [], .tup []),
   (7, .tup [], .tup []),
   (8, .tup [], .tup []),
   (9, .tup [], .tup []),
   (10, .str "oidea", .tup []),
   (11, .str "oidae", .tup []),
   (12, .str "idae", .tup []),
   (13, .str "odd", .tup []),
   (15, .str "ini", .tup []),
   (16, .str "ina", .tup []),
   (17, .tup ["ad", "iti"], .tup []),
   (18, .tup [], .tup []),
   (19, .tup [], .tup []),
   (20, .tup [], .tup []),
   (21, .tup [], .tup []),
   (22, .tup [], .tup [])]

/-- `TaxCode.VIR_TAX_CODE` (source lines 101-112); `(("viruses"))` is a bare
string. -/
def virCode : TaxCodeTable :=
  [(1, .tup [], .str "viruses"),
   (4, .tup [], .tup []),
   (5, .str "idae", .tup []),
   (7, .str "virales", .tup []),
   (12, .str "viridae", .tup []),
   (13, .str "virinae", .tup []),
   (18, .str "virus", .tup []),
   (19, .str " virus", .tup []),
   (21, .tup [], .tup []),
   (22, .tup [], .tup [])]

/-- Embedding of `re.sub("[\W_]+", "", name.lower())` (source line 132) for
ASCII text: lowercase each character, then keep only alphanumeric
characters. -/
def pyNormalize (s : String) : String :=
  ⟨(s.data.map Char.toLower).filter (fun c => c.isAlphanum)⟩

/-- The name-based scan of `guess_rank_level` (source lines 139-143): the
first table entry, in ascending level order, whose suffix or exact-match
component matches; `0` when none does (no table key is 0). -/
def firstMatch (tbl : TaxCodeTable) (nm : String) : Nat :=
  match tbl.find? (fun e => pyEndswith nm e.2.1 || pyIn nm e.2.2) with
  | some e => e.1
  | none => 0

/-- The elements after the first occurrence of `p` in a list; `none` models
the `ValueError` of Python `list.index` (source line 153). -/
def afterFirst (keys : List Nat) (p : Nat) : Option (List Nat) :=
  match keys with
  | [] => none
  | k :: rest => if k = p then some rest else afterFirst rest p

/-- The fallback scan of `guess_rank_level` (source lines 154-159): the
first level among `keys` that lies in `STD_RANKS`, else 0. -/
def fallbackScan (keys : List Nat) : Nat :=
  match keys.find? (fun l => STD_RANKS.contains l) with
  | some l => l
  | none => 0

/-- Embedding of `TaxCode.guess_rank_level(ranks, rank_level)` (source lines
131-161); errors model `IndexError` on the subscript and `ValueError` on
`list.index`. -/
def guess_rank_level (tbl : TaxCodeTable) (ranks : List String) : Nat → Except String Nat
  | 0 =>
    match ranks[0]? with
    | none => .error "IndexError"
    | some r0 =>
      let fm := firstMatch tbl (pyNormalize r0)
      if fm ≠ 0 then .ok fm else .ok 1
  | i + 1 =>
    match ranks[i + 1]? with
    | none => .error "IndexError"
    | some r =>
      let fm := firstMatch tbl (pyNormalize r)
      if fm ≠ 0 then .ok fm
      else
        match guess_rank_level tbl ranks i with
        | .error e => .error e
        | .ok p =>
          if p = 0 then .ok 0
          else
            match afterFirst (tbl.map Prod.fst) p with
            | none => .error "ValueError"
            | some rest => .ok (fallbackScan rest)

/-! ### `TaxTreeBuilder` (source lines 449-553)

The builder's effect on the `ete2` tree topology is outside the claims; what
the control flow of `build` reads is the KEY SET of the memo dictionary
`self.tree_nodes`, the counters `self.leaf_count` and the accumulated
`seq_ids`, which `BuildState` tracks.  `self.config` is used only for
logging and debug output (out of scope). -/

/-- `TaxTreeBuilder.ROOT_LABEL` (source line 450). -/
def ROOT_LABEL : String := "<<root>>"

/-- The builder state: memoized tree-node ids in creation order, the
`leaf_count` dictionary and the accepted sequence ids. -/
structure BuildState where
  tree_nodes : List String
  leaf_count : List (String × Nat)
  seq_ids : List String
deriving DecidableEq, Repr

/-- The filter configuration of `TaxTreeBuilder.build` (source line 484). -/
structure BuildCfg where
  min_rank : Nat
  max_seqs_per_leaf : Nat
  clades_to_include : List (Nat × String)
  clades_to_ignore : List (Nat × String)

/-- The walk `while ranks[parent_level] == EMPTY_RANK: parent_level -= 1`
(source lines 466-467 and 528-529) with Python's negative-index semantics;
the fuel bounds the number of iterations before Python would raise
`IndexError` below `-len`, and is never exhausted on a run that Python
completes. -/
def walkNE (ranks : List String) : Int → Nat → Except String Int
  | _, 0 => .error "fuel"
  | i, fuel + 1 =>
    match pyIdx ranks i with
    | none => .error "IndexError"
    | some v => if v = EMPTY_RANK then walkNE ranks (i - 1) fuel else .ok i

/-- The memo-key effect of `TaxTreeBuilder.add_tree_node` (source lines
463-482): compute the parent id (walking over empty ranks, or the root
sentinel below level 0), recurse when it is not memoized yet, then memoize
it.  The fuel bounds the recursion depth, which Python bounds by the path
length; it is never exhausted on a run that Python completes. -/
def addTreeNodeKeys (ranks : List String) : Int → List String → Nat → Except String (List String)
  | _, _, 0 => .error "fuel"
  | rank_level, keys, fuel + 1 =>
    if 0 ≤ rank_level then
      match walkNE ranks rank_level (ranks.length * 2 + 2) with
      | .error e => .error e
      | .ok parent_level =>
        let parentId := get_rank_uid ranks parent_level
        if keys.contains parentId then .ok keys
        else
          match addTreeNodeKeys ranks (parent_level - 1) keys fuel with
          | .error e => .error e
          | .ok keys' => .ok (keys' ++ [parentId])
    else
      if keys.contains ROOT_LABEL then .ok keys
      else
        match addTreeNodeKeys ranks (-2) keys fuel with
        | .error e => .error e
        | .ok keys' => .ok (keys' ++ [ROOT_LABEL])

/-- One clade-constraint loop (source lines 507-511 and 517-520): scan the
`(rank_level, rank_name)` entries in order, stop at the first match; an
out-of-range subscript raises `IndexError` exactly when Python reaches it. -/
def cladeAny (ranks : List String) : List (Nat × String) → Except String Bool
  | [] => .ok false
  | (lvl, nm) :: rest =>
    match pyIdx ranks (lvl : Int) with
    | none => .error "IndexError"
    | some v => if v = nm then .ok true else cladeAny ranks rest

/-- One iteration of the `build` loop (source lines 494-544) on a candidate
`(sid, ranks)`: the minimum-rank filter, the include/ignore clade filters,
the quota check and the node insertion. -/
def buildStep (cfg : BuildCfg) (st : BuildState) (p : String × List String) :
    Except String BuildState :=
  match pyIdx p.2 (cfg.min_rank : Int) with
  | none => .error "IndexError"
  | some v =>
    if v = EMPTY_RANK then .ok st
    else
      match (if cfg.clades_to_include.isEmpty then .ok true
             else cladeAny p.2 cfg.clades_to_include) with
      | .error e => .error e
      | .ok okInc =>
        match (if okInc then (cladeAny p.2 cfg.clades_to_ignore).map (fun b => !b)
               else .ok false) with
        | .error e => .error e
        | .ok ok =>
          if !ok then .ok st
          else
            match walkNE p.2 ((p.2.length : Int) - 1) (p.2.length * 2 + 2) with
            | .error e => .error e
            | .ok parent_level =>
              let parent_name := get_rank_uid p.2 parent_level
              let skip : Bool :=
                st.tree_nodes.contains parent_name &&
                (decide (parent_level = (p.2.length : Int) - 1) &&
                 (amem st.leaf_count parent_name &&
                  decide (cfg.max_seqs_per_leaf ≤ (alookup st.leaf_count parent_name).getD 0)))
              if skip then .ok st
              else
                let lc := aset st.leaf_count parent_name
                  ((alookup st.leaf_count parent_name).getD 0 + 1)
                match addTreeNodeKeys p.2 parent_level st.tree_nodes (p.2.length * 2 + 4) with
                | .error e => .error e
                | .ok keys' =>
                  .ok { tree_nodes := keys', leaf_count := lc,
                        seq_ids := st.seq_ids ++ [p.1] }

/-- The `build` loop over the store's items in order. -/
def buildAux (cfg : BuildCfg) : List (String × List String) → BuildState → Except String BuildState
  | [], st => .ok st
  | p :: rest, st =>
    match buildStep cfg st p with
    | .error e => .error e
    | .ok st' => buildAux cfg rest st'

/-- Embedding of `TaxTreeBuilder.build` (source lines 484-553): root node
pre-seeded in the memo and in `leaf_count`, one pass over the store, and the
accepted identifier list returned.  `prune_unifu_nodes` reshapes only the
tree, not `seq_ids`. -/
def build (cfg : BuildCfg) (t : Taxonomy) : Except String (List String) :=
  match buildAux cfg t.seq_ranks_map ⟨[ROOT_LABEL], [(ROOT_LABEL, 0)], []⟩ with
  | .error e => .error e
  | .ok st => .ok st.seq_ids

/-! ### Spec-side definitions

These follow the specification's words, for comparison with the source-side
definitions above. -/

/-- Spec-side: the non-empty prefix of a rank path, i.e. the prefix up to
and including its lowest (deepest) non-empty position — the path with its
trailing run of empty-rank markers removed. -/
def nonEmptyPrefix (p : List String) : List String :=
  (p.reverse.dropWhile (fun x => x = EMPTY_RANK)).reverse

/-- Spec-side: the reverse index partitions the sequence-identifier set —
every id of the forward map occurs in exactly one group (counting
multiplicity across all groups) and every group member is a key of the
forward map. -/
def isPartition (t : Taxonomy) : Bool :=
  t.seq_ranks_map.all
    (fun p => ((t.rank_seqs_map.map (fun g => g.2.count p.1)).sum = 1 : Bool)) &&
  t.rank_seqs_map.all (fun g => g.2.all (fun m => amem t.seq_ranks_map m))

/-! ### Claim C1: the reverse index is NOT maintained by
`remove_seq` / `rename_seq` (code bug) -/

/-- The two-sequence store used to exhibit the `remove_seq` / `rename_seq`
defects. -/
def c1Store : Taxonomy := taxFromMap "" [("s1", ["A"]), ("s2", ["A"])]

/-- The store produced by `rename_seq("s1", "s3")` on `c1Store`: the forward
map is renamed but the reverse index still lists `"s1"`. -/
def c1Renamed : Taxonomy :=
  { idPrefix := ""
    seq_ranks_map := [("s2", ["A"]), ("s3", ["A"])]
    rank_seqs_map := [("A", ["s1", "s2"])] }

/-- C1, evaluated at the failing input: the partition invariant holds on
`c1Store`; `rename_seq` returns a store on which it fails, because only the
forward map is renamed (source lines 257-259 never touch `rank_seqs_map`);
and `remove_seq` always raises `NameError` because its body references the
unbound name `seq_id` (source line 254), so it can never remove anything. -/
theorem c1_failing_eval :
    isPartition c1Store = true ∧
    c1Store.rename_seq "s1" "s3" = .ok c1Renamed ∧
    isPartition c1Renamed = false ∧
    c1Store.remove_seq "s1" = .error "NameError: name seq_id is not defined" := by
  refine ⟨by decide, by rfl, by decide, by rfl⟩

/-! ### Claim C5: `split_rank_uid ∘ get_rank_uid` and the non-empty prefix -/

theorem pySplitUID_ne_nil : ∀ l : List Char, pySplitUID l ≠ []
  | [] => by simp [pySplitUID]
  | [c] => by simp [pySplitUID]
  | c :: c' :: rest => by
    simp only [pySplitUID]
    split
    · simp
    · cases h : pySplitUID (c' :: rest) <;> simp

theorem hasDelim_cons₂ (c c' : Char) (rest : List Char) (h : ¬(c = '@' ∧ c' = '@')) :
    hasDelim (c :: c' :: rest) = hasDelim (c' :: rest) := by
  by_cases hc : c = '@'
  · by_cases hc' : c' = '@'
    · exact absurd ⟨hc, hc'⟩ h
    · simp [hasDelim, hc, hc']
  · simp [hasDelim, hc]

theorem splitUID_single : ∀ l : List Char, hasDelim l = false → pySplitUID l = [l]
  | [], _ => rfl
  | [c], _ => rfl
  | c :: c' :: rest, h => by
    have hcc : ¬(c = '@' ∧ c' = '@') := by
      intro hcc
      simp [hasDelim, hcc.1, hcc.2] at h
    have h' : hasDelim (c' :: rest) = false := by
      rwa [hasDelim_cons₂ c c' rest hcc] at h
    simp only [pySplitUID, if_neg hcc]
    rw [splitUID_single (c' :: rest) h']

theorem splitUID_sep_prepend :
    ∀ p rest : List Char, hasDelim p = false → p.getLast? ≠ some '@' →
      pySplitUID (p ++ '@' :: '@' :: rest) = p :: pySplitUID rest
  | [], rest, _, _ => by simp [pySplitUID]
  | [c], rest, _, hl => by
    have hc : c ≠ '@' := by simpa using hl
    simp [pySplitUID, hc]
  | c :: c' :: p', rest, hd, hl => by
    have hcc : ¬(c = '@' ∧ c' = '@') := by
      intro hcc
      simp [hasDelim, hcc.1, hcc.2] at hd
    have hd' : hasDelim (c' :: p') = false := by
      rwa [hasDelim_cons₂ c c' p' hcc] at hd
    have hl' : (c' :: p').getLast? ≠ some '@' := by
      rwa [show (c :: c' :: p').getLast? = (c' :: p').getLast? from rfl] at hl
    have ih := splitUID_sep_prepend (c' :: p') rest hd' hl'
    simp only [List.cons_append] at ih ⊢
    simp only [pySplitUID, if_neg hcc, ih]

theorem splitUID_join :
    ∀ parts : List (List Char), parts ≠ [] →
      (∀ x ∈ parts, hasDelim x = false) →
      (∀ x ∈ parts.dropLast, x.getLast? ≠ some '@') →
      pySplitUID (uidJoin parts) = parts
  | [], h, _, _ => absurd rfl h
  | [x], _, hd, _ => by
    simpa [uidJoin] using splitUID_single x (hd x (by simp))
  | x :: y :: xs, _, hd, hl => by
    have hx : hasDelim x = false := hd x (by simp)
    have hxl : x.getLast? ≠ some '@' := hl x (by simp [List.dropLast_cons₂])
    have ih := splitUID_join (y :: xs) (by simp)
      (fun z hz => hd z (by simp [hz]))
      (fun z hz => hl z (by simp only [List.dropLast_cons₂, List.mem_cons]; exact Or.inr hz))
    simp only [uidJoin, splitUID_sep_prepend x _ hx hxl, ih]

theorem dropLast_map (f : α → β) : ∀ l : List α, (l.map f).dropLast = l.dropLast.map f
  | [] => rfl
  | [_] => rfl
  | a :: b :: t => by
    simp only [List.map_cons, List.dropLast_cons₂, ← dropLast_map f (b :: t), List.map_cons]

theorem lowFrom_lt (ranks : List String) : ∀ n : Nat, lowFrom ranks n < (n : Int)
  | 0 => by simp [lowFrom]
  | n + 1 => by
    simp only [lowFrom]
    split
    · omega
    · have := lowFrom_lt ranks n
      push_cast
      omega

theorem neg_one_le_lowFrom (ranks : List String) : ∀ n : Nat, -1 ≤ lowFrom ranks n
  | 0 => by simp [lowFrom]
  | n + 1 => by
    simp only [lowFrom]
    split
    · omega
    · exact neg_one_le_lowFrom ranks n

theorem lowFrom_append (xs ys : List String) :
    ∀ n : Nat, n ≤ xs.length → lowFrom (xs ++ ys) n = lowFrom xs n
  | 0, _ => rfl
  | n + 1, h => by
    have hget : (xs ++ ys).getD n "" = xs.getD n "" := by
      rw [List.getD_eq_getElem?_getD, List.getD_eq_getElem?_getD,
        List.getElem?_append_left (by omega)]
    simp only [lowFrom, hget]
    split
    · rfl
    · exact lowFrom_append xs ys n (by omega)

/-- The auto-level slice of `get_rank_uid` is exactly the spec's non-empty
prefix of the path. -/
theorem slice_lowest_eq_nonEmptyPrefix (p : List String) :
    pySliceTo p (lowest_assigned_rank_level p + 1) = nonEmptyPrefix p := by
  induction p using List.reverseRecOn with
  | nil => rfl
  | append_singleton xs x ih =>
    by_cases hx : x = EMPTY_RANK
    · subst hx
      have h1 : lowest_assigned_rank_level (xs ++ [EMPTY_RANK]) =
          lowest_assigned_rank_level xs := by
        unfold lowest_assigned_rank_level
        rw [List.length_append, List.length_singleton]
        have hget : (xs ++ [EMPTY_RANK]).getD xs.length "" = EMPTY_RANK := by
          rw [List.getD_eq_getElem?_getD, List.getElem?_append_right (Nat.le_refl _)]
          simp
        simp only [lowFrom, hget, ne_eq, not_true_eq_false, if_false]
        exact lowFrom_append xs [EMPTY_RANK] xs.length (Nat.le_refl _)
      have h2 : nonEmptyPrefix (xs ++ [EMPTY_RANK]) = nonEmptyPrefix xs := by
        unfold nonEmptyPrefix
        simp [List.dropWhile]
      rw [h1, h2, ← ih]
      unfold pySliceTo
      have hlow := lowFrom_lt xs xs.length
      have hlow' := neg_one_le_lowFrom xs xs.length
      unfold lowest_assigned_rank_level
      rw [if_pos (by omega), if_pos (by omega)]
      rw [List.take_append_of_le_length]
      have : (lowFrom xs xs.length + 1).toNat ≤ xs.length := by omega
      exact this
    · have h1 : lowest_assigned_rank_level (xs ++ [x]) = (xs.length : Int) := by
        unfold lowest_assigned_rank_level
        rw [List.length_append, List.length_singleton]
        have hget : (xs ++ [x]).getD xs.length "" = x := by
          rw [List.getD_eq_getElem?_getD, List.getElem?_append_right (Nat.le_refl _)]
          simp
        simp [lowFrom, hget, hx]
      have h2 : nonEmptyPrefix (xs ++ [x]) = xs ++ [x] := by
        unfold nonEmptyPrefix
        simp [List.dropWhile, hx]
      rw [h1, h2]
      unfold pySliceTo
      rw [if_pos (by omega)]
      have : ((xs.length : Int) + 1).toNat = xs.length + 1 := by omega
      rw [this, List.take_of_length_le (by simp)]

/-- C5 (amended): provided the path's non-empty prefix is non-empty, none of
its entries contains the delimiter `"@@"`, and no entry except possibly the
last one ends in `'@'`, the round trip `split_rank_uid (get_rank_uid p)`
returns exactly the non-empty prefix of `p`. -/
theorem c5_amended (p : List String)
    (hne : nonEmptyPrefix p ≠ [])
    (hd : ∀ x ∈ nonEmptyPrefix p, hasDelim x.data = false)
    (hl : ∀ x ∈ (nonEmptyPrefix p).dropLast, x.data.getLast? ≠ some '@') :
    split_rank_uid (get_rank_uid p (-1)) 0 = nonEmptyPrefix p := by
  have hslice := slice_lowest_eq_nonEmptyPrefix p
  have hjoin : (get_rank_uid p (-1)).data =
      uidJoin ((nonEmptyPrefix p).map String.data) := by
    rw [show get_rank_uid p (-1) =
      ⟨uidJoin ((pySliceTo p (lowest_assigned_rank_level p + 1)).map String.data)⟩ from rfl,
      hslice]
  have hsplit : pySplitUID (get_rank_uid p (-1)).data = (nonEmptyPrefix p).map String.data := by
    rw [hjoin]
    refine splitUID_join _ (by simpa using hne) ?_ ?_
    · intro x hx
      obtain ⟨y, hy, rfl⟩ := List.mem_map.mp hx
      exact hd y hy
    · intro x hx
      rw [dropLast_map] at hx
      obtain ⟨y, hy, rfl⟩ := List.mem_map.mp hx
      exact hl y hy
  unfold split_rank_uid
  rw [hsplit]
  have hmk : ((nonEmptyPrefix p).map String.data).map (fun l => (⟨l⟩ : String)) =
      nonEmptyPrefix p := by
    rw [List.map_map]
    exact List.map_id _
  rw [hmk]
  simp

/-- Witness for C5 (amended) at a concrete path with an interior gap. -/
theorem c5_amended_witness :
    split_rank_uid (get_rank_uid ["Bacteria", "-", "Firmicutes", "-"] (-1)) 0 =
      nonEmptyPrefix ["Bacteria", "-", "Firmicutes", "-"] :=
  c5_amended _ (by decide) (by decide) (by decide)

/-- C5 counterexample: on the entirely empty path `["-"]` the claim predicts
the empty prefix `[]`, but the code returns `[""]`, because Python's
`"".split("@@")` is `[""]`. -/
theorem c5_counterexample :
    split_rank_uid (get_rank_uid [EMPTY_RANK] (-1)) 0 = [""] ∧
    nonEmptyPrefix [EMPTY_RANK] = [] ∧
    split_rank_uid (get_rank_uid [EMPTY_RANK] (-1)) 0 ≠ nonEmptyPrefix [EMPTY_RANK] := by
  refine ⟨by decide, by decide, by decide⟩

/-! ### Association-list dictionary lemmas -/

theorem alookup_nil (k : String) : alookup ([] : List (String × α)) k = none := rfl

theorem alookup_cons (p : String × α) (l : List (String × α)) (k : String) :
    alookup (p :: l) k = if p.1 = k then some p.2 else alookup l k := by
  by_cases h : p.1 = k
  · simp [alookup, List.find?_cons, h]
  · simp [alookup, List.find?_cons, h]

theorem amem_cons (p : String × α) (l : List (String × α)) (k : String) :
    amem (p :: l) k = (p.1 == k || amem l k) := by
  simp [amem]

theorem amem_eq_isSome (l : List (String × α)) (k : String) :
    amem l k = (alookup l k).isSome := by
  induction l with
  | nil => rfl
  | cons p rest ih =>
    rw [amem_cons, alookup_cons]
    by_cases h : p.1 = k
    · simp [h]
    · simp [h, ih]

theorem alookup_map_replace_self (l : List (String × α)) (k : String) (v : α)
    (hm : amem l k = true) :
    alookup (l.map (fun p => if p.1 == k then (k, v) else p)) k = some v := by
  induction l with
  | nil => simp [amem] at hm
  | cons p rest ih =>
    by_cases hp : p.1 = k
    · simp [alookup_cons, hp]
    · rw [amem_cons] at hm
      have hm' : amem rest k = true := by
        simpa [hp] using hm
      simp only [List.map_cons]
      rw [if_neg (by simp [hp]), alookup_cons, if_neg hp]
      exact ih hm'

theorem alookup_map_replace_ne (l : List (String × α)) (k : String) (v : α) (k' : String)
    (hk : k' ≠ k) :
    alookup (l.map (fun p => if p.1 == k then (k, v) else p)) k' = alookup l k' := by
  induction l with
  | nil => rfl
  | cons p rest ih =>
    by_cases hp : p.1 = k
    · have hpk' : p.1 ≠ k' := by
        rw [hp]; exact Ne.symm hk
      simp only [List.map_cons]
      rw [if_pos (by simp [hp]), alookup_cons, alookup_cons, if_neg (Ne.symm hk),
        if_neg hpk', ih]
    · simp only [List.map_cons]
      rw [if_neg (by simp [hp]), alookup_cons, alookup_cons, ih]

theorem alookup_append_singleton (l : List (String × α)) (k : String) (v : α) (k' : String)
    (hm : amem l k = false) :
    alookup (l ++ [(k, v)]) k' = if k' = k then some v else alookup l k' := by
  induction l with
  | nil =>
    rw [List.nil_append, alookup_cons, alookup_nil]
    by_cases h : k' = k
    · rw [if_pos (h ▸ rfl), if_pos h]
    · rw [if_neg (fun hh => h hh.symm), if_neg h]
  | cons p rest ih =>
    rw [amem_cons] at hm
    have hp : p.1 ≠ k := by
      intro h; simp [h] at hm
    have hm' : amem rest k = false := by
      simpa [hp] using hm
    rw [List.cons_append, alookup_cons, alookup_cons, ih hm']
    by_cases hpk : p.1 = k'
    · rw [if_pos hpk, if_pos hpk, if_neg (fun hh : k' = k => hp (hpk.trans hh))]
    · rw [if_neg hpk, if_neg hpk]

theorem alookup_aset (l : List (String × α)) (k : String) (v : α) (k' : String) :
    alookup (aset l k v) k' = if k' = k then some v else alookup l k' := by
  unfold aset
  by_cases hm : amem l k
  · rw [if_pos hm]
    by_cases hk : k' = k
    · rw [if_pos hk, hk, alookup_map_replace_self l k v hm]
    · rw [if_neg hk, alookup_map_replace_ne l k v k' hk]
  · rw [if_neg hm, alookup_append_singleton l k v k' (by simpa using hm)]

theorem amem_aset (l : List (String × α)) (k : String) (v : α) (k' : String) :
    amem (aset l k v) k' = (k' == k || amem l k') := by
  rw [amem_eq_isSome, amem_eq_isSome, alookup_aset]
  by_cases h : k' = k
  · simp [h]
  · simp [h]

theorem alookup_filter_ne (l : List (String × α)) (k k' : String) (hk : k' ≠ k) :
    alookup (l.filter (fun p => p.1 != k)) k' = alookup l k' := by
  induction l with
  | nil => rfl
  | cons p rest ih =>
    by_cases hp : p.1 = k
    · rw [List.filter_cons_of_neg (by simp [hp]), alookup_cons,
        if_neg (by rw [hp]; exact fun h => hk h.symm), ih]
    · rw [List.filter_cons_of_pos (by simp [hp]), alookup_cons, alookup_cons, ih]

theorem amem_filter_self (l : List (String × α)) (k : String) :
    amem (l.filter (fun p => p.1 != k)) k = false := by
  induction l with
  | nil => rfl
  | cons p rest ih =>
    by_cases hp : p.1 = k
    · rw [List.filter_cons_of_neg (by simp [hp])]
      exact ih
    · rw [List.filter_cons_of_pos (by simp [hp]), amem_cons, ih]
      simp [hp]

theorem adel_eq_some (l l' : List (String × α)) (k : String) (h : adel l k = some l') :
    l' = l.filter (fun p => p.1 != k) ∧ amem l k = true := by
  unfold adel at h
  by_cases hm : amem l k
  · rw [if_pos hm] at h
    exact ⟨(Option.some.injEq _ _ ▸ h).symm, hm⟩
  · rw [if_neg hm] at h
    exact absurd h (by simp)

theorem alookup_foldl_aset (sids : List String) (m : List (String × α)) (v : α) (x : String) :
    alookup (sids.foldl (fun sm sid => aset sm sid v) m) x =
      if x ∈ sids then some v else alookup m x := by
  induction sids generalizing m with
  | nil => simp
  | cons s rest ih =>
    simp only [List.foldl_cons]
    rw [ih]
    by_cases hx : x ∈ rest
    · simp [hx]
    · rw [if_neg hx, alookup_aset]
      by_cases hxs : x = s
      · simp [hxs]
      · simp [hx, hxs]

/-! ### Claim C6: `merge_ranks` -/

/-- The merged rank path computed by `merge_ranks` from its first key
(source lines 289-292): the split of the first key with the name at its
lowest assigned level replaced by the prefixed name. -/
def mergedRank (k1 namePfx : String) : List String :=
  let first_taxon := split_rank_uid k1 0
  let merge_lvl := lowest_assigned_rank_level first_taxon
  pySliceTo first_taxon merge_lvl ++ [namePfx ++ (pyIdx first_taxon merge_lvl).getD ""]

/-- The merged LineageKey produced by `merge_ranks` (source line 293). -/
def mergedRankId (k1 namePfx : String) : String :=
  get_rank_uid (mergedRank k1 namePfx) (-1)

theorem split_rank_uid_ne_nil (s : String) : split_rank_uid s 0 ≠ [] := by
  unfold split_rank_uid
  rw [if_neg (by omega)]
  simp [pySplitUID_ne_nil]

theorem pyIdx_lowest_isSome (l : List String) (h : l ≠ []) :
    (pyIdx l (lowest_assigned_rank_level l)).isSome = true := by
  have hlen : 0 < l.length := List.length_pos.mpr h
  have h1 := lowFrom_lt l l.length
  have h2 := neg_one_le_lowFrom l l.length
  unfold pyIdx lowest_assigned_rank_level
  by_cases hs : 0 ≤ lowFrom l l.length
  · rw [if_pos hs]
    have : (lowFrom l l.length).toNat < l.length := by
      unfold lowest_assigned_rank_level at *
      omega
    rw [List.getElem?_eq_getElem this]
    rfl
  · rw [if_neg hs]
    have hm1 : lowFrom l l.length = -1 := by
      unfold lowest_assigned_rank_level at *
      omega
    rw [hm1]
    have : ((1 : Int)).toNat = 1 := rfl
    rw [if_pos (by simp; omega)]
    rw [List.getElem?_eq_getElem (by omega)]
    rfl

theorem amem_filter_false (l : List (String × α)) (q : String × α → Bool) (k : String)
    (h : amem l k = false) : amem (l.filter q) k = false := by
  induction l with
  | nil => rfl
  | cons p rest ih =>
    rw [amem_cons] at h
    have hp : ¬(p.1 == k) = true := by
      intro hh; simp [hh] at h
    have h' : amem rest k = false := by
      simpa [hp] using h
    by_cases hq : q p
    · rw [List.filter_cons_of_pos hq, amem_cons, ih h']
      simpa using hp
    · rw [List.filter_cons_of_neg hq]
      exact ih h'

/-- C6 (amended): on two distinct keys both present in the reverse index,
provided the synthesized merged key differs from both (which the default
non-empty name prefix ensures in normal use), `merge_ranks` produces one
group holding the concatenation of the two groups (size `a + b`) under the
merged key, removes both old keys, and repoints every merged sequence's
rank path to the merged path; with fewer than two keys it is a no-op
returning `None`. -/
theorem c6_amended :
    (∀ (t : Taxonomy) (k1 k2 pfx : String) (g1 g2 : List String),
      k1 ≠ k2 →
      alookup t.rank_seqs_map k1 = some g1 →
      alookup t.rank_seqs_map k2 = some g2 →
      mergedRankId k1 pfx ≠ k1 →
      mergedRankId k1 pfx ≠ k2 →
      ∃ t', t.merge_ranks [k1, k2] pfx = .ok (some (mergedRankId k1 pfx), t') ∧
        alookup t'.rank_seqs_map (mergedRankId k1 pfx) = some (g1 ++ g2) ∧
        (g1 ++ g2).length = g1.length + g2.length ∧
        amem t'.rank_seqs_map k1 = false ∧
        amem t'.rank_seqs_map k2 = false ∧
        (∀ sid ∈ g1 ++ g2, alookup t'.seq_ranks_map sid = some (mergedRank k1 pfx))) ∧
    (∀ (t : Taxonomy) (ks : List String) (pfx : String), ks.length < 2 →
      t.merge_ranks ks pfx = .ok (none, t)) := by
  constructor
  · intro t k1 k2 pfx g1 g2 hne h1 h2 hf1 hf2
    have hmem1 : amem t.rank_seqs_map k1 = true := by
      rw [amem_eq_isSome, h1]; rfl
    set m1 : List (String × List String) :=
      t.rank_seqs_map.filter (fun p => p.1 != k1) with hm1def
    have hdel1 : adel t.rank_seqs_map k1 = some m1 := by
      unfold adel; rw [if_pos hmem1]
    have hl2 : alookup m1 k2 = some g2 := by
      rw [hm1def, alookup_filter_ne _ _ _ (Ne.symm hne), h2]
    have hmem2 : amem m1 k2 = true := by
      rw [amem_eq_isSome, hl2]; rfl
    set m2 : List (String × List String) := m1.filter (fun p => p.1 != k2) with hm2def
    have hdel2 : adel m1 k2 = some m2 := by
      unfold adel; rw [if_pos hmem2]
    have hcol : mergeCollect [k1, k2] [] t.rank_seqs_map = .ok (g1 ++ g2, m2) := by
      unfold mergeCollect
      rw [h1, hdel1]
      unfold mergeCollect
      rw [hl2, hdel2]
      unfold mergeCollect
      simp
    have hft : split_rank_uid k1 0 ≠ [] := split_rank_uid_ne_nil k1
    obtain ⟨base, hbase⟩ := Option.isSome_iff_exists.mp
      (pyIdx_lowest_isSome (split_rank_uid k1 0) hft)
    have hrank : mergedRank k1 pfx = pySliceTo (split_rank_uid k1 0)
        (lowest_assigned_rank_level (split_rank_uid k1 0)) ++ [pfx ++ base] := by
      simp only [mergedRank, hbase, Option.getD_some]
    refine ⟨{ t with
        rank_seqs_map := aset m2 (mergedRankId k1 pfx) (g1 ++ g2)
        seq_ranks_map := (g1 ++ g2).foldl
          (fun sm sid => aset sm sid (mergedRank k1 pfx)) t.seq_ranks_map },
      ?_, ?_, ?_, ?_, ?_, ?_⟩
    · show Taxonomy.merge_ranks _ _ _ = _
      unfold Taxonomy.merge_ranks
      rw [if_neg (by simp), hcol]
      simp only [List.headD_cons, hbase, ← hrank, mergedRankId]
    · simp [alookup_aset]
    · simp [List.length_append]
    · rw [amem_aset]
      have : (k1 == mergedRankId k1 pfx) = false := by
        simp [Ne.symm hf1]
      rw [this, Bool.false_or, hm2def]
      apply amem_filter_false
      rw [hm1def]
      exact amem_filter_self _ _
    · rw [amem_aset]
      have : (k2 == mergedRankId k1 pfx) = false := by
        simp [Ne.symm hf2]
      rw [this, Bool.false_or, hm2def]
      exact amem_filter_self _ _
    · intro sid hsid
      rw [alookup_foldl_aset, if_pos hsid]
  · intro t ks pfx hks
    unfold Taxonomy.merge_ranks
    rw [if_pos hks]

/-- Witness for C6 (amended) at a concrete two-group store with the default
cluster prefix. -/
theorem c6_amended_witness :
    ∃ t', (taxFromMap "" [("s1", ["A"]), ("s2", ["B"])]).merge_ranks ["A", "B"]
        "__TAXCLUSTER__" = .ok (some (mergedRankId "A" "__TAXCLUSTER__"), t') ∧
      alookup t'.rank_seqs_map (mergedRankId "A" "__TAXCLUSTER__") = some (["s1"] ++ ["s2"]) ∧
      ((["s1"] : List String) ++ ["s2"]).length = ["s1"].length + ["s2"].length ∧
      amem t'.rank_seqs_map "A" = false ∧
      amem t'.rank_seqs_map "B" = false ∧
      (∀ sid ∈ (["s1"] : List String) ++ ["s2"],
        alookup t'.seq_ranks_map sid = some (mergedRank "A" "__TAXCLUSTER__")) :=
  c6_amended.1 (taxFromMap "" [("s1", ["A"]), ("s2", ["B"])]) "A" "B" "__TAXCLUSTER__"
    ["s1"] ["s2"] (by decide) (by rfl) (by rfl) (by decide) (by decide)

/-- C6 counterexample: with the empty name prefix the merged key coincides
with the first key, so after `merge_ranks(["A",""B"], "")` the key `"A"`
REMAINS a key of the reverse index (holding the merged group), contradicting
the claim's unconditional "neither k1 nor k2 remains a key". -/
theorem c6_counterexample :
    (taxFromMap "" [("s1", ["A"]), ("s2", ["B"])]).merge_ranks ["A", "B"] "" =
      .ok (some "A", ⟨"", [("s1", ["A"]), ("s2", ["A"])], [("A", ["s1", "s2"])]⟩) ∧
    amem ([("A", ["s1", "s2"])] : List (String × List String)) "A" = true := by
  exact ⟨by rfl, by decide⟩

/-! ### Claim C3: `check_for_disbalance(autofix=True)` -/

/-- Spec-side: the drop-candidate positions (suffix `dae`/`neae`) of a path,
in ascending order. -/
def dropPositions (ranks : List String) : List Nat :=
  (List.range' 1 (ranks.length - 1)).filter (fun i => isDropName (ranks.getD i ""))

/-- Spec-side: the keep-candidate positions (suffix `ceae`/`ales`, not drop
candidates). -/
def keepPositions (ranks : List String) : List Nat :=
  (List.range' 1 (ranks.length - 1)).filter
    (fun i => !isDropName (ranks.getD i "") && isKeepName (ranks.getD i ""))

/-- Spec-side: the remainder positions. -/
def restPositions (ranks : List String) : List Nat :=
  (List.range' 1 (ranks.length - 1)).filter
    (fun i => !isDropName (ranks.getD i "") && !isKeepName (ranks.getD i ""))

theorem disbQueues_go (ranks : List String) :
    ∀ (idxs : List Nat) (a b c : List Nat),
      idxs.foldl (fun acc i =>
        let r := ranks.getD i ""
        if isDropName r then (acc.1 ++ [i], acc.2.1, acc.2.2)
        else if isKeepName r then (acc.1, acc.2.1 ++ [i], acc.2.2)
        else (acc.1, acc.2.1, acc.2.2 ++ [i])) (a, b, c) =
      (a ++ idxs.filter (fun i => isDropName (ranks.getD i "")),
       b ++ idxs.filter (fun i => !isDropName (ranks.getD i "") && isKeepName (ranks.getD i "")),
       c ++ idxs.filter (fun i => !isDropName (ranks.getD i "") && !isKeepName (ranks.getD i "")))
  | [], a, b, c => by simp
  | i :: rest, a, b, c => by
    by_cases hd : isDropName (ranks.getD i "") = true
    · have hd2 : isDropName (ranks[i]?.getD "") = true := by simpa using hd
      simp only [List.foldl_cons]
      rw [if_pos hd, disbQueues_go ranks rest (a ++ [i]) b c]
      simp [List.filter_cons, hd2, List.append_assoc]
    · have hd2 : ¬isDropName (ranks[i]?.getD "") = true := by simpa using hd
      by_cases hk : isKeepName (ranks.getD i "") = true
      · have hk2 : isKeepName (ranks[i]?.getD "") = true := by simpa using hk
        simp only [List.foldl_cons]
        rw [if_neg hd, if_pos hk, disbQueues_go ranks rest a (b ++ [i]) c]
        simp [List.filter_cons, hd2, hk2, List.append_assoc]
      · have hk2 : ¬isKeepName (ranks[i]?.getD "") = true := by simpa using hk
        simp only [List.foldl_cons]
        rw [if_neg hd, if_neg hk, disbQueues_go ranks rest a b (c ++ [i])]
        simp [List.filter_cons, hd2, hk2, List.append_assoc]

theorem disbQueues_eq (ranks : List String) :
    disbQueues ranks = (dropPositions ranks, keepPositions ranks, restPositions ranks) := by
  unfold disbQueues dropPositions keepPositions restPositions
  rw [disbQueues_go]
  simp

theorem foldl_append_filter (f : Nat → String) (q : Nat → Bool) :
    ∀ (idxs : List Nat) (acc : List String),
      idxs.foldl (fun acc i => if q i then acc else acc ++ [f i]) acc =
        acc ++ (idxs.filter (fun i => !q i)).map f
  | [], acc => by simp
  | i :: rest, acc => by
    by_cases h : q i = true
    · simp only [List.foldl_cons, if_pos h]
      rw [foldl_append_filter f q rest acc]
      simp [List.filter_cons, h]
    · simp only [List.foldl_cons, if_neg h]
      rw [foldl_append_filter f q rest (acc ++ [f i])]
      simp [List.filter_cons, h, List.append_assoc]

theorem countP_three_split (p q : α → Bool) :
    ∀ l : List α,
      (l.filter p).length + (l.filter (fun x => !p x && q x)).length +
        (l.filter (fun x => !p x && !q x)).length = l.length
  | [] => rfl
  | x :: rest => by
    have ih := countP_three_split p q rest
    by_cases hp : p x = true
    · simp [List.filter_cons, hp]
      omega
    · by_cases hq : q x = true
      · simp [List.filter_cons, hp, hq]
        omega
      · simp [List.filter_cons, hp, hq]
        omega

theorem length_filter_bne (r : Nat) :
    ∀ l : List Nat, (l.filter (fun i => i != r)).length + l.count r = l.length
  | [] => rfl
  | i :: rest => by
    have ih := length_filter_bne r rest
    by_cases h : i = r
    · subst h
      simp [List.filter_cons, List.count_cons]
      omega
    · simp [List.filter_cons, List.count_cons, h, bne_iff_ne]
      omega

theorem length_filter_not_contains :
    ∀ (R l : List Nat), l.Nodup → R.Nodup → (∀ x ∈ R, x ∈ l) →
      (l.filter (fun i => !(R.contains i))).length = l.length - R.length
  | [], l, _, _, _ => by
    simp
  | r :: R', l, hl, hR, hsub => by
    have hrl : r ∈ l := hsub r (by simp)
    have hcount : l.count r = 1 := by
      have h1 : l.count r ≤ 1 := List.nodup_iff_count_le_one.mp hl r
      have h2 : 0 < l.count r := List.count_pos_iff.mpr hrl
      omega
    have hRnd : R'.Nodup := (List.nodup_cons.mp hR).2
    have hrR : r ∉ R' := (List.nodup_cons.mp hR).1
    have hstep : l.filter (fun i => !((r :: R').contains i)) =
        (l.filter (fun i => i != r)).filter (fun i => !(R'.contains i)) := by
      rw [List.filter_filter]
      apply List.filter_congr
      intro x _
      show (!(r :: R').contains x) = (!(R'.contains x) && (x != r))
      by_cases hx : x = r
      · simp [hx]
      · simp [List.contains_cons, hx, bne_iff_ne]
    have hlen' : (l.filter (fun i => i != r)).length = l.length - 1 := by
      have := length_filter_bne r l
      omega
    have hsub' : ∀ x ∈ R', x ∈ l.filter (fun i => i != r) := by
      intro x hx
      rw [List.mem_filter]
      refine ⟨hsub x (by simp [hx]), ?_⟩
      have : x ≠ r := fun h => hrR (h ▸ hx)
      simp [this]
    have ih := length_filter_not_contains R' (l.filter (fun i => i != r))
      (hl.filter _) hRnd hsub'
    rw [hstep, ih, hlen']
    simp
    omega

theorem disbStep_snd (p : String × List String) :
    (disbStep true p).2 = (p.1, if 7 < p.2.length then disbFix p.2 else p.2) := by
  by_cases h : 7 < p.2.length
  · simp [disbStep, h]
  · simp [disbStep, h]

theorem filterMap_disbStep :
    ∀ l : List (String × List String),
      l.filterMap (fun p => (disbStep true p).1) =
        (l.filter (fun p => decide (7 < p.2.length))).map
          (fun p => ErrRec.three p.1 (lineage_str_of_str p.1) (lineage_str_of_str p.1))
  | [] => rfl
  | p :: rest => by
    have ih := filterMap_disbStep rest
    by_cases h : 7 < p.2.length
    · have h1 : (disbStep true p).1 =
          some (ErrRec.three p.1 (lineage_str_of_str p.1) (lineage_str_of_str p.1)) := by
        simp [disbStep, h]
      rw [List.filterMap_cons, List.filter_cons, h1, if_pos (by simpa using h)]
      simp [ih]
    · have h1 : (disbStep true p).1 = none := by
        simp [disbStep, h]
      rw [List.filterMap_cons, List.filter_cons, h1, if_neg (by simpa using h)]
      simp [ih]

theorem disb_toRemove_length (ranks : List String) (h7 : 7 < ranks.length) :
    (disbToRemove ranks).length = ranks.length - 7 := by
  unfold disbToRemove
  rw [List.length_take]
  have hsplit := countP_three_split (fun i => isDropName (ranks.getD i ""))
    (fun i => isKeepName (ranks.getD i "")) (List.range' 1 (ranks.length - 1))
  have hlen : (List.range' 1 (ranks.length - 1)).length = ranks.length - 1 :=
    List.length_range' _ _ _
  rw [List.length_append, List.length_append]
  unfold disbQueues
  rw [disbQueues_go]
  simp only [List.nil_append]
  rw [hlen] at hsplit
  omega

theorem disb_toRemove_nodup (ranks : List String) : (disbToRemove ranks).Nodup := by
  unfold disbToRemove
  apply List.Nodup.sublist (List.take_sublist _ _)
  have hnd : (List.range' 1 (ranks.length - 1)).Nodup :=
    List.nodup_range' 1 (ranks.length - 1)
  unfold disbQueues
  rw [disbQueues_go]
  simp only [List.nil_append]
  apply List.Nodup.append
  · apply List.Nodup.append (hnd.filter _) (hnd.filter _)
    intro x hx hx'
    have h1 := List.of_mem_filter hx
    have h2 := List.of_mem_filter hx'
    simp only [Bool.and_eq_true, Bool.not_eq_true'] at h1 h2
    rw [h1] at h2
    simp at h2
  · exact hnd.filter _
  · intro x hx hx'
    have h2 := List.of_mem_filter hx'
    simp only [Bool.and_eq_true, Bool.not_eq_true'] at h2
    rw [List.mem_append] at hx
    rcases hx with hx | hx
    · have h1 := List.of_mem_filter hx
      rw [h1] at h2
      simp at h2
    · have h1 := List.of_mem_filter hx
      simp only [Bool.and_eq_true, Bool.not_eq_true'] at h1
      rw [h1.2] at h2
      simp at h2

theorem disb_toRemove_subset (ranks : List String) :
    ∀ x ∈ disbToRemove ranks, x ∈ List.range ranks.length := by
  intro x hx
  unfold disbToRemove at hx
  have hx' := List.take_subset _ _ hx
  unfold disbQueues at hx'
  rw [disbQueues_go] at hx'
  simp only [List.nil_append, List.mem_append] at hx'
  have hrange : x ∈ List.range' 1 (ranks.length - 1) := by
    rcases hx' with (h | h) | h <;> exact (List.mem_filter.mp h).1
  rw [List.mem_range'_1] at hrange
  rw [List.mem_range]
  omega

theorem disbFix_length (ranks : List String) (h7 : 7 < ranks.length) :
    (disbFix ranks).length = 7 := by
  unfold disbFix
  rw [foldl_append_filter (fun i => ranks.getD i "") (fun i => (disbToRemove ranks).contains i)]
  rw [List.nil_append, List.length_map]
  rw [length_filter_not_contains (disbToRemove ranks) (List.range ranks.length)
    (List.nodup_range _) (disb_toRemove_nodup ranks) (disb_toRemove_subset ranks)]
  rw [List.length_range, disb_toRemove_length ranks h7]
  omega

/-- C3: after `check_for_disbalance(autofix=True)` every path longer than 7
is replaced by `disbFix`, every path of length at most 7 is unchanged, one
error record is returned per previously-unbalanced sequence (and none
other), the removed positions are exactly the first `len - 7` positions of
the priority list drop-candidates, then remainder, then keep-candidates,
the surviving positions keep their original ascending order, and every
previously-unbalanced path ends up with length exactly 7. -/
theorem c3_theorem (t : Taxonomy) :
    ((t.check_for_disbalance true).2.seq_ranks_map =
      t.seq_ranks_map.map (fun p => (p.1, if 7 < p.2.length then disbFix p.2 else p.2))) ∧
    ((t.check_for_disbalance true).1 =
      (t.seq_ranks_map.filter (fun p => decide (7 < p.2.length))).map
        (fun p => ErrRec.three p.1 (lineage_str_of_str p.1) (lineage_str_of_str p.1))) ∧
    (∀ p ∈ t.seq_ranks_map, 7 < (p.2 : List String).length →
      disbToRemove p.2 =
        (dropPositions p.2 ++ restPositions p.2 ++ keepPositions p.2).take (p.2.length - 7) ∧
      disbFix p.2 = ((List.range p.2.length).filter
        (fun i => !((disbToRemove p.2).contains i))).map (fun i => p.2.getD i "") ∧
      (disbFix p.2).length = 7) := by
  refine ⟨?_, ?_, ?_⟩
  · show (t.seq_ranks_map.map (fun p => (disbStep true p).2)) = _
    have : (fun p : String × List String => (disbStep true p).2) =
        (fun p : String × List String => (p.1, if 7 < p.2.length then disbFix p.2 else p.2)) :=
      funext disbStep_snd
    rw [this]
  · exact filterMap_disbStep t.seq_ranks_map
  · intro p _ h7
    refine ⟨?_, ?_, disbFix_length p.2 h7⟩
    · unfold disbToRemove
      rw [disbQueues_eq]
    · unfold disbFix
      rw [foldl_append_filter (fun i => p.2.getD i "")
        (fun i => (disbToRemove p.2).contains i), List.nil_append]

/-- Witness for C3 at a nine-level path (two positions removed: the `dae`
drop candidate first, then the first remainder position). -/
theorem c3_theorem_witness :
    (disbToRemove ["K", "Pdae", "C", "Oales", "F", "G", "S", "T", "U"] =
      (dropPositions ["K", "Pdae", "C", "Oales", "F", "G", "S", "T", "U"] ++
       restPositions ["K", "Pdae", "C", "Oales", "F", "G", "S", "T", "U"] ++
       keepPositions ["K", "Pdae", "C", "Oales", "F", "G", "S", "T", "U"]).take
        (["K", "Pdae", "C", "Oales", "F", "G", "S", "T", "U"].length - 7) ∧
     disbFix ["K", "Pdae", "C", "Oales", "F", "G", "S", "T", "U"] =
      ((List.range ["K", "Pdae", "C", "Oales", "F", "G", "S", "T", "U"].length).filter
        (fun i => !((disbToRemove ["K", "Pdae", "C", "Oales", "F", "G", "S", "T", "U"]).contains i))).map
        (fun i => ["K", "Pdae", "C", "Oales", "F", "G", "S", "T", "U"].getD i "") ∧
     (disbFix ["K", "Pdae", "C", "Oales", "F", "G", "S", "T", "U"]).length = 7) :=
  (c3_theorem (taxFromMap "" [("s1", ["K", "Pdae", "C", "Oales", "F", "G", "S", "T", "U"])])).2.2
    ("s1", ["K", "Pdae", "C", "Oales", "F", "G", "S", "T", "U"]) (by decide) (by decide)

/-! ### Claim C4: `close_taxonomy_gaps` -/

/-- Spec-side: the nearest non-empty entry strictly below position `i` — the
"most recently seen" name during the bottom-up scan. -/
def nearestBelow (ranks : List String) (i : Nat) : Option String :=
  (ranks.drop (i + 1)).find? (fun s => s != EMPTY_RANK)

/-- Spec-side: the DEEPEST non-empty entry strictly below position `i`, which
is what the claim's wording literally designates. -/
def deepestBelow (ranks : List String) (i : Nat) : Option String :=
  ((ranks.drop (i + 1)).reverse).find? (fun s => s != EMPTY_RANK)

theorem cg_len : ∀ l : List String, (cgAux l).1.length = l.length
  | [] => rfl
  | x :: xs => by
    have ih := cg_len xs
    by_cases hx : x = EMPTY_RANK
    · cases hl : (cgAux xs).2.1 with
      | none => simp [cgAux, hx, hl, ih]
      | some lr => by_cases hlr : lr = "" <;> simp [cgAux, hx, hl, hlr, ih]
    · simp [cgAux, hx, ih]

theorem cg_last : ∀ l : List String, (cgAux l).2.1 = l.find? (fun s => s != EMPTY_RANK)
  | [] => rfl
  | x :: xs => by
    have ih := cg_last xs
    by_cases hx : x = EMPTY_RANK
    · subst hx
      have hf : List.find? (fun s => s != EMPTY_RANK) (EMPTY_RANK :: xs) =
          List.find? (fun s => s != EMPTY_RANK) xs := by
        simp [List.find?_cons]
      rw [hf, ← ih]
      cases hl : (cgAux xs).2.1 with
      | none => simp [cgAux, hl]
      | some lr => by_cases hlr : lr = "" <;> simp [cgAux, hl, hlr]
    · simp [cgAux, hx, List.find?_cons, ih]

theorem cg_get : ∀ (l : List String) (i : Nat),
    ((cgAux l).1)[i]? =
      match l[i]? with
      | none => none
      | some x =>
        if x = EMPTY_RANK then
          match (l.drop (i + 1)).find? (fun s => s != EMPTY_RANK) with
          | some v =>
            if v = "" then some EMPTY_RANK
            else some ("parent" ++ natDecimal ((cgAux (l.drop (i + 1))).2.2 + 1) ++ "_" ++ v)
          | none => some EMPTY_RANK
        else some x
  | [], i => by simp [cgAux]
  | x :: xs, 0 => by
    by_cases hx : x = EMPTY_RANK
    · cases hl : (cgAux xs).2.1 with
      | none =>
        have hfind : xs.find? (fun s => s != EMPTY_RANK) = none := by
          rw [← cg_last]; exact hl
        simp [cgAux, hx, hl, hfind]
      | some lr =>
        have hfind : xs.find? (fun s => s != EMPTY_RANK) = some lr := by
          rw [← cg_last]; exact hl
        by_cases hlr : lr = "" <;> simp [cgAux, hx, hl, hfind, hlr]
    · simp [cgAux, hx]
  | x :: xs, i + 1 => by
    have ih := cg_get xs i
    have htail : ((cgAux (x :: xs)).1)[i + 1]? = ((cgAux xs).1)[i]? := by
      by_cases hx : x = EMPTY_RANK
      · cases hl : (cgAux xs).2.1 with
        | none => simp [cgAux, hx, hl]
        | some lr => by_cases hlr : lr = "" <;> simp [cgAux, hx, hl, hlr]
      · simp [cgAux, hx]
    rw [htail, ih]
    simp only [List.getElem?_cons_succ, List.drop_succ_cons]

theorem cg_count_cons_le (x : String) (xs : List String) :
    (cgAux xs).2.2 ≤ (cgAux (x :: xs)).2.2 := by
  by_cases hx : x = EMPTY_RANK
  · cases hl : (cgAux xs).2.1 with
    | none => simp [cgAux, hx, hl]
    | some lr =>
      by_cases hlr : lr = ""
      · simp [cgAux, hx, hl, hlr]
      · simp [cgAux, hx, hl, hlr]
  · simp [cgAux, hx]

theorem cg_count_cons_fill (x : String) (xs : List String) (lr : String)
    (hx : x = EMPTY_RANK) (hl : (cgAux xs).2.1 = some lr) (hlr : lr ≠ "") :
    (cgAux (x :: xs)).2.2 = (cgAux xs).2.2 + 1 := by
  simp [cgAux, hx, hl, hlr]

theorem cg_count_tail (l : List String) : (cgAux l.tail).2.2 ≤ (cgAux l).2.2 := by
  cases l with
  | nil => simp
  | cons x xs =>
    rw [List.tail_cons]
    exact cg_count_cons_le x xs

theorem cg_count_drop_le (l : List String) (d m : Nat) :
    (cgAux (l.drop (m + d))).2.2 ≤ (cgAux (l.drop m)).2.2 := by
  induction d with
  | zero => exact Nat.le_refl _
  | succ d ih =>
    have h1 : l.drop (m + d + 1) = (l.drop (m + d)).tail := by
      rw [← List.drop_drop]
      simp [List.drop_one]
    calc (cgAux (l.drop (m + (d + 1)))).2.2
        = (cgAux ((l.drop (m + d)).tail)).2.2 := by rw [← h1]; ring_nf
      _ ≤ (cgAux (l.drop (m + d))).2.2 := cg_count_tail _
      _ ≤ (cgAux (l.drop m)).2.2 := ih

/-- Two digits with equal rendering are equal. -/
theorem digit_inj (a b : Nat) (ha : a < 10) (hb : b < 10)
    (h : Char.ofNat (48 + a) = Char.ofNat (48 + b)) : a = b := by
  have H : ∀ a b : Fin 10, Char.ofNat (48 + a.val) = Char.ofNat (48 + b.val) → a = b := by
    decide
  have := H ⟨a, ha⟩ ⟨b, hb⟩ h
  exact congrArg Fin.val this

theorem decCharsGo_ne_nil : ∀ (f n : Nat), n < f → decCharsGo f n ≠ []
  | f + 1, n, _ => by
    by_cases h10 : n < 10
    · simp [decCharsGo, h10]
    · simp [decCharsGo, h10]

theorem decCharsGo_fuel : ∀ (fa fb n : Nat), n < fa → n < fb →
    decCharsGo fa n = decCharsGo fb n
  | fa + 1, fb + 1, n, ha, hb => by
    by_cases h10 : n < 10
    · simp [decCharsGo, h10]
    · have hdiv : n / 10 < n := Nat.div_lt_self (by omega) (by omega)
      simp only [decCharsGo, if_neg h10]
      rw [decCharsGo_fuel fa fb (n / 10) (by omega) (by omega)]

theorem decCharsGo_inj : ∀ (fa fb a b : Nat), a < fa → b < fb →
    decCharsGo fa a = decCharsGo fb b → a = b
  | fa + 1, fb + 1, a, b, ha, hb, h => by
    by_cases h10a : a < 10 <;> by_cases h10b : b < 10
    · simp only [decCharsGo, if_pos h10a, if_pos h10b, List.cons.injEq, and_true] at h
      exact digit_inj a b h10a h10b h
    · exfalso
      have hbd : b / 10 < b := Nat.div_lt_self (by omega) (by omega)
      simp only [decCharsGo, if_pos h10a, if_neg h10b] at h
      have hlen := congrArg List.length h
      have hne := decCharsGo_ne_nil fb (b / 10) (by omega)
      simp [List.length_append] at hlen
      cases hd : decCharsGo fb (b / 10) with
      | nil => exact hne hd
      | cons c cs => rw [hd] at hlen; simp at hlen
    · exfalso
      have had : a / 10 < a := Nat.div_lt_self (by omega) (by omega)
      simp only [decCharsGo, if_neg h10a, if_pos h10b] at h
      have hlen := congrArg List.length h
      have hne := decCharsGo_ne_nil fa (a / 10) (by omega)
      simp [List.length_append] at hlen
      cases hd : decCharsGo fa (a / 10) with
      | nil => exact hne hd
      | cons c cs => rw [hd] at hlen; simp at hlen
    · have had : a / 10 < a := Nat.div_lt_self (by omega) (by omega)
      have hbd : b / 10 < b := Nat.div_lt_self (by omega) (by omega)
      simp only [decCharsGo, if_neg h10a, if_neg h10b] at h
      have hrev := congrArg List.reverse h
      simp only [List.reverse_append, List.reverse_cons, List.reverse_nil,
        List.nil_append, List.singleton_append, List.cons.injEq] at hrev
      have hmod : a % 10 = b % 10 :=
        digit_inj _ _ (Nat.mod_lt _ (by omega)) (Nat.mod_lt _ (by omega)) hrev.1
      have hdiveq : decCharsGo fa (a / 10) = decCharsGo fb (b / 10) :=
        List.reverse_injective hrev.2
      have hdiv : a / 10 = b / 10 :=
        decCharsGo_inj fa fb (a / 10) (b / 10) (by omega) (by omega) hdiveq
      have ha10 := Nat.div_add_mod a 10
      have hb10 := Nat.div_add_mod b 10
      omega

theorem decChars_inj (a b : Nat) (h : decChars a = decChars b) : a = b :=
  decCharsGo_inj (a + 1) (b + 1) a b (Nat.lt_succ_self a) (Nat.lt_succ_self b) h

/-- Synthesized gap names with different counters and the same base name are
distinct. -/
theorem parent_tag_ne (k k' : Nat) (v : String) (hk : k ≠ k') :
    ("parent" ++ natDecimal k ++ "_" ++ v) ≠ ("parent" ++ natDecimal k' ++ "_" ++ v) := by
  intro h
  apply hk
  apply decChars_inj
  have hd := congrArg String.data h
  simp only [String.data_append, List.append_assoc] at hd
  have h1 := List.append_cancel_left hd
  exact List.append_cancel_right h1

/-- A synthesized gap name is never the empty-rank marker. -/
theorem parent_tag_ne_empty (k : Nat) (v : String) :
    ("parent" ++ natDecimal k ++ "_" ++ v) ≠ EMPTY_RANK := by
  intro h
  have hd := congrArg String.data h
  simp [String.data_append, EMPTY_RANK] at hd

theorem lowFrom_get (ranks : List String) :
    ∀ n : Nat, 0 ≤ lowFrom ranks n →
      ranks.getD (lowFrom ranks n).toNat "" ≠ EMPTY_RANK
  | 0, h => by simp [lowFrom] at h
  | n + 1, h => by
    by_cases hc : ranks.getD n "" = EMPTY_RANK
    · have hc2 : ranks[n]?.getD "" = EMPTY_RANK := by simpa using hc
      have heq : lowFrom ranks (n + 1) = lowFrom ranks n := by
        simp [lowFrom, hc2]
      rw [heq] at h ⊢
      exact lowFrom_get ranks n h
    · have hc2 : ¬ranks[n]?.getD "" = EMPTY_RANK := by simpa using hc
      have heq : lowFrom ranks (n + 1) = (n : Int) := by
        simp [lowFrom, hc2]
      rw [heq]
      simpa using hc

theorem close_get_succ (h : String) (tl : List String) (i : Nat) :
    (close_gaps_path (h :: tl))[i + 1]? = ((cgAux tl).1)[i]? := by
  simp [close_gaps_path]

theorem cg_get_some (l : List String) (i : Nat) (x : String) (hx : l[i]? = some x) :
    ((cgAux l).1)[i]? =
      if x = EMPTY_RANK then
        match (l.drop (i + 1)).find? (fun s => s != EMPTY_RANK) with
        | some v =>
          if v = "" then some EMPTY_RANK
          else some ("parent" ++ natDecimal ((cgAux (l.drop (i + 1))).2.2 + 1) ++ "_" ++ v)
        | none => some EMPTY_RANK
      else some x := by
  have h := cg_get l i
  rw [hx] at h
  exact h

/-- After gap closing, a path none of whose entries is the empty string has
no empty marker strictly between the root and its own lowest assigned
level.  (Without the empty-string condition the fill can be skipped by the
truthiness test of source line 357.) -/
theorem close_no_gap (l : List String) (hne : ∀ z ∈ l, z ≠ "") (i : Nat) (hi : 0 < i)
    (hlt : (i : Int) < lowest_assigned_rank_level (close_gaps_path l)) :
    (close_gaps_path l).getD i "" ≠ EMPTY_RANK := by
  cases l with
  | nil =>
    exfalso
    have hl0 : lowest_assigned_rank_level (close_gaps_path ([] : List String)) = -1 := rfl
    rw [hl0] at hlt
    omega
  | cons h tl =>
    set q := close_gaps_path (h :: tl) with hq
    have hqlen : q.length = tl.length + 1 := by
      rw [hq]
      simp [close_gaps_path, cg_len]
    have hjl0 : 0 ≤ lowest_assigned_rank_level q := by omega
    have hjlt : lowest_assigned_rank_level q < (q.length : Int) :=
      lowFrom_lt q q.length
    set j : Nat := (lowest_assigned_rank_level q).toNat with hjdef
    have hjget : q.getD j "" ≠ EMPTY_RANK := lowFrom_get q q.length hjl0
    have hij : i < j := by omega
    have hjq : j < q.length := by omega
    intro hcon
    -- `i ≥ 1`, so position `i` of `q` is position `i-1` of the rewritten tail
    obtain ⟨i', rfl⟩ : ∃ i', i = i' + 1 := ⟨i - 1, by omega⟩
    have hi'len : i' < tl.length := by omega
    have htl : tl[i']? = some tl[i'] := List.getElem?_eq_getElem hi'len
    have hgi := cg_get_some tl i' tl[i'] htl
    have hqi : q[i' + 1]? = ((cgAux tl).1)[i']? := close_get_succ h tl i'
    have hconE : ((cgAux tl).1)[i']?.getD "" = EMPTY_RANK := by
      rw [← hqi]
      rw [List.getD_eq_getElem?_getD] at hcon
      exact hcon
    by_cases hx : tl[i'] = EMPTY_RANK
    · rw [if_pos hx] at hgi
      cases hfind : (tl.drop (i' + 1)).find? (fun s => s != EMPTY_RANK) with
      | some v =>
        have hvne : v ≠ "" := by
          apply hne
          exact List.mem_cons_of_mem h
            (List.drop_subset _ _ (List.mem_of_find?_eq_some hfind))
        rw [hfind] at hgi
        simp only [if_neg hvne] at hgi
        rw [hgi] at hconE
        exact absurd hconE (by simpa using parent_tag_ne_empty _ v)
      | none =>
        -- everything below `i'` is empty, so position `j` of `q` is empty too
        have hallE : ∀ z ∈ tl.drop (i' + 1), z = EMPTY_RANK := by
          intro z hz
          have := List.find?_eq_none.mp hfind z hz
          simpa using this
        obtain ⟨j', hjj⟩ : ∃ j', j = j' + 1 := ⟨j - 1, by omega⟩
        rw [hjj] at hjget hjq hij
        have hj'len : j' < tl.length := by omega
        have hj'mem : tl[j'] ∈ tl.drop (i' + 1) := by
          have hidx : i' + 1 + (j' - i' - 1) = j' := by omega
          have hge : (tl.drop (i' + 1))[j' - i' - 1]? = tl[i' + 1 + (j' - i' - 1)]? :=
            List.getElem?_drop tl (i' + 1) (j' - i' - 1)
          rw [hidx] at hge
          have hsome : (tl.drop (i' + 1))[j' - i' - 1]? = some tl[j'] := by
            rw [hge]
            exact List.getElem?_eq_getElem hj'len
          exact List.getElem?_mem hsome
        have hjE : tl[j'] = EMPTY_RANK := hallE _ hj'mem
        have hjfind : (tl.drop (j' + 1)).find? (fun s => s != EMPTY_RANK) = none := by
          apply List.find?_eq_none.mpr
          intro z hz
          have hzmem : z ∈ tl.drop (i' + 1) := by
            have hdd : tl.drop (j' + 1) = (tl.drop (i' + 1)).drop (j' - i') := by
              rw [List.drop_drop]
              congr 1
              omega
            rw [hdd] at hz
            exact List.drop_subset _ _ hz
          simpa using hallE z hzmem
        have htj : tl[j']? = some tl[j'] := List.getElem?_eq_getElem hj'len
        have hgj := cg_get_some tl j' tl[j'] htj
        rw [if_pos hjE, hjfind] at hgj
        have hqj : q[j' + 1]? = ((cgAux tl).1)[j']? := close_get_succ h tl j'
        rw [List.getD_eq_getElem?_getD, hqj, hgj] at hjget
        exact hjget rfl
    · rw [if_neg hx] at hgi
      rw [hgi] at hconE
      simp at hconE
      exact hx hconE

/-- After gap closing, a position whose nearest name below is non-empty as a
string holds the tag of that NEAREST name, with the per-path gap counter. -/
theorem close_fill (l : List String) (i : Nat) (v : String) (hi : 0 < i)
    (hlen : i < l.length) (hE : l.getD i "" = EMPTY_RANK)
    (hnb : nearestBelow l i = some v) (hvne : v ≠ "") :
    (close_gaps_path l).getD i "" =
      "parent" ++ natDecimal ((cgAux (l.drop (i + 1))).2.2 + 1) ++ "_" ++ v := by
  cases l with
  | nil => simp at hlen
  | cons h tl =>
    obtain ⟨i', rfl⟩ : ∃ i', i = i' + 1 := ⟨i - 1, by omega⟩
    have hi'len : i' < tl.length := by simpa using hlen
    have htl : tl[i']? = some tl[i'] := List.getElem?_eq_getElem hi'len
    have hx : tl[i'] = EMPTY_RANK := by
      rw [List.getD_eq_getElem?_getD] at hE
      simp only [List.getElem?_cons_succ] at hE
      rw [htl] at hE
      simpa using hE
    have hfind : (tl.drop (i' + 1)).find? (fun s => s != EMPTY_RANK) = some v := by
      unfold nearestBelow at hnb
      simpa using hnb
    have hgi := cg_get_some tl i' tl[i'] htl
    rw [if_pos hx, hfind] at hgi
    simp only [if_neg hvne] at hgi
    rw [List.getD_eq_getElem?_getD, close_get_succ h tl i', hgi]
    simp

/-- After gap closing, a gap whose nearest name below is the EMPTY STRING is
left unfilled: the truthiness test `elif last_rank:` (source line 357) is
false for `""`, so the empty marker survives. -/
theorem close_skip_empty (l : List String) (i : Nat) (hi : 0 < i)
    (hlen : i < l.length) (hE : l.getD i "" = EMPTY_RANK)
    (hnb : nearestBelow l i = some "") :
    (close_gaps_path l).getD i "" = EMPTY_RANK := by
  cases l with
  | nil => simp at hlen
  | cons h tl =>
    obtain ⟨i', rfl⟩ : ∃ i', i = i' + 1 := ⟨i - 1, by omega⟩
    have hi'len : i' < tl.length := by simpa using hlen
    have htl : tl[i']? = some tl[i'] := List.getElem?_eq_getElem hi'len
    have hx : tl[i'] = EMPTY_RANK := by
      rw [List.getD_eq_getElem?_getD] at hE
      simp only [List.getElem?_cons_succ] at hE
      rw [htl] at hE
      simpa using hE
    have hfind : (tl.drop (i' + 1)).find? (fun s => s != EMPTY_RANK) = some "" := by
      unfold nearestBelow at hnb
      simpa using hnb
    have hgi := cg_get_some tl i' tl[i'] htl
    rw [if_pos hx, hfind] at hgi
    simp only [if_pos rfl] at hgi
    rw [List.getD_eq_getElem?_getD, close_get_succ h tl i', hgi]
    rfl

/-- Two positions of the same path filled from the same base name receive
distinct synthesized names (their gap counters differ). -/
theorem close_distinct (l : List String) (i i' : Nat) (v : String)
    (hi : 0 < i) (hii : i < i') (hlen : i' < l.length)
    (hEi : l.getD i "" = EMPTY_RANK) (hEi' : l.getD i' "" = EMPTY_RANK)
    (hbi : nearestBelow l i = some v) (hbi' : nearestBelow l i' = some v)
    (hvne : v ≠ "") :
    (close_gaps_path l).getD i "" ≠ (close_gaps_path l).getD i' "" := by
  rw [close_fill l i v hi (by omega) hEi hbi hvne,
    close_fill l i' v (by omega) hlen hEi' hbi' hvne]
  apply parent_tag_ne
  have hstep : (cgAux (l.drop i')).2.2 = (cgAux (l.drop (i' + 1))).2.2 + 1 := by
    have hdrop : l.drop i' = l[i'] :: l.drop (i' + 1) :=
      List.drop_eq_getElem_cons hlen
    have hx : l[i'] = EMPTY_RANK := by
      rw [List.getD_eq_getElem?_getD, List.getElem?_eq_getElem hlen] at hEi'
      simpa using hEi'
    have hlast : (cgAux (l.drop (i' + 1))).2.1 = some v := by
      rw [cg_last]
      unfold nearestBelow at hbi'
      simpa using hbi'
    rw [hdrop]
    exact cg_count_cons_fill l[i'] (l.drop (i' + 1)) v hx hlast hvne
  have hle : (cgAux (l.drop i')).2.2 ≤ (cgAux (l.drop (i + 1))).2.2 := by
    have := cg_count_drop_le l (i' - (i + 1)) (i + 1)
    have harith : i + 1 + (i' - (i + 1)) = i' := by omega
    rw [harith] at this
    exact this
  omega

/-- C4 (amended): after `close_taxonomy_gaps` (which rewrites every stored
path independently), a path none of whose entries is the empty string has no
empty marker strictly between the root and its own lowest assigned level;
every position whose nearest previously-known non-marker name below is a
non-empty string is filled from that NEAREST name (the most recently seen
name of the bottom-up scan — not the deepest such name), tagged with the
per-path gap counter; a gap whose nearest name below is the empty string is
left unfilled, because `elif last_rank:` is a truthiness test; and two
positions filled from the same base name receive distinct synthesized
names. -/
theorem c4_amended (t : Taxonomy) :
    ((t.close_taxonomy_gaps).seq_ranks_map =
      t.seq_ranks_map.map (fun p => (p.1, close_gaps_path p.2))) ∧
    (∀ p ∈ t.seq_ranks_map,
      ((∀ z ∈ (p.2 : List String), z ≠ "") →
        ∀ i : Nat, 0 < i → (i : Int) < lowest_assigned_rank_level (close_gaps_path p.2) →
        (close_gaps_path p.2).getD i "" ≠ EMPTY_RANK) ∧
      (∀ i v, 0 < i → i < (p.2 : List String).length → p.2.getD i "" = EMPTY_RANK →
        nearestBelow p.2 i = some v → v ≠ "" →
        ∃ k, (close_gaps_path p.2).getD i "" = "parent" ++ natDecimal k ++ "_" ++ v) ∧
      (∀ i, 0 < i → i < (p.2 : List String).length → p.2.getD i "" = EMPTY_RANK →
        nearestBelow p.2 i = some "" →
        (close_gaps_path p.2).getD i "" = EMPTY_RANK) ∧
      (∀ i i' v, 0 < i → i < i' → i' < (p.2 : List String).length →
        p.2.getD i "" = EMPTY_RANK → p.2.getD i' "" = EMPTY_RANK →
        nearestBelow p.2 i = some v → nearestBelow p.2 i' = some v → v ≠ "" →
        (close_gaps_path p.2).getD i "" ≠ (close_gaps_path p.2).getD i' "")) := by
  refine ⟨rfl, ?_⟩
  intro p _
  refine ⟨fun hne i hi hlt => close_no_gap p.2 hne i hi hlt, ?_, ?_, ?_⟩
  · intro i v hi hlen hE hnb hvne
    exact ⟨_, close_fill p.2 i v hi hlen hE hnb hvne⟩
  · intro i hi hlen hE hnb
    exact close_skip_empty p.2 i hi hlen hE hnb
  · intro i i' v hi hii hlen hEi hEi' hbi hbi' hvne
    exact close_distinct p.2 i i' v hi hii hlen hEi hEi' hbi hbi' hvne

/-- Witness for C4 (amended) on a path with two gaps above the same base
name: both are filled from `"B"` with distinct counters. -/
theorem c4_amended_witness :
    ((∀ z ∈ (["X", "-", "-", "B"] : List String), z ≠ "") →
      ∀ i : Nat, 0 < i →
      (i : Int) < lowest_assigned_rank_level (close_gaps_path ["X", "-", "-", "B"]) →
      (close_gaps_path ["X", "-", "-", "B"]).getD i "" ≠ EMPTY_RANK) ∧
    (∀ i v, 0 < i → i < (["X", "-", "-", "B"] : List String).length →
      (["X", "-", "-", "B"] : List String).getD i "" = EMPTY_RANK →
      nearestBelow ["X", "-", "-", "B"] i = some v → v ≠ "" →
      ∃ k, (close_gaps_path ["X", "-", "-", "B"]).getD i "" =
        "parent" ++ natDecimal k ++ "_" ++ v) ∧
    (∀ i, 0 < i → i < (["X", "-", "-", "B"] : List String).length →
      (["X", "-", "-", "B"] : List String).getD i "" = EMPTY_RANK →
      nearestBelow ["X", "-", "-", "B"] i = some "" →
      (close_gaps_path ["X", "-", "-", "B"]).getD i "" = EMPTY_RANK) ∧
    (∀ i i' v, 0 < i → i < i' → i' < (["X", "-", "-", "B"] : List String).length →
      (["X", "-", "-", "B"] : List String).getD i "" = EMPTY_RANK →
      (["X", "-", "-", "B"] : List String).getD i' "" = EMPTY_RANK →
      nearestBelow ["X", "-", "-", "B"] i = some v →
      nearestBelow ["X", "-", "-", "B"] i' = some v → v ≠ "" →
      (close_gaps_path ["X", "-", "-", "B"]).getD i "" ≠
        (close_gaps_path ["X", "-", "-", "B"]).getD i' "") :=
  (c4_amended (taxFromMap "" [("s", ["X", "-", "-", "B"])])).2
    ("s", ["X", "-", "-", "B"]) (by decide)

/-- C4 counterexample: two independent divergences from the claim's wording.
On `["A", "-", "B", "-", "C"]` the fill at position 1 uses the NEAREST known
name below (`"B"`), not the DEEPEST previously-known name below (`"C"`):
the filled value is `"parent2_B"`, not `"parent2_C"`.  And on
`["A", "-", "", "B"]` the claim's no-gap half fails outright: the marker at
position 1 survives (its nearest name below is the empty string `""`, which
the truthiness test `elif last_rank:` rejects) although the path's lowest
assigned level is 3. -/
theorem c4_counterexample :
    (taxFromMap "" [("s", ["A", "-", "B", "-", "C"])]).close_taxonomy_gaps =
      ⟨"", [("s", ["A", "parent2_B", "B", "parent1_C", "C"])],
        [("A@@-@@B@@-@@C", ["s"])]⟩ ∧
    deepestBelow ["A", "-", "B", "-", "C"] 1 = some "C" ∧
    (close_gaps_path ["A", "-", "B", "-", "C"]).getD 1 "" ≠
      "parent" ++ natDecimal 2 ++ "_" ++ "C" ∧
    close_gaps_path ["A", "-", "", "B"] = ["A", "-", "", "B"] ∧
    (close_gaps_path ["A", "-", "", "B"]).getD 1 "" = EMPTY_RANK ∧
    lowest_assigned_rank_level (close_gaps_path ["A", "-", "", "B"]) = 3 := by
  refine ⟨by decide, by decide, by decide, by decide, by decide, by decide⟩

/-! ### Claim C7: `TaxCode.guess_rank_level` -/

/-- Spec-side: the smallest level of the table whose recognition pair
matches the normalized name. -/
def specFirstMatch (tbl : TaxCodeTable) (nm : String) : Option Nat :=
  ((tbl.filter (fun e => pyEndswith nm e.2.1 || pyIn nm e.2.2)).map Prod.fst).min?

/-- Spec-side: the smallest level of the table that is a standard-backbone
level strictly greater than `p`, or 0 when no such level exists. -/
def specFallback (tbl : TaxCodeTable) (p : Nat) : Nat :=
  (((tbl.map Prod.fst).filter (fun l => decide (p < l) && STD_RANKS.contains l)).min?).getD 0

/-- Spec-side rank-level inference following the specification's words,
with the positional fallback restricted to the code's own levels. -/
def specGuess (tbl : TaxCodeTable) (ranks : List String) : Nat → Nat
  | 0 =>
    match specFirstMatch tbl (pyNormalize (ranks.getD 0 "")) with
    | some l => l
    | none => 1
  | i + 1 =>
    match specFirstMatch tbl (pyNormalize (ranks.getD (i + 1) "")) with
    | some l => l
    | none =>
      if specGuess tbl ranks i = 0 then 0 else specFallback tbl (specGuess tbl ranks i)

theorem nat_min?_mem {L : List Nat} {m : Nat} (h : L.min? = some m) : m ∈ L :=
  List.min?_mem (fun a b => min_choice a b) h

theorem min?_cons_of_le (a : Nat) (L : List Nat) (h : ∀ x ∈ L, a ≤ x) :
    (a :: L).min? = some a := by
  rw [List.min?_cons]
  cases hm : L.min? with
  | none => rfl
  | some m =>
    have hmem : m ∈ L := nat_min?_mem hm
    simp [Nat.min_eq_left (h m hmem)]

theorem find?_fst_eq_min (q : Nat × PyStrs × PyStrs → Bool) :
    ∀ l : TaxCodeTable, (l.map Prod.fst).Sorted (· < ·) →
      (l.find? q).map Prod.fst = ((l.filter q).map Prod.fst).min?
  | [], _ => rfl
  | e :: rest, hs => by
    rw [List.map_cons, List.sorted_cons] at hs
    by_cases hq : q e = true
    · rw [List.find?_cons_of_pos _ hq, List.filter_cons_of_pos hq]
      simp only [Option.map_some', List.map_cons]
      symm
      apply min?_cons_of_le
      intro x hx
      obtain ⟨y, hy, rfl⟩ := List.mem_map.mp hx
      exact Nat.le_of_lt (hs.1 y.1 (List.mem_map_of_mem _ (List.mem_of_mem_filter hy)))
    · rw [List.find?_cons_of_neg _ hq, List.filter_cons_of_neg hq]
      exact find?_fst_eq_min q rest hs.2

theorem find?_eq_min_nat (q : Nat → Bool) :
    ∀ L : List Nat, L.Sorted (· < ·) → L.find? q = (L.filter q).min?
  | [], _ => rfl
  | a :: L', hs => by
    rw [List.sorted_cons] at hs
    by_cases hq : q a = true
    · rw [List.find?_cons_of_pos _ hq, List.filter_cons_of_pos hq]
      symm
      apply min?_cons_of_le
      intro x hx
      exact Nat.le_of_lt (hs.1 x (List.mem_of_mem_filter hx))
    · rw [List.find?_cons_of_neg _ hq, List.filter_cons_of_neg hq]
      exact find?_eq_min_nat q L' hs.2

theorem afterFirst_sorted :
    ∀ (keys : List Nat) (p : Nat), keys.Sorted (· < ·) → p ∈ keys →
      afterFirst keys p = some (keys.filter (fun l => decide (p < l)))
  | [], p, _, hp => absurd hp (by simp)
  | k :: rest, p, hs, hp => by
    rw [List.sorted_cons] at hs
    by_cases hk : k = p
    · subst hk
      have haf : afterFirst (k :: rest) k = some rest := by
        simp [afterFirst]
      rw [haf, List.filter_cons_of_neg (by simp)]
      rw [List.filter_eq_self.mpr (fun x hx => by simpa using hs.1 x hx)]
    · have hp' : p ∈ rest := by
        rcases List.mem_cons.mp hp with h | h
        · exact absurd h.symm hk
        · exact h
      have hkp : k < p := hs.1 p hp'
      simp only [afterFirst, if_neg hk]
      rw [afterFirst_sorted rest p hs.2 hp']
      rw [List.filter_cons_of_neg (by simp; omega)]

theorem specFirstMatch_mem (tbl : TaxCodeTable) (nm : String) (l : Nat)
    (h : specFirstMatch tbl nm = some l) : l ∈ tbl.map Prod.fst := by
  unfold specFirstMatch at h
  have hmem := nat_min?_mem h
  obtain ⟨y, hy, rfl⟩ := List.mem_map.mp hmem
  exact List.mem_map_of_mem _ (List.mem_of_mem_filter hy)

theorem specFallback_cases (tbl : TaxCodeTable) (p : Nat) :
    specFallback tbl p = 0 ∨ specFallback tbl p ∈ tbl.map Prod.fst := by
  unfold specFallback
  cases hm : (((tbl.map Prod.fst).filter
      (fun l => decide (p < l) && STD_RANKS.contains l)).min?) with
  | none => exact Or.inl rfl
  | some l =>
    right
    have hmem := nat_min?_mem hm
    simpa using List.mem_of_mem_filter hmem

theorem specGuess_cases (tbl : TaxCodeTable) (h1 : 1 ∈ tbl.map Prod.fst)
    (ranks : List String) :
    ∀ lvl, specGuess tbl ranks lvl = 0 ∨ specGuess tbl ranks lvl ∈ tbl.map Prod.fst
  | 0 => by
    simp only [specGuess]
    cases hm : specFirstMatch tbl (pyNormalize (ranks.getD 0 "")) with
    | some l => exact Or.inr (specFirstMatch_mem _ _ _ hm)
    | none => exact Or.inr h1
  | lvl + 1 => by
    simp only [specGuess]
    cases hm : specFirstMatch tbl (pyNormalize (ranks.getD (lvl + 1) "")) with
    | some l => exact Or.inr (specFirstMatch_mem _ _ _ hm)
    | none =>
      by_cases hp : specGuess tbl ranks lvl = 0
      · rw [if_pos hp]
        exact Or.inl rfl
      · rw [if_neg hp]
        exact specFallback_cases tbl _

theorem fallbackScan_eq (keys : List Nat) (p : Nat)
    (hs : keys.Sorted (· < ·)) :
    fallbackScan (keys.filter (fun l => decide (p < l))) =
      ((keys.filter (fun l => decide (p < l) && STD_RANKS.contains l)).min?).getD 0 := by
  unfold fallbackScan
  have hsf : (keys.filter (fun l => decide (p < l))).Sorted (· < ·) := hs.filter _
  rw [find?_eq_min_nat _ _ hsf, List.filter_filter]
  have hcong : keys.filter (fun a => decide (p < a) && STD_RANKS.contains a) =
      keys.filter (fun l => decide (p < l) && STD_RANKS.contains l) := rfl
  have hcomm : ∀ q : Nat → Bool,
      keys.filter (fun a => q a && decide (p < a)) =
        keys.filter (fun a => decide (p < a) && q a) := by
    intro q
    apply List.filter_congr
    intro x _
    exact Bool.and_comm _ _
  rw [hcomm]
  cases hm : (keys.filter (fun a => decide (p < a) && STD_RANKS.contains a)).min? with
  | none => simp [hm]
  | some l => simp [hm]

/-- Core equivalence: on any table with sorted keys that contains level 1
and not level 0 (all four code tables qualify), `guess_rank_level` computes
the spec-side inference with the in-table fallback. -/
theorem guess_eq_spec (tbl : TaxCodeTable)
    (hs : (tbl.map Prod.fst).Sorted (· < ·))
    (h1 : 1 ∈ tbl.map Prod.fst)
    (h0 : (0 : Nat) ∉ tbl.map Prod.fst)
    (ranks : List String) :
    ∀ lvl, lvl < ranks.length →
      guess_rank_level tbl ranks lvl = .ok (specGuess tbl ranks lvl)
  | 0, hlen => by
    have hget : ranks[0]? = some (ranks.getD 0 "") := by
      simp [List.getD_eq_getElem?_getD, List.getElem?_eq_getElem hlen]
    have hfm := find?_fst_eq_min
      (fun e => pyEndswith (pyNormalize (ranks.getD 0 "")) e.2.1 ||
        pyIn (pyNormalize (ranks.getD 0 "")) e.2.2) tbl hs
    simp only [guess_rank_level, specGuess]
    rw [hget]
    show (if firstMatch tbl (pyNormalize (ranks.getD 0 "")) ≠ 0 then
        Except.ok (firstMatch tbl (pyNormalize (ranks.getD 0 "")))
      else Except.ok 1) =
      Except.ok (match specFirstMatch tbl (pyNormalize (ranks.getD 0 "")) with
        | some l => l
        | none => 1)
    cases hf : tbl.find? (fun e => pyEndswith (pyNormalize (ranks.getD 0 "")) e.2.1 ||
        pyIn (pyNormalize (ranks.getD 0 "")) e.2.2) with
    | some e =>
      have hspec : specFirstMatch tbl (pyNormalize (ranks.getD 0 "")) = some e.1 := by
        simp only [specFirstMatch]
        rw [← hfm, hf]
        rfl
      have hfm1 : firstMatch tbl (pyNormalize (ranks.getD 0 "")) = e.1 := by
        simp only [firstMatch]
        rw [hf]
      have he1 : e.1 ≠ 0 := by
        intro hz
        apply h0
        rw [← hz]
        exact List.mem_map_of_mem _ (List.mem_of_find?_eq_some hf)
      rw [hfm1, hspec, if_pos he1]
    | none =>
      have hspec : specFirstMatch tbl (pyNormalize (ranks.getD 0 "")) = none := by
        simp only [specFirstMatch]
        rw [← hfm, hf]
        rfl
      have hfm1 : firstMatch tbl (pyNormalize (ranks.getD 0 "")) = 0 := by
        simp only [firstMatch]
        rw [hf]
      rw [hfm1, hspec, if_neg (by simp)]
  | lvl + 1, hlen => by
    have hget : ranks[lvl + 1]? = some (ranks.getD (lvl + 1) "") := by
      simp [List.getD_eq_getElem?_getD, List.getElem?_eq_getElem hlen]
    have hfm := find?_fst_eq_min
      (fun e => pyEndswith (pyNormalize (ranks.getD (lvl + 1) "")) e.2.1 ||
        pyIn (pyNormalize (ranks.getD (lvl + 1) "")) e.2.2) tbl hs
    have ih := guess_eq_spec tbl hs h1 h0 ranks lvl (by omega)
    simp only [guess_rank_level, specGuess]
    rw [hget]
    show (if firstMatch tbl (pyNormalize (ranks.getD (lvl + 1) "")) ≠ 0 then
        Except.ok (firstMatch tbl (pyNormalize (ranks.getD (lvl + 1) "")))
      else
        match guess_rank_level tbl ranks lvl with
        | .error e => .error e
        | .ok p =>
          if p = 0 then .ok 0
          else
            match afterFirst (tbl.map Prod.fst) p with
            | none => .error "ValueError"
            | some rest => .ok (fallbackScan rest)) =
      Except.ok (match specFirstMatch tbl (pyNormalize (ranks.getD (lvl + 1) "")) with
        | some l => l
        | none =>
          if specGuess tbl ranks lvl = 0 then 0
          else specFallback tbl (specGuess tbl ranks lvl))
    cases hf : tbl.find? (fun e => pyEndswith (pyNormalize (ranks.getD (lvl + 1) "")) e.2.1 ||
        pyIn (pyNormalize (ranks.getD (lvl + 1) "")) e.2.2) with
    | some e =>
      have hspec : specFirstMatch tbl (pyNormalize (ranks.getD (lvl + 1) "")) = some e.1 := by
        simp only [specFirstMatch]
        rw [← hfm, hf]
        rfl
      have hfm1 : firstMatch tbl (pyNormalize (ranks.getD (lvl + 1) "")) = e.1 := by
        simp only [firstMatch]
        rw [hf]
      have he1 : e.1 ≠ 0 := by
        intro hz
        apply h0
        rw [← hz]
        exact List.mem_map_of_mem _ (List.mem_of_find?_eq_some hf)
      rw [hfm1, hspec, if_pos he1]
    | none =>
      have hspec : specFirstMatch tbl (pyNormalize (ranks.getD (lvl + 1) "")) = none := by
        simp only [specFirstMatch]
        rw [← hfm, hf]
        rfl
      have hfm1 : firstMatch tbl (pyNormalize (ranks.getD (lvl + 1) "")) = 0 := by
        simp only [firstMatch]
        rw [hf]
      rw [hfm1, hspec, if_neg (by simp), ih]
      show (if specGuess tbl ranks lvl = 0 then Except.ok 0
        else
          match afterFirst (tbl.map Prod.fst) (specGuess tbl ranks lvl) with
          | none => .error "ValueError"
          | some rest => .ok (fallbackScan rest)) =
        Except.ok (if specGuess tbl ranks lvl = 0 then 0
          else specFallback tbl (specGuess tbl ranks lvl))
      by_cases hp : specGuess tbl ranks lvl = 0
      · rw [if_pos hp, if_pos hp]
      · have hpmem : specGuess tbl ranks lvl ∈ tbl.map Prod.fst := by
          rcases specGuess_cases tbl h1 ranks lvl with h | h
          · exact absurd h hp
          · exact h
        rw [if_neg hp, if_neg hp, afterFirst_sorted (tbl.map Prod.fst) _ hs hpmem]
        show Except.ok (fallbackScan ((tbl.map Prod.fst).filter
            (fun l => decide (specGuess tbl ranks lvl < l)))) =
          Except.ok (specFallback tbl (specGuess tbl ranks lvl))
        rw [fallbackScan_eq (tbl.map Prod.fst) _ hs]
        rfl

/-- C7 (amended): for each of the four nomenclature codes and any in-bounds
position, `guess_rank_level` returns the first table entry (in ascending
level order) whose suffix or exact-match component matches the normalized
name; failing that it returns 1 (kingdom) at position 0, returns 0 when the
recursively-resolved parent level is 0, and otherwise returns the smallest
level OF THE CODE'S OWN TABLE that is a standard-backbone level strictly
greater than the parent level (0 when none exists), never re-examining the
current name. -/
theorem c7_amended (tbl : TaxCodeTable)
    (htbl : tbl = bacCode ∨ tbl = botCode ∨ tbl = zooCode ∨ tbl = virCode)
    (ranks : List String) (lvl : Nat) (hlen : lvl < ranks.length) :
    guess_rank_level tbl ranks lvl = .ok (specGuess tbl ranks lvl) := by
  rcases htbl with rfl | rfl | rfl | rfl
  · exact guess_eq_spec bacCode (by decide) (by decide) (by decide) ranks lvl hlen
  · exact guess_eq_spec botCode (by decide) (by decide) (by decide) ranks lvl hlen
  · exact guess_eq_spec zooCode (by decide) (by decide) (by decide) ranks lvl hlen
  · exact guess_eq_spec virCode (by decide) (by decide) (by decide) ranks lvl hlen

/-- Witness for C7 (amended): a bacterial name with the `ales` suffix is
recognized at level 7. -/
theorem c7_amended_witness :
    guess_rank_level bacCode ["Bacteria", "Clostridiales"] 1 =
      .ok (specGuess bacCode ["Bacteria", "Clostridiales"] 1) :=
  c7_amended bacCode (Or.inl rfl) ["Bacteria", "Clostridiales"] 1 (by decide)

/-- C7 counterexample: under the viral code, the unmatched name `"zzz"`
below the recognized kingdom `"viruses"` resolves to level 4, because the
viral table has no level-2 entry — but the claim's "smallest
standard-backbone level strictly greater than the resolved parent level"
is 2. -/
theorem c7_counterexample :
    guess_rank_level virCode ["viruses", "zzz"] 1 = .ok 4 ∧
    (STD_RANKS.filter (fun l => decide (1 < l))).min? = some 2 ∧
    (4 : Nat) ≠ 2 := by
  refine ⟨by rfl, by rfl, by decide⟩

/-! ### Claim C9 -/

/-- In detection mode the inner duplicate loop never touches the store. -/
theorem dupInner_false_tax (sid : String) :
    ∀ (ps : List Nat) (st st' : DupState),
      dupInner false sid ps st = .ok st' → st'.tax = st.tax
  | [], st, st', h => by
    injection h with h
    rw [← h]
  | i :: rest, st, st', h => by
    simp only [dupInner] at h
    split at h
    · exact absurd h (by simp)
    · split at h
      · injection h with h
        rw [← h]
      · split at h
        · have := dupInner_false_tax sid rest _ _ h
          exact this
        · split at h
          · exact absurd h (by simp)
          · split at h
            · exact absurd h (by simp)
            · split at h
              · split at h
                · exact absurd (by assumption : false = true) (by simp)
                · have := dupInner_false_tax sid rest _ _ h
                  exact this
              · have := dupInner_false_tax sid rest _ _ h
                exact this

/-- In detection mode the outer duplicate loop never touches the store. -/
theorem dupOuter_false_tax :
    ∀ (sids : List String) (st st' : DupState),
      dupOuter false sids st = .ok st' → st'.tax = st.tax
  | [], st, st', h => by
    injection h with h
    rw [← h]
  | sid :: rest, st, st', h => by
    simp only [dupOuter] at h
    split at h
    · exact absurd h (by simp)
    · split at h
      · exact absurd h (by simp)
      · rw [dupOuter_false_tax rest _ st' h]
        exact dupInner_false_tax sid _ st _ (by assumption)

/-- In detection mode one disbalance iteration returns its entry unchanged. -/
theorem disbStep_false_snd (p : String × List String) : (disbStep false p).2 = p := by
  unfold disbStep
  split
  · rfl
  · rfl

/-- C9 (amended): in detection mode `check_for_disbalance` always returns
and leaves the store exactly unchanged, and whenever `check_for_duplicates`
returns a report at all, it too leaves the store exactly unchanged — but
the second half of the claim fails: `check_for_duplicates(autofix=False)`
can raise `IndexError` (see the counterexample), so detection is not
always non-fatal. -/
theorem c9_amended (t : Taxonomy) :
    (t.check_for_disbalance false).2 = t ∧
    ∀ (r : List DupRec) (t' : Taxonomy),
      t.check_for_duplicates false = .ok (r, t') → t' = t := by
  constructor
  · show ({ t with seq_ranks_map := t.seq_ranks_map.map (fun p => (disbStep false p).2) } : Taxonomy) = t
    rw [List.map_congr_left (fun p _ => disbStep_false_snd p), List.map_id']
  · intro r t' h
    unfold Taxonomy.check_for_duplicates at h
    split at h
    · exact absurd h (by simp)
    · rw [if_neg (by simp)] at h
      injection h with h
      have := dupOuter_false_tax (akeys t.seq_ranks_map) ⟨[], [], [], [], t⟩ _ (by assumption)
      rw [← (Prod.mk.injEq _ _ _ _).mp h |>.2, this]

/-- Witness for C9 (amended): on the store `{s: [A, B]}` detection leaves the
store unchanged (both halves applied at this input). -/
theorem c9_amended_witness :
    ((taxFromMap "" [("s", ["A", "B"])]).check_for_disbalance false).2 =
      taxFromMap "" [("s", ["A", "B"])] ∧
    taxFromMap "" [("s", ["A", "B"])] = taxFromMap "" [("s", ["A", "B"])] := by
  refine ⟨(c9_amended (taxFromMap "" [("s", ["A", "B"])])).1, ?_⟩
  exact (c9_amended (taxFromMap "" [("s", ["A", "B"])])).2 [] _ (by rfl)

/-- C9 counterexample: on the store `{o: [P, X], s: [A, B, C, D, E, X]}`,
detection-mode `check_for_duplicates` raises `IndexError`: the name `X`
recurs at position 5 of `s`, and the registered first occurrence `o` has no
position 4, so `old_ranks[i - 1]` is out of range (source line 371). -/
theorem c9_counterexample :
    (taxFromMap "" [("o", ["P", "X"]),
      ("s", ["A", "B", "C", "D", "E", "X"])]).check_for_duplicates false =
      .error "IndexError" := by rfl

/-! ### Claim C10 -/

/-- Spec-side: the scan domain the claim describes — the positions
`1 .. len-1` strictly before the path's first empty-rank marker. -/
def truncPositions (ranks : List String) : List Nat :=
  (List.range' 1 (ranks.length - 1)).takeWhile (fun i => ranks.getD i "" ≠ EMPTY_RANK)

/-- Spec-side outer loop: each sequence is scanned only over the positions
before its first empty marker (no break in the body; the domain is cut
up-front). -/
def dupOuterTrunc : List String → DupState → Except String DupState
  | [], st => .ok st
  | sid :: rest, st =>
    match alookup st.tax.seq_ranks_map sid with
    | none => .error "KeyError"
    | some ranks =>
      match dupInner false sid (truncPositions ranks) st with
      | .error e => .error e
      | .ok st' => dupOuterTrunc rest st'

/-- Spec-side `check_for_duplicates` in detection mode with the truncated
scan domain. -/
def checkDupTrunc (t : Taxonomy) : Except String (List DupRec × Taxonomy) :=
  match dupOuterTrunc (akeys t.seq_ranks_map) ⟨[], [], [], [], t⟩ with
  | .error e => .error e
  | .ok st => .ok (st.dups, st.tax)

/-- Hitting the empty-rank marker breaks out of the inner loop. -/
theorem dupInner_cons_empty (sid : String) (i : Nat) (rest : List Nat) (st : DupState)
    (ranks : List String)
    (hlk : alookup st.tax.seq_ranks_map sid = some ranks)
    (hE : ranks.getD i "" = EMPTY_RANK) :
    dupInner false sid (i :: rest) st = .ok st := by
  simp only [dupInner, hlk]
  rw [if_pos hE]

/-- In detection mode (where the store never changes) the inner loop only
ever visits the positions before the first empty marker. -/
theorem dupInner_false_trunc (sid : String) (ranks : List String) :
    ∀ (ps : List Nat) (st : DupState),
      alookup st.tax.seq_ranks_map sid = some ranks →
      dupInner false sid ps st =
        dupInner false sid (ps.takeWhile (fun i => ranks.getD i "" ≠ EMPTY_RANK)) st
  | [], st, hlk => rfl
  | i :: rest, st, hlk => by
    rw [List.takeWhile_cons]
    by_cases hE : ranks.getD i "" = EMPTY_RANK
    · have hE2 : ranks[i]?.getD "" = EMPTY_RANK := by
        rw [← List.getD_eq_getElem?_getD]
        exact hE
      rw [if_neg (by simp [hE2])]
      exact dupInner_cons_empty sid i rest st ranks hlk hE
    · have hE2 : ¬ ranks[i]?.getD "" = EMPTY_RANK := by
        rw [← List.getD_eq_getElem?_getD]
        exact hE
      rw [if_pos (by simp [hE2])]
      simp only [dupInner, hlk]
      split
      · rfl
      · split
        · exact dupInner_false_trunc sid ranks rest _ hlk
        · split
          · rfl
          · split
            · rfl
            · split
              · split
                · exact absurd (by assumption : false = true) (by simp)
                · exact dupInner_false_trunc sid ranks rest _ hlk
              · exact dupInner_false_trunc sid ranks rest _ hlk

/-- The detection-mode outer loop equals the spec-side truncated loop. -/
theorem dupOuter_false_trunc :
    ∀ (sids : List String) (st : DupState),
      dupOuter false sids st = dupOuterTrunc sids st
  | [], st => rfl
  | sid :: rest, st => by
    cases hlk : alookup st.tax.seq_ranks_map sid with
    | none => simp only [dupOuter, dupOuterTrunc, hlk]
    | some ranks =>
      simp only [dupOuter, dupOuterTrunc, hlk]
      have hin : dupInner false sid (List.range' 1 (ranks.length - 1)) st =
          dupInner false sid (truncPositions ranks) st :=
        dupInner_false_trunc sid ranks _ st hlk
      rw [← hin]
      cases hst : dupInner false sid (List.range' 1 (ranks.length - 1)) st with
      | error e => simp only [hst]
      | ok st' =>
        simp only [hst]
        exact dupOuter_false_trunc rest st'

/-- C10 (amended): in detection mode the claim's reading is exact —
`check_for_duplicates` computes the same result as the spec-side pass
whose scan domain for each sequence is cut to the positions strictly
before that path's first empty-rank marker, so no name at or past the
first gap of the scanned path is ever examined, reported or fixed.  In
autofix mode each sequence's own scan also stops at its first gap, but
the consequence fails: a gapped sequence's positions at or past its
first empty marker can still be read and rewritten when that sequence
is the registered first occurrence in another sequence's collision (see
the counterexample). -/
theorem c10_amended (t : Taxonomy) : t.check_for_duplicates false = checkDupTrunc t := by
  unfold Taxonomy.check_for_duplicates checkDupTrunc
  rw [dupOuter_false_trunc]
  cases dupOuterTrunc (akeys t.seq_ranks_map) ⟨[], [], [], [], t⟩ with
  | error e => rfl
  | ok st => simp

/-- C10 counterexample: on `{o: [P, X, -, -], c: [A, B, C, X]}` in autofix
mode, `c`'s scan of the recurring name `X` at position 3 rewrites position 3
of `o` — a position strictly past `o`'s first empty marker at position 2 —
to `"-_-"`, so a gapped sequence's past-gap entries are examined and fixed
after all. -/
theorem c10_counterexample :
    (taxFromMap "" [("o", ["P", "X", "-", "-"]),
      ("c", ["A", "B", "C", "X"])]).check_for_duplicates true =
      .ok ([DupRec.five "o" "o" "c" "c" "c", DupRec.five "o" "o" "o" "o" "o"],
        ⟨"", [("o", ["P", "X", "-", "-_-"]), ("c", ["A", "B", "C", "X_C"])],
         [("P@@X", ["o"]), ("A@@B@@C@@X", ["c"])]⟩) ∧
    ["P", "X", "-", "-"].getD 2 "" = EMPTY_RANK ∧
    ["P", "X", "-", "-_-"].getD 3 "" ≠ ["P", "X", "-", "-"].getD 3 "" := by
  refine ⟨by rfl, by rfl, by decide⟩


/-! ### Claim C2: rerunning detection after an autofix pass -/

theorem amem_iff_mem_akeys (l : List (String × α)) (k : String) :
    amem l k = true ↔ k ∈ akeys l := by
  simp only [amem, akeys, List.any_eq_true, List.mem_map, beq_iff_eq]

theorem alookup_mem (l : List (String × α)) (k : String) (v : α)
    (h : alookup l k = some v) : (k, v) ∈ l := by
  unfold alookup at h
  cases hf : l.find? (fun p => p.1 == k) with
  | none => rw [hf] at h; exact absurd h (by simp)
  | some p =>
    rw [hf] at h
    have hm := List.mem_of_find?_eq_some hf
    have hk : p.1 = k := by
      have := List.find?_some hf
      simpa using this
    have hv : p.2 = v := by simpa using h
    rw [← hk, ← hv]
    exact hm

theorem length_two_ex (v : List String) (h : v.length = 2) : ∃ a n, v = [a, n] := by
  match v, h with
  | [a, n], _ => exact ⟨a, n, rfl⟩

theorem underscore_list_inj :
    ∀ (xs xs' ys ys' : List Char), '_' ∉ xs → '_' ∉ xs' →
      xs ++ '_' :: ys = xs' ++ '_' :: ys' → xs = xs' ∧ ys = ys'
  | [], [], ys, ys', _, _, h => by simpa using h
  | [], c :: t, ys, ys', _, hx', h => by
    simp only [List.nil_append, List.cons_append, List.cons.injEq] at h
    exact absurd (h.1 ▸ List.mem_cons_self c t) hx'
  | c :: t, [], ys, ys', hx, _, h => by
    simp only [List.nil_append, List.cons_append, List.cons.injEq] at h
    exact absurd (h.1.symm ▸ List.mem_cons_self c t) hx
  | c :: t, c' :: t', ys, ys', hx, hx', h => by
    simp only [List.cons_append, List.cons.injEq] at h
    have ih := underscore_list_inj t t' ys ys'
      (fun hm => hx (List.mem_cons_of_mem c hm))
      (fun hm => hx' (List.mem_cons_of_mem c' hm)) h.2
    exact ⟨by rw [h.1, ih.1], ih.2⟩

theorem underscore_string_inj (n a n' a' : String)
    (hn : '_' ∉ n.data) (hn' : '_' ∉ n'.data)
    (h : n ++ "_" ++ a = n' ++ "_" ++ a') : n = n' ∧ a = a' := by
  have hd : n.data ++ '_' :: a.data = n'.data ++ '_' :: a'.data := by
    have := congrArg String.data h
    simpa [String.data_append] using this
  have := underscore_list_inj n.data n'.data a.data a'.data hn hn' hd
  exact ⟨String.ext this.1, String.ext this.2⟩

theorem underscore_mem_fixed (n a : String) : '_' ∈ (n ++ "_" ++ a).data := by
  simp [String.data_append]

theorem fixed_ne_clean (n a m : String) (hm : '_' ∉ m.data) : n ++ "_" ++ a ≠ m := by
  intro h
  exact hm (h ▸ underscore_mem_fixed n a)

theorem akeys_aset_mem (l : List (String × α)) (k : String) (v : α)
    (h : amem l k = true) : akeys (aset l k v) = akeys l := by
  unfold aset
  rw [if_pos h]
  unfold akeys
  rw [List.map_map]
  apply List.map_congr_left
  intro p _
  by_cases hp : p.1 = k
  · simp [hp]
  · simp [hp]

theorem get_seq_ranks_alookup (t : Taxonomy) (h : t.idPrefix = "") (s : String) :
    t.get_seq_ranks s = alookup t.seq_ranks_map s := by
  unfold Taxonomy.get_seq_ranks
  rw [h]
  simp [pyStartswith, List.isPrefixOf]

theorem dupAutofix_eval_unfixed (sid s0 a n a0 : String) (st : DupState)
    (hne : sid ≠ s0)
    (hgf : amem st.old_fixed s0 = false)
    (hc0 : alookup st.tax.seq_ranks_map s0 = some [a0, n])
    (hcs : alookup st.tax.seq_ranks_map sid = some [a, n]) :
    dupAutofix sid 1 s0 a st = .ok
      ⟨st.parent_map,
       st.dups ++ [DupRec.five s0 (lineage_str_of_str s0) sid
         (lineage_str_of_str sid) (lineage_str_of_str sid)],
       aset st.old_fixed s0 (lineage_str_of_str s0),
       aset (aset st.old_ranks s0 []) s0 [1],
       Taxonomy.mk st.tax.idPrefix
         (aset (aset st.tax.seq_ranks_map s0 [a0, n ++ "_" ++ a0]) sid
           [a, n ++ "_" ++ a]) st.tax.rank_seqs_map⟩ := by
  unfold dupAutofix
  rw [if_pos (by simp [hgf])]
  simp only [alookup_aset, if_pos rfl, Option.getD_some]
  rw [if_pos (by simp)]
  simp only [hc0]
  simp only [List.getElem?_cons_succ, List.getElem?_cons_zero, List.set_cons_succ,
    List.set_cons_zero, List.getD_cons_zero, List.getD_cons_succ]
  simp only [alookup_aset, if_neg hne, hcs]
  rfl

theorem dupAutofix_eval_fixed (sid s0 a n : String) (st : DupState)
    (hgf : amem st.old_fixed s0 = true)
    (hgr : alookup st.old_ranks s0 = some [1])
    (hcs : alookup st.tax.seq_ranks_map sid = some [a, n]) :
    dupAutofix sid 1 s0 a st = .ok
      ⟨st.parent_map,
       st.dups ++ [DupRec.five s0 (lineage_str_of_str s0) sid
         (lineage_str_of_str sid) (lineage_str_of_str sid)],
       st.old_fixed,
       st.old_ranks,
       Taxonomy.mk st.tax.idPrefix
         (aset st.tax.seq_ranks_map sid [a, n ++ "_" ++ a])
         st.tax.rank_seqs_map⟩ := by
  unfold dupAutofix
  rw [if_neg (by simp [hgf])]
  simp only [hgr, Option.getD_some]
  rw [if_neg (by simp)]
  simp only [hcs]
  simp only [List.getD_cons_zero, List.getD_cons_succ, List.set_cons_succ,
    List.set_cons_zero]

theorem dupInner_step_break (sid a : String) (st : DupState)
    (hcs : alookup st.tax.seq_ranks_map sid = some [a, EMPTY_RANK]) :
    dupInner true sid [1] st = .ok st := by
  simp only [dupInner, hcs]
  rw [if_pos (by simp)]

theorem dupInner_step_register (sid a n : String) (st : DupState)
    (hcs : alookup st.tax.seq_ranks_map sid = some [a, n])
    (hnE : n ≠ EMPTY_RANK)
    (hpm : amem st.parent_map n = false) :
    dupInner true sid [1] st =
      .ok ⟨aset st.parent_map n sid, st.dups, st.old_fixed, st.old_ranks, st.tax⟩ := by
  simp only [dupInner, hcs]
  rw [if_neg (by simp [hnE]), if_pos (by simp [hpm])]
  rfl

theorem dupInner_step_same (sid a n s0 a0 N0 : String) (st : DupState)
    (hpfx : st.tax.idPrefix = "")
    (hcs : alookup st.tax.seq_ranks_map sid = some [a, n])
    (hnE : n ≠ EMPTY_RANK)
    (hpm0 : alookup st.parent_map n = some s0)
    (hc0 : alookup st.tax.seq_ranks_map s0 = some [a0, N0])
    (heq : a0 = a) :
    dupInner true sid [1] st = .ok st := by
  simp only [dupInner, hcs]
  rw [if_neg (by simp [hnE])]
  rw [if_neg (by simp [amem_eq_isSome, hpm0])]
  simp [hpm0, get_seq_ranks_alookup st.tax hpfx, hc0, heq]

theorem dupInner_step_fix (sid a n s0 a0 N0 : String) (st st' : DupState)
    (hpfx : st.tax.idPrefix = "")
    (hcs : alookup st.tax.seq_ranks_map sid = some [a, n])
    (hnE : n ≠ EMPTY_RANK)
    (hpm0 : alookup st.parent_map n = some s0)
    (hc0 : alookup st.tax.seq_ranks_map s0 = some [a0, N0])
    (hne : a0 ≠ a)
    (hfix : dupAutofix sid 1 s0 a st = .ok st') :
    dupInner true sid [1] st = .ok st' := by
  simp only [dupInner, hcs]
  rw [if_neg (by simp [hnE])]
  rw [if_neg (by simp [amem_eq_isSome, hpm0])]
  simp [hpm0, get_seq_ranks_alookup st.tax hpfx, hc0, hne, hfix]

structure C2Inv (t0 : Taxonomy) (S : List String) (st : DupState) : Prop where
  pfx : st.tax.idPrefix = t0.idPrefix
  keys : ∀ s, amem st.tax.seq_ranks_map s = amem t0.seq_ranks_map s
  entries : ∀ s ∈ S, ∀ a n, alookup t0.seq_ranks_map s = some [a, n] →
    alookup st.tax.seq_ranks_map s = some [a, n] ∨
      (n ≠ EMPTY_RANK ∧ alookup st.tax.seq_ranks_map s = some [a, n ++ "_" ++ a])
  untouched : ∀ s, s ∉ S → alookup st.tax.seq_ranks_map s = alookup t0.seq_ranks_map s
  pmOwn : ∀ n s, alookup st.parent_map n = some s →
    s ∈ S ∧ n ≠ EMPTY_RANK ∧ ∀ a n', alookup t0.seq_ranks_map s = some [a, n'] → n' = n
  pmFull : ∀ s ∈ S, ∀ a n, alookup t0.seq_ranks_map s = some [a, n] → n ≠ EMPTY_RANK →
    amem st.parent_map n = true
  unfixedPar : ∀ s ∈ S, ∀ a n, alookup t0.seq_ranks_map s = some [a, n] →
    alookup st.tax.seq_ranks_map s = some [a, n] →
    ∀ s0, alookup st.parent_map n = some s0 →
      ∀ a0 n0, alookup t0.seq_ranks_map s0 = some [a0, n0] → a0 = a
  guardUnfixed : ∀ n s, alookup st.parent_map n = some s → ∀ a,
    alookup t0.seq_ranks_map s = some [a, n] →
    alookup st.tax.seq_ranks_map s = some [a, n] →
      amem st.old_fixed s = false ∧ alookup st.old_ranks s = none
  guardFixed : ∀ n s, alookup st.parent_map n = some s → ∀ a,
    alookup t0.seq_ranks_map s = some [a, n] →
    alookup st.tax.seq_ranks_map s = some [a, n ++ "_" ++ a] →
      amem st.old_fixed s = true ∧ alookup st.old_ranks s = some [1]
  ownerKeys : ∀ s, amem st.old_fixed s = true ∨ (alookup st.old_ranks s).isSome = true →
    ∃ n, alookup st.parent_map n = some s


theorem dupAutofix_fields_unfixed (sid s0 a n a0 : String) (st : DupState)
    (hne : sid ≠ s0)
    (hgf : amem st.old_fixed s0 = false)
    (hc0 : alookup st.tax.seq_ranks_map s0 = some [a0, n])
    (hcs : alookup st.tax.seq_ranks_map sid = some [a, n]) :
    ∃ st', dupAutofix sid 1 s0 a st = .ok st' ∧
      st'.parent_map = st.parent_map ∧
      st'.old_fixed = aset st.old_fixed s0 (lineage_str_of_str s0) ∧
      st'.old_ranks = aset (aset st.old_ranks s0 []) s0 [1] ∧
      st'.tax.idPrefix = st.tax.idPrefix ∧
      st'.tax.seq_ranks_map =
        aset (aset st.tax.seq_ranks_map s0 [a0, n ++ "_" ++ a0]) sid [a, n ++ "_" ++ a] :=
  ⟨_, dupAutofix_eval_unfixed sid s0 a n a0 st hne hgf hc0 hcs, rfl, rfl, rfl, rfl, rfl⟩

theorem dupAutofix_fields_fixed (sid s0 a n : String) (st : DupState)
    (hgf : amem st.old_fixed s0 = true)
    (hgr : alookup st.old_ranks s0 = some [1])
    (hcs : alookup st.tax.seq_ranks_map sid = some [a, n]) :
    ∃ st', dupAutofix sid 1 s0 a st = .ok st' ∧
      st'.parent_map = st.parent_map ∧
      st'.old_fixed = st.old_fixed ∧
      st'.old_ranks = st.old_ranks ∧
      st'.tax.idPrefix = st.tax.idPrefix ∧
      st'.tax.seq_ranks_map = aset st.tax.seq_ranks_map sid [a, n ++ "_" ++ a] :=
  ⟨_, dupAutofix_eval_fixed sid s0 a n st hgf hgr hcs, rfl, rfl, rfl, rfl, rfl⟩

theorem dupInner_fields_register (sid a n : String) (st : DupState)
    (hcs : alookup st.tax.seq_ranks_map sid = some [a, n])
    (hnE : n ≠ EMPTY_RANK)
    (hpm : amem st.parent_map n = false) :
    ∃ st', dupInner true sid [1] st = .ok st' ∧
      st'.parent_map = aset st.parent_map n sid ∧
      st'.old_fixed = st.old_fixed ∧
      st'.old_ranks = st.old_ranks ∧
      st'.tax = st.tax :=
  ⟨_, dupInner_step_register sid a n st hcs hnE hpm, rfl, rfl, rfl, rfl⟩

theorem c2_inv_extend_same (t0 : Taxonomy) (S : List String) (sid : String)
    (st : DupState) (a n : String)
    (hI : C2Inv t0 S st) (hsidS : sid ∉ S)
    (hor : alookup t0.seq_ranks_map sid = some [a, n])
    (hcur : alookup st.tax.seq_ranks_map sid = some [a, n])
    (hcase : n = EMPTY_RANK ∨ (amem st.parent_map n = true ∧
      ∀ s0, alookup st.parent_map n = some s0 →
        ∀ a0 n0, alookup t0.seq_ranks_map s0 = some [a0, n0] → a0 = a)) :
    C2Inv t0 (S ++ [sid]) st := by
  have horuniq : ∀ a' n', alookup t0.seq_ranks_map sid = some [a', n'] → a' = a ∧ n' = n := by
    intro a' n' h
    rw [hor] at h
    simp only [Option.some.injEq, List.cons.injEq, and_true] at h
    exact ⟨h.1.symm, h.2.symm⟩
  refine ⟨hI.pfx, hI.keys, ?_, ?_, ?_, ?_, ?_, hI.guardUnfixed, hI.guardFixed, hI.ownerKeys⟩
  · intro s hs a' n' ho'
    rcases (by simpa using hs : s ∈ S ∨ s = sid) with hsS | rfl
    · exact hI.entries s hsS a' n' ho'
    · obtain ⟨rfl, rfl⟩ : a' = a ∧ n' = n := horuniq a' n' ho'
      exact Or.inl hcur
  · intro s hs
    exact hI.untouched s (fun h => hs (by simp [h]))
  · intro m s h
    obtain ⟨h1, h2, h3⟩ := hI.pmOwn m s h
    exact ⟨by simp [h1], h2, h3⟩
  · intro s hs a' n' ho' hne'
    rcases (by simpa using hs : s ∈ S ∨ s = sid) with hsS | rfl
    · exact hI.pmFull s hsS a' n' ho' hne'
    · obtain ⟨rfl, rfl⟩ : a' = a ∧ n' = n := horuniq a' n' ho'
      rcases hcase with h | ⟨h, _⟩
      · exact absurd h hne'
      · exact h
  · intro s hs a' m ho' hcur' s0 hpm0 a0 n0 ho0
    rcases (by simpa using hs : s ∈ S ∨ s = sid) with hsS | rfl
    · exact hI.unfixedPar s hsS a' m ho' hcur' s0 hpm0 a0 n0 ho0
    · obtain ⟨rfl, hmn⟩ : a' = a ∧ m = n := horuniq a' m ho'
      rw [hmn] at hpm0
      rcases hcase with h | ⟨_, h⟩
      · exact absurd h (hI.pmOwn n s0 hpm0).2.1
      · exact h s0 hpm0 a0 n0 ho0

theorem c2_inv_extend_fix_unfixed (t0 : Taxonomy) (S : List String) (sid : String)
    (st st' : DupState) (s0 a n a0 : String)
    (hI : C2Inv t0 S st) (hsidS : sid ∉ S)
    (hor : alookup t0.seq_ranks_map sid = some [a, n])
    (hcur : alookup st.tax.seq_ranks_map sid = some [a, n])
    (husn : '_' ∉ n.data)
    (hnE : n ≠ EMPTY_RANK)
    (hpm0 : alookup st.parent_map n = some s0)
    (hor0 : alookup t0.seq_ranks_map s0 = some [a0, n])
    (hs0S : s0 ∈ S) (hs0sid : s0 ≠ sid)
    (hamem_sid : amem t0.seq_ranks_map sid = true)
    (hPM : st'.parent_map = st.parent_map)
    (hOF : st'.old_fixed = aset st.old_fixed s0 (lineage_str_of_str s0))
    (hOR : st'.old_ranks = aset (aset st.old_ranks s0 []) s0 [1])
    (hPFX : st'.tax.idPrefix = st.tax.idPrefix)
    (hMAP : st'.tax.seq_ranks_map =
      aset (aset st.tax.seq_ranks_map s0 [a0, n ++ "_" ++ a0]) sid [a, n ++ "_" ++ a]) :
    C2Inv t0 (S ++ [sid]) st' := by
  have horuniq : ∀ a' n', alookup t0.seq_ranks_map sid = some [a', n'] → a' = a ∧ n' = n := by
    intro a' n' h
    rw [hor] at h
    simp only [Option.some.injEq, List.cons.injEq, and_true] at h
    exact ⟨h.1.symm, h.2.symm⟩
  have hor0uniq : ∀ a' n', alookup t0.seq_ranks_map s0 = some [a', n'] →
      a' = a0 ∧ n' = n := by
    intro a' n' h
    rw [hor0] at h
    simp only [Option.some.injEq, List.cons.injEq, and_true] at h
    exact ⟨h.1.symm, h.2.symm⟩
  have hamem_s0 : amem t0.seq_ranks_map s0 = true := by
    rw [amem_eq_isSome, hor0]
    rfl
  refine ⟨?_, ?_, ?_, ?_, ?_, ?_, ?_, ?_, ?_, ?_⟩
  · rw [hPFX]
    exact hI.pfx
  · intro s
    rw [hMAP, amem_aset, amem_aset, hI.keys]
    by_cases h1 : s = sid
    · simp [h1, hamem_sid]
    · by_cases h2 : s = s0
      · simp [h1, h2, hamem_s0]
      · have e1 : (s == sid) = false := by simp [h1]
        have e2 : (s == s0) = false := by simp [h2]
        rw [e1, e2]
        simp
  · intro s hs a' n' ho'
    rw [hMAP]
    rcases (by simpa using hs : s ∈ S ∨ s = sid) with hsS | rfl
    · by_cases h2 : s = s0
      · subst h2
        obtain ⟨rfl, hmn⟩ := hor0uniq a' n' ho'
        refine Or.inr ⟨by rw [hmn]; exact hnE, ?_⟩
        rw [alookup_aset, if_neg hs0sid, alookup_aset, if_pos rfl, hmn]
      · have hssid : s ≠ sid := fun h => hsidS (h ▸ hsS)
        rw [alookup_aset, if_neg hssid, alookup_aset, if_neg h2]
        exact hI.entries s hsS a' n' ho'
    · obtain ⟨rfl, hmn⟩ := horuniq a' n' ho'
      refine Or.inr ⟨by rw [hmn]; exact hnE, ?_⟩
      rw [alookup_aset, if_pos rfl, hmn]
  · intro s hs
    have hssid : s ≠ sid := fun h => hs (by simp [h])
    have hsS2 : s ∉ S := fun h => hs (by simp [h])
    have hss0 : s ≠ s0 := fun h => hsS2 (h ▸ hs0S)
    rw [hMAP, alookup_aset, if_neg hssid, alookup_aset, if_neg hss0]
    exact hI.untouched s hsS2
  · intro m s h
    rw [hPM] at h
    obtain ⟨h1, h2, h3⟩ := hI.pmOwn m s h
    exact ⟨by simp [h1], h2, h3⟩
  · intro s hs a' n' ho' hne'
    rw [hPM]
    rcases (by simpa using hs : s ∈ S ∨ s = sid) with hsS | rfl
    · exact hI.pmFull s hsS a' n' ho' hne'
    · obtain ⟨rfl, hmn⟩ := horuniq a' n' ho'
      rw [hmn, amem_eq_isSome, hpm0]
      rfl
  · intro s hs a' m ho' hcur' s0' hpm0' a0' m0' ho0'
    rw [hPM] at hpm0'
    rw [hMAP] at hcur'
    rcases (by simpa using hs : s ∈ S ∨ s = sid) with hsS | rfl
    · by_cases h2 : s = s0
      · subst h2
        obtain ⟨rfl, hmn⟩ := hor0uniq a' m ho'
        rw [alookup_aset, if_neg hs0sid, alookup_aset, if_pos rfl] at hcur'
        simp only [Option.some.injEq, List.cons.injEq, and_true] at hcur'
        exact absurd (hcur'.2.trans hmn) (fixed_ne_clean n a' n husn)
      · have hssid : s ≠ sid := fun h => hsidS (h ▸ hsS)
        rw [alookup_aset, if_neg hssid, alookup_aset, if_neg h2] at hcur'
        exact hI.unfixedPar s hsS a' m ho' hcur' s0' hpm0' a0' m0' ho0'
    · obtain ⟨rfl, hmn⟩ := horuniq a' m ho'
      rw [alookup_aset, if_pos rfl] at hcur'
      simp only [Option.some.injEq, List.cons.injEq, and_true] at hcur'
      exact absurd (hcur'.2.trans hmn) (fixed_ne_clean n a' n husn)
  · intro m s hpm' a' ho' hcur'
    rw [hPM] at hpm'
    have hsS : s ∈ S := (hI.pmOwn m s hpm').1
    have hssid : s ≠ sid := fun h => hsidS (h ▸ hsS)
    rw [hMAP] at hcur'
    by_cases h2 : s = s0
    · rw [h2] at hpm' ho' hcur'
      have hmn : n = m := (hI.pmOwn m s0 hpm').2.2 a0 n hor0
      obtain ⟨rfl, _⟩ := hor0uniq a' m ho'
      rw [alookup_aset, if_neg hs0sid, alookup_aset, if_pos rfl] at hcur'
      simp only [Option.some.injEq, List.cons.injEq, and_true] at hcur'
      exact absurd (hcur'.2.trans hmn.symm) (fixed_ne_clean n a' n husn)
    · rw [alookup_aset, if_neg hssid, alookup_aset, if_neg h2] at hcur'
      obtain ⟨hf1, hf2⟩ := hI.guardUnfixed m s hpm' a' ho' hcur'
      constructor
      · rw [hOF, amem_aset]
        simp [h2, hf1]
      · rw [hOR, alookup_aset, if_neg h2, alookup_aset, if_neg h2]
        exact hf2
  · intro m s hpm' a' ho' hcur'
    rw [hPM] at hpm'
    by_cases h2 : s = s0
    · subst h2
      constructor
      · rw [hOF, amem_aset]
        simp
      · rw [hOR, alookup_aset, if_pos rfl]
    · have hsS : s ∈ S := (hI.pmOwn m s hpm').1
      have hssid : s ≠ sid := fun h => hsidS (h ▸ hsS)
      rw [hMAP, alookup_aset, if_neg hssid, alookup_aset, if_neg h2] at hcur'
      obtain ⟨hf1, hf2⟩ := hI.guardFixed m s hpm' a' ho' hcur'
      constructor
      · rw [hOF, amem_aset]
        simp [h2, hf1]
      · rw [hOR, alookup_aset, if_neg h2, alookup_aset, if_neg h2]
        exact hf2
  · intro s h
    rw [hPM]
    by_cases h2 : s = s0
    · exact ⟨n, h2 ▸ hpm0⟩
    · rw [hOF] at h
      rw [hOR] at h
      rcases h with h | h
      · rw [amem_aset] at h
        have hmem : amem st.old_fixed s = true := by
          cases hb : (s == s0) with
          | true => exact absurd (by simpa using hb) h2
          | false => simpa [hb] using h
        exact hI.ownerKeys s (Or.inl hmem)
      · rw [alookup_aset, if_neg h2, alookup_aset, if_neg h2] at h
        exact hI.ownerKeys s (Or.inr h)

theorem c2_inv_extend_fix_fixed (t0 : Taxonomy) (S : List String) (sid : String)
    (st st' : DupState) (s0 a n : String)
    (hI : C2Inv t0 S st) (hsidS : sid ∉ S)
    (hor : alookup t0.seq_ranks_map sid = some [a, n])
    (husn : '_' ∉ n.data)
    (hnE : n ≠ EMPTY_RANK)
    (hpm0 : alookup st.parent_map n = some s0)
    (hamem_sid : amem t0.seq_ranks_map sid = true)
    (hPM : st'.parent_map = st.parent_map)
    (hOF : st'.old_fixed = st.old_fixed)
    (hOR : st'.old_ranks = st.old_ranks)
    (hPFX : st'.tax.idPrefix = st.tax.idPrefix)
    (hMAP : st'.tax.seq_ranks_map = aset st.tax.seq_ranks_map sid [a, n ++ "_" ++ a]) :
    C2Inv t0 (S ++ [sid]) st' := by
  have horuniq : ∀ a' n', alookup t0.seq_ranks_map sid = some [a', n'] → a' = a ∧ n' = n := by
    intro a' n' h
    rw [hor] at h
    simp only [Option.some.injEq, List.cons.injEq, and_true] at h
    exact ⟨h.1.symm, h.2.symm⟩
  refine ⟨?_, ?_, ?_, ?_, ?_, ?_, ?_, ?_, ?_, ?_⟩
  · rw [hPFX]
    exact hI.pfx
  · intro s
    rw [hMAP, amem_aset, hI.keys]
    by_cases h1 : s = sid
    · simp [h1, hamem_sid]
    · have e1 : (s == sid) = false := by simp [h1]
      rw [e1]
      simp
  · intro s hs a' n' ho'
    rw [hMAP]
    rcases (by simpa using hs : s ∈ S ∨ s = sid) with hsS | rfl
    · have hssid : s ≠ sid := fun h => hsidS (h ▸ hsS)
      rw [alookup_aset, if_neg hssid]
      exact hI.entries s hsS a' n' ho'
    · obtain ⟨rfl, hmn⟩ := horuniq a' n' ho'
      refine Or.inr ⟨by rw [hmn]; exact hnE, ?_⟩
      rw [alookup_aset, if_pos rfl, hmn]
  · intro s hs
    have hssid : s ≠ sid := fun h => hs (by simp [h])
    have hsS2 : s ∉ S := fun h => hs (by simp [h])
    rw [hMAP, alookup_aset, if_neg hssid]
    exact hI.untouched s hsS2
  · intro m s h
    rw [hPM] at h
    obtain ⟨h1, h2, h3⟩ := hI.pmOwn m s h
    exact ⟨by simp [h1], h2, h3⟩
  · intro s hs a' n' ho' hne'
    rw [hPM]
    rcases (by simpa using hs : s ∈ S ∨ s = sid) with hsS | rfl
    · exact hI.pmFull s hsS a' n' ho' hne'
    · obtain ⟨rfl, hmn⟩ := horuniq a' n' ho'
      rw [hmn, amem_eq_isSome, hpm0]
      rfl
  · intro s hs a' m ho' hcur' s0' hpm0' a0' m0' ho0'
    rw [hPM] at hpm0'
    rw [hMAP] at hcur'
    rcases (by simpa using hs : s ∈ S ∨ s = sid) with hsS | rfl
    · have hssid : s ≠ sid := fun h => hsidS (h ▸ hsS)
      rw [alookup_aset, if_neg hssid] at hcur'
      exact hI.unfixedPar s hsS a' m ho' hcur' s0' hpm0' a0' m0' ho0'
    · obtain ⟨rfl, hmn⟩ := horuniq a' m ho'
      rw [alookup_aset, if_pos rfl] at hcur'
      simp only [Option.some.injEq, List.cons.injEq, and_true] at hcur'
      exact absurd (hcur'.2.trans hmn) (fixed_ne_clean n a' n husn)
  · intro m s hpm' a' ho' hcur'
    rw [hPM] at hpm'
    have hsS : s ∈ S := (hI.pmOwn m s hpm').1
    have hssid : s ≠ sid := fun h => hsidS (h ▸ hsS)
    rw [hMAP, alookup_aset, if_neg hssid] at hcur'
    rw [hOF, hOR]
    exact hI.guardUnfixed m s hpm' a' ho' hcur'
  · intro m s hpm' a' ho' hcur'
    rw [hPM] at hpm'
    have hsS : s ∈ S := (hI.pmOwn m s hpm').1
    have hssid : s ≠ sid := fun h => hsidS (h ▸ hsS)
    rw [hMAP, alookup_aset, if_neg hssid] at hcur'
    rw [hOF, hOR]
    exact hI.guardFixed m s hpm' a' ho' hcur'
  · intro s h
    rw [hPM]
    rw [hOF, hOR] at h
    exact hI.ownerKeys s h

theorem c2_inv_extend_register (t0 : Taxonomy) (S : List String) (sid : String)
    (st st' : DupState) (a n : String)
    (hI : C2Inv t0 S st) (hsidS : sid ∉ S)
    (hor : alookup t0.seq_ranks_map sid = some [a, n])
    (hcur : alookup st.tax.seq_ranks_map sid = some [a, n])
    (husn : '_' ∉ n.data)
    (hnE : n ≠ EMPTY_RANK)
    (hpmf : amem st.parent_map n = false)
    (hPM : st'.parent_map = aset st.parent_map n sid)
    (hOF : st'.old_fixed = st.old_fixed)
    (hOR : st'.old_ranks = st.old_ranks)
    (hTAX : st'.tax = st.tax) :
    C2Inv t0 (S ++ [sid]) st' := by
  have horuniq : ∀ a' n', alookup t0.seq_ranks_map sid = some [a', n'] → a' = a ∧ n' = n := by
    intro a' n' h
    rw [hor] at h
    simp only [Option.some.injEq, List.cons.injEq, and_true] at h
    exact ⟨h.1.symm, h.2.symm⟩
  refine ⟨?_, ?_, ?_, ?_, ?_, ?_, ?_, ?_, ?_, ?_⟩
  · rw [hTAX]
    exact hI.pfx
  · intro s
    rw [hTAX]
    exact hI.keys s
  · intro s hs a' n' ho'
    rw [hTAX]
    rcases (by simpa using hs : s ∈ S ∨ s = sid) with hsS | rfl
    · exact hI.entries s hsS a' n' ho'
    · obtain ⟨rfl, hmn⟩ := horuniq a' n' ho'
      rw [hmn]
      exact Or.inl hcur
  · intro s hs
    rw [hTAX]
    exact hI.untouched s (fun h => hs (by simp [h]))
  · intro m s h
    rw [hPM, alookup_aset] at h
    by_cases hm : m = n
    · rw [if_pos hm] at h
      have hsid : s = sid := by simpa using h.symm
      subst hsid
      refine ⟨by simp, by rw [hm]; exact hnE, ?_⟩
      intro a' n' ho'
      rw [hm]
      exact (horuniq a' n' ho').2
    · rw [if_neg hm] at h
      obtain ⟨h1, h2, h3⟩ := hI.pmOwn m s h
      exact ⟨by simp [h1], h2, h3⟩
  · intro s hs a' n' ho' hne'
    rw [hPM, amem_aset]
    rcases (by simpa using hs : s ∈ S ∨ s = sid) with hsS | rfl
    · rw [hI.pmFull s hsS a' n' ho' hne']
      simp
    · obtain ⟨rfl, hmn⟩ := horuniq a' n' ho'
      rw [hmn]
      simp
  · intro s hs a' m ho' hcur' s0' hpm0' a0' m0' ho0'
    rw [hTAX] at hcur'
    rw [hPM, alookup_aset] at hpm0'
    rcases (by simpa using hs : s ∈ S ∨ s = sid) with hsS | rfl
    · by_cases hm : m = n
      · have hfull : amem st.parent_map n = true := by
          rw [← hm]
          exact hI.pmFull s hsS a' m ho' (by rw [hm]; exact hnE)
        rw [hfull] at hpmf
        exact absurd hpmf (by simp)
      · rw [if_neg hm] at hpm0'
        exact hI.unfixedPar s hsS a' m ho' hcur' s0' hpm0' a0' m0' ho0'
    · obtain ⟨rfl, hmn⟩ := horuniq a' m ho'
      rw [if_pos hmn] at hpm0'
      have hs0' : s0' = s := by simpa using hpm0'.symm
      rw [hs0'] at ho0'
      exact (horuniq a0' m0' ho0').1
  · intro m s hpm' a' ho' hcur'
    rw [hTAX] at hcur'
    rw [hOF, hOR]
    rw [hPM, alookup_aset] at hpm'
    by_cases hm : m = n
    · rw [if_pos hm] at hpm'
      have hsid : s = sid := by simpa using hpm'.symm
      subst hsid
      constructor
      · cases hof : amem st.old_fixed s with
        | false => rfl
        | true =>
          obtain ⟨m', hpm''⟩ := hI.ownerKeys s (Or.inl hof)
          exact absurd (hI.pmOwn m' s hpm'').1 hsidS
      · cases horn : alookup st.old_ranks s with
        | none => rfl
        | some l =>
          obtain ⟨m', hpm''⟩ := hI.ownerKeys s (Or.inr (by simp [horn]))
          exact absurd (hI.pmOwn m' s hpm'').1 hsidS
    · rw [if_neg hm] at hpm'
      exact hI.guardUnfixed m s hpm' a' ho' hcur'
  · intro m s hpm' a' ho' hcur'
    rw [hTAX] at hcur'
    rw [hOF, hOR]
    rw [hPM, alookup_aset] at hpm'
    by_cases hm : m = n
    · rw [if_pos hm] at hpm'
      have hsid : s = sid := by simpa using hpm'.symm
      rw [hsid] at hcur'
      rw [hcur] at hcur'
      simp only [Option.some.injEq, List.cons.injEq, and_true] at hcur'
      exact absurd hcur'.2.symm (fixed_ne_clean m a' n husn)
    · rw [if_neg hm] at hpm'
      exact hI.guardFixed m s hpm' a' ho' hcur'
  · intro s h
    rw [hOF, hOR] at h
    obtain ⟨m, hpm''⟩ := hI.ownerKeys s h
    refine ⟨m, ?_⟩
    rw [hPM, alookup_aset]
    have hm : m ≠ n := by
      intro hmn
      rw [hmn] at hpm''
      rw [amem_eq_isSome, hpm''] at hpmf
      simp at hpmf
    rw [if_neg hm]
    exact hpm''

theorem c2_step (t0 : Taxonomy) (S : List String) (sid : String) (R : List String)
    (st : DupState)
    (hpfx0 : t0.idPrefix = "")
    (hnd : (akeys t0.seq_ranks_map).Nodup)
    (hsplit : akeys t0.seq_ranks_map = S ++ sid :: R)
    (hlen2 : ∀ p ∈ t0.seq_ranks_map, p.2.length = 2)
    (hus : ∀ p ∈ t0.seq_ranks_map, ∀ r ∈ p.2, '_' ∉ r.data)
    (hI : C2Inv t0 S st) :
    ∃ st', dupInner true sid [1] st = .ok st' ∧ C2Inv t0 (S ++ [sid]) st' := by
  have hsidak : sid ∈ akeys t0.seq_ranks_map := by
    rw [hsplit]
    exact List.mem_append_right _ (List.mem_cons_self _ _)
  have hdisj : List.Disjoint S (sid :: R) := by
    rw [hsplit] at hnd
    exact List.disjoint_of_nodup_append hnd
  have hsidS : sid ∉ S := fun h => hdisj h (List.mem_cons_self _ _)
  have hamem_sid : amem t0.seq_ranks_map sid = true := (amem_iff_mem_akeys _ _).mpr hsidak
  have horigOf : ∀ s, s ∈ akeys t0.seq_ranks_map →
      ∃ a n, alookup t0.seq_ranks_map s = some [a, n] ∧ '_' ∉ a.data ∧ '_' ∉ n.data := by
    intro s hs
    have hisom : (alookup t0.seq_ranks_map s).isSome := by
      rw [← amem_eq_isSome]
      exact (amem_iff_mem_akeys _ _).mpr hs
    obtain ⟨v, hv⟩ := Option.isSome_iff_exists.mp hisom
    have hmem := alookup_mem _ _ _ hv
    obtain ⟨a, n, rfl⟩ := length_two_ex v (hlen2 _ hmem)
    exact ⟨a, n, hv, hus _ hmem a (by simp), hus _ hmem n (by simp)⟩
  obtain ⟨a, n, hor, husa, husn⟩ := horigOf sid hsidak
  have hcur : alookup st.tax.seq_ranks_map sid = some [a, n] := by
    rw [hI.untouched sid hsidS]
    exact hor
  by_cases hnE : n = EMPTY_RANK
  · exact ⟨st, dupInner_step_break sid a st (hnE ▸ hcur),
      c2_inv_extend_same t0 S sid st a n hI hsidS hor hcur (Or.inl hnE)⟩
  · by_cases hpm : amem st.parent_map n = true
    · obtain ⟨s0, hpm0⟩ : ∃ s0, alookup st.parent_map n = some s0 := by
        rw [amem_eq_isSome] at hpm
        exact Option.isSome_iff_exists.mp hpm
      obtain ⟨hs0S, hnE0, hor0uniqpm⟩ := hI.pmOwn n s0 hpm0
      have hs0ak : s0 ∈ akeys t0.seq_ranks_map := by
        rw [hsplit]
        exact List.mem_append_left _ hs0S
      obtain ⟨a0, n0, hor0', husa0, husn0⟩ := horigOf s0 hs0ak
      have hn0 : n0 = n := hor0uniqpm a0 n0 hor0'
      have hor0 : alookup t0.seq_ranks_map s0 = some [a0, n] := by
        rw [hor0', hn0]
      have hor0uniq : ∀ a' n', alookup t0.seq_ranks_map s0 = some [a', n'] →
          a' = a0 ∧ n' = n := by
        intro a' n' h
        rw [hor0] at h
        simp only [Option.some.injEq, List.cons.injEq, and_true] at h
        exact ⟨h.1.symm, h.2.symm⟩
      have hs0sid : s0 ≠ sid := fun h => hsidS (h ▸ hs0S)
      have hpfxst : st.tax.idPrefix = "" := hI.pfx.trans hpfx0
      have hownpar : (amem st.parent_map n = true ∧
          ∀ s0', alookup st.parent_map n = some s0' →
            ∀ a0' n0', alookup t0.seq_ranks_map s0' = some [a0', n0'] → a0' = a0) := by
        refine ⟨hpm, ?_⟩
        intro s0' hpm0' a0' n0' ho0'
        have hs0' : s0' = s0 := by
          rw [hpm0] at hpm0'
          simpa using hpm0'.symm
        rw [hs0'] at ho0'
        exact (hor0uniq a0' n0' ho0').1
      rcases hI.entries s0 hs0S a0 n hor0 with hcur0 | ⟨_, hcur0⟩
      · by_cases hpar : a0 = a
        · exact ⟨st, dupInner_step_same sid a n s0 a0 n st hpfxst hcur hnE hpm0 hcur0 hpar,
            c2_inv_extend_same t0 S sid st a n hI hsidS hor hcur
              (Or.inr ⟨hownpar.1, fun s0' h1 a0' n0' h2 =>
                (hownpar.2 s0' h1 a0' n0' h2).trans hpar⟩)⟩
        · obtain ⟨hgf, _⟩ := hI.guardUnfixed n s0 hpm0 a0 hor0 hcur0
          obtain ⟨st2, hrun2, hPM, hOF, hOR, hPFX, hMAP⟩ :=
            dupAutofix_fields_unfixed sid s0 a n a0 st (Ne.symm hs0sid) hgf hcur0 hcur
          exact ⟨st2, dupInner_step_fix sid a n s0 a0 n st st2 hpfxst hcur hnE hpm0 hcur0
            hpar hrun2,
            c2_inv_extend_fix_unfixed t0 S sid st st2 s0 a n a0 hI hsidS hor hcur husn hnE
              hpm0 hor0 hs0S hs0sid hamem_sid hPM hOF hOR hPFX hMAP⟩
      · by_cases hpar : a0 = a
        · exact ⟨st, dupInner_step_same sid a n s0 a0 (n ++ "_" ++ a0) st hpfxst hcur hnE
            hpm0 hcur0 hpar,
            c2_inv_extend_same t0 S sid st a n hI hsidS hor hcur
              (Or.inr ⟨hownpar.1, fun s0' h1 a0' n0' h2 =>
                (hownpar.2 s0' h1 a0' n0' h2).trans hpar⟩)⟩
        · obtain ⟨hgf, hgr⟩ := hI.guardFixed n s0 hpm0 a0 hor0 hcur0
          obtain ⟨st2, hrun2, hPM, hOF, hOR, hPFX, hMAP⟩ :=
            dupAutofix_fields_fixed sid s0 a n st hgf hgr hcur
          exact ⟨st2, dupInner_step_fix sid a n s0 a0 (n ++ "_" ++ a0) st st2 hpfxst hcur
            hnE hpm0 hcur0 hpar hrun2,
            c2_inv_extend_fix_fixed t0 S sid st st2 s0 a n hI hsidS hor husn hnE hpm0
              hamem_sid hPM hOF hOR hPFX hMAP⟩
    · have hpmf : amem st.parent_map n = false := by
        simpa using hpm
      obtain ⟨st2, hrun2, hPM, hOF, hOR, hTAX⟩ := dupInner_fields_register sid a n st hcur
        hnE hpmf
      exact ⟨st2, hrun2, c2_inv_extend_register t0 S sid st st2 a n hI hsidS hor hcur husn
        hnE hpmf hPM hOF hOR hTAX⟩

theorem c2_outer (t0 : Taxonomy)
    (hpfx0 : t0.idPrefix = "")
    (hnd : (akeys t0.seq_ranks_map).Nodup)
    (hlen2 : ∀ p ∈ t0.seq_ranks_map, p.2.length = 2)
    (hus : ∀ p ∈ t0.seq_ranks_map, ∀ r ∈ p.2, '_' ∉ r.data) :
    ∀ (Rem S : List String) (st : DupState),
      akeys t0.seq_ranks_map = S ++ Rem → C2Inv t0 S st →
      ∃ st', dupOuter true Rem st = .ok st' ∧ C2Inv t0 (S ++ Rem) st'
  | [], S, st, hsp, hI => ⟨st, rfl, by
      rw [List.append_nil]
      exact hI⟩
  | sid :: Rem', S, st, hsp, hI => by
    obtain ⟨st1, hrun1, hI1⟩ := c2_step t0 S sid Rem' st hpfx0 hnd hsp hlen2 hus hI
    have hsidak : sid ∈ akeys t0.seq_ranks_map := by
      rw [hsp]
      exact List.mem_append_right _ (List.mem_cons_self _ _)
    have hdisj : List.Disjoint S (sid :: Rem') := by
      rw [hsp] at hnd
      exact List.disjoint_of_nodup_append hnd
    have hsidS : sid ∉ S := fun h => hdisj h (List.mem_cons_self _ _)
    have hisom : (alookup t0.seq_ranks_map sid).isSome := by
      rw [← amem_eq_isSome]
      exact (amem_iff_mem_akeys _ _).mpr hsidak
    obtain ⟨v, hv⟩ := Option.isSome_iff_exists.mp hisom
    obtain ⟨a, n, rfl⟩ := length_two_ex v (hlen2 _ (alookup_mem _ _ _ hv))
    have hv2 : alookup st.tax.seq_ranks_map sid = some [a, n] := by
      rw [hI.untouched sid hsidS]
      exact hv
    obtain ⟨st2, hrun2, hI2⟩ := c2_outer t0 hpfx0 hnd hlen2 hus Rem' (S ++ [sid]) st1
      (by rw [hsp, List.append_assoc, List.singleton_append]) hI1
    refine ⟨st2, ?_, ?_⟩
    · simp only [dupOuter, hv2]
      have hrg : List.range' 1 ([a, n].length - 1) = [1] := rfl
      rw [hrg, hrun1]
      exact hrun2
    · rw [← List.singleton_append, ← List.append_assoc]
      exact hI2

theorem dupInner_false_break (sid a : String) (st : DupState)
    (hcs : alookup st.tax.seq_ranks_map sid = some [a, EMPTY_RANK]) :
    dupInner false sid [1] st = .ok st := by
  simp only [dupInner, hcs]
  rw [if_pos (by simp)]

theorem dupInner_false_register (sid a n : String) (st : DupState)
    (hcs : alookup st.tax.seq_ranks_map sid = some [a, n])
    (hnE : n ≠ EMPTY_RANK)
    (hpm : amem st.parent_map n = false) :
    dupInner false sid [1] st =
      .ok ⟨aset st.parent_map n sid, st.dups, st.old_fixed, st.old_ranks, st.tax⟩ := by
  simp only [dupInner, hcs]
  rw [if_neg (by simp [hnE]), if_pos (by simp [hpm])]
  rfl

theorem dupInner_false_same (sid a n s0 a0 N0 : String) (st : DupState)
    (hpfx : st.tax.idPrefix = "")
    (hcs : alookup st.tax.seq_ranks_map sid = some [a, n])
    (hnE : n ≠ EMPTY_RANK)
    (hpm0 : alookup st.parent_map n = some s0)
    (hc0 : alookup st.tax.seq_ranks_map s0 = some [a0, N0])
    (heq : a0 = a) :
    dupInner false sid [1] st = .ok st := by
  simp only [dupInner, hcs]
  rw [if_neg (by simp [hnE])]
  rw [if_neg (by simp [amem_eq_isSome, hpm0])]
  simp [hpm0, get_seq_ranks_alookup st.tax hpfx, hc0, heq]

theorem c2_P (t0 : Taxonomy) (st : DupState)
    (hlen2 : ∀ p ∈ t0.seq_ranks_map, p.2.length = 2)
    (hus : ∀ p ∈ t0.seq_ranks_map, ∀ r ∈ p.2, '_' ∉ r.data)
    (hIf : C2Inv t0 (akeys t0.seq_ranks_map) st) :
    ∀ s s' b N b', alookup st.tax.seq_ranks_map s = some [b, N] →
      alookup st.tax.seq_ranks_map s' = some [b', N] → N ≠ EMPTY_RANK → b = b' := by
  have horigOf : ∀ s, s ∈ akeys t0.seq_ranks_map →
      ∃ a n, alookup t0.seq_ranks_map s = some [a, n] ∧ '_' ∉ a.data ∧ '_' ∉ n.data := by
    intro s hs
    have hisom : (alookup t0.seq_ranks_map s).isSome := by
      rw [← amem_eq_isSome]
      exact (amem_iff_mem_akeys _ _).mpr hs
    obtain ⟨v, hv⟩ := Option.isSome_iff_exists.mp hisom
    have hmem := alookup_mem _ _ _ hv
    obtain ⟨a, n, rfl⟩ := length_two_ex v (hlen2 _ hmem)
    exact ⟨a, n, hv, hus _ hmem a (by simp), hus _ hmem n (by simp)⟩
  have hmemOf : ∀ s (v : List String), alookup st.tax.seq_ranks_map s = some v →
      s ∈ akeys t0.seq_ranks_map := by
    intro s v hv
    rw [← amem_iff_mem_akeys, ← hIf.keys, amem_eq_isSome, hv]
    rfl
  intro s s' b N b' hs hs' hNE
  obtain ⟨as, ns, hos, husas, husns⟩ := horigOf s (hmemOf s _ hs)
  obtain ⟨as', ns', hos', husas', husns'⟩ := horigOf s' (hmemOf s' _ hs')
  have hcases := hIf.entries s (hmemOf s _ hs) as ns hos
  have hcases' := hIf.entries s' (hmemOf s' _ hs') as' ns' hos'
  rcases hcases with hc | ⟨hnsE, hc⟩ <;> rw [hs] at hc <;>
    simp only [Option.some.injEq, List.cons.injEq, and_true] at hc <;>
    rcases hcases' with hc' | ⟨hnsE', hc'⟩ <;> rw [hs'] at hc' <;>
    simp only [Option.some.injEq, List.cons.injEq, and_true] at hc'
  · -- both unfixed: same original name, equal parents via the registered owner
    have hnsne : ns ≠ EMPTY_RANK := by
      rw [← hc.2]
      exact hNE
    have hfull := hIf.pmFull s (hmemOf s _ hs) as ns hos hnsne
    obtain ⟨s0, hpm0⟩ : ∃ s0, alookup st.parent_map ns = some s0 := by
      rw [amem_eq_isSome] at hfull
      exact Option.isSome_iff_exists.mp hfull
    have hcur_s : alookup st.tax.seq_ranks_map s = some [as, ns] := by
      rw [hs, hc.1, hc.2]
    have hcur_s2 : alookup st.tax.seq_ranks_map s' = some [as', ns'] := by
      rw [hs', hc'.1, hc'.2]
    obtain ⟨a0, n0, ho0, h1u, h2u⟩ := horigOf s0 (hIf.pmOwn ns s0 hpm0).1
    have h1 := hIf.unfixedPar s (hmemOf s _ hs) as ns hos hcur_s s0 hpm0 a0 n0 ho0
    have hns2 : ns' = ns := hc'.2.symm.trans hc.2
    have h2 := hIf.unfixedPar s' (hmemOf s' _ hs') as' ns' hos' hcur_s2 s0
      (by rw [hns2]; exact hpm0) a0 n0 ho0
    rw [hc.1, hc'.1, ← h1, ← h2]
  · -- s unfixed, s' fixed: N would be both clean and underscored
    exact absurd (hc'.2.symm.trans hc.2) (fixed_ne_clean ns' as' ns husns)
  · -- s fixed, s' unfixed
    exact absurd (hc.2.symm.trans hc'.2) (fixed_ne_clean ns as ns' husns')
  · -- both fixed: underscore splitting is unambiguous
    obtain ⟨hnn, hpars⟩ := underscore_string_inj ns as ns' as' husns husns'
      (hc.2.symm.trans hc'.2)
    rw [hc.1, hc'.1]
    exact hpars

theorem c2_rerun (t1 : Taxonomy)
    (hpfx1 : t1.idPrefix = "")
    (hshape : ∀ s (v : List String), alookup t1.seq_ranks_map s = some v →
      ∃ a N, v = [a, N])
    (hP : ∀ s s' b N b', alookup t1.seq_ranks_map s = some [b, N] →
      alookup t1.seq_ranks_map s' = some [b', N] → N ≠ EMPTY_RANK → b = b') :
    ∀ (Rem : List String) (st : DupState),
      (∀ s ∈ Rem, amem t1.seq_ranks_map s = true) →
      st.tax = t1 → st.dups = [] →
      (∀ m s, alookup st.parent_map m = some s →
        ∃ b, alookup t1.seq_ranks_map s = some [b, m]) →
      ∃ st', dupOuter false Rem st = .ok st' ∧ st'.tax = t1 ∧ st'.dups = []
  | [], st, hR, htax, hdups, hpm => ⟨st, rfl, htax, hdups⟩
  | sid :: Rem', st, hR, htax, hdups, hpm => by
    have hmem : amem t1.seq_ranks_map sid = true := hR sid (List.mem_cons_self _ _)
    obtain ⟨v, hv⟩ : ∃ v, alookup t1.seq_ranks_map sid = some v := by
      rw [amem_eq_isSome] at hmem
      exact Option.isSome_iff_exists.mp hmem
    obtain ⟨b, N, rfl⟩ := hshape sid v hv
    have hv2 : alookup st.tax.seq_ranks_map sid = some [b, N] := by
      rw [htax]
      exact hv
    have hpfxst : st.tax.idPrefix = "" := by
      rw [htax]
      exact hpfx1
    have hRem : ∀ s ∈ Rem', amem t1.seq_ranks_map s = true :=
      fun s hs => hR s (List.mem_cons_of_mem _ hs)
    have hnext : ∃ st1, dupInner false sid [1] st = .ok st1 ∧ st1.tax = t1 ∧
        st1.dups = [] ∧ (∀ m s, alookup st1.parent_map m = some s →
          ∃ b, alookup t1.seq_ranks_map s = some [b, m]) := by
      by_cases hnE : N = EMPTY_RANK
      · exact ⟨st, dupInner_false_break sid b st (hnE ▸ hv2), htax, hdups, hpm⟩
      · by_cases hpmm : amem st.parent_map N = true
        · obtain ⟨s0, hpm0⟩ : ∃ s0, alookup st.parent_map N = some s0 := by
            rw [amem_eq_isSome] at hpmm
            exact Option.isSome_iff_exists.mp hpmm
          obtain ⟨b0, hlk0⟩ := hpm N s0 hpm0
          have hcur0 : alookup st.tax.seq_ranks_map s0 = some [b0, N] := by
            rw [htax]
            exact hlk0
          have hbb : b0 = b := hP s0 sid b0 N b hlk0 hv hnE
          exact ⟨st, dupInner_false_same sid b N s0 b0 N st hpfxst hv2 hnE hpm0 hcur0 hbb,
            htax, hdups, hpm⟩
        · have hpmf : amem st.parent_map N = false := by
            simpa using hpmm
          refine ⟨_, dupInner_false_register sid b N st hv2 hnE hpmf, htax, hdups, ?_⟩
          intro m s h
          rw [show (⟨aset st.parent_map N sid, st.dups, st.old_fixed, st.old_ranks,
              st.tax⟩ : DupState).parent_map = aset st.parent_map N sid from rfl,
            alookup_aset] at h
          by_cases hm : m = N
          · rw [if_pos hm] at h
            have hsid : s = sid := by simpa using h.symm
            rw [hsid, hm]
            exact ⟨b, hv⟩
          · rw [if_neg hm] at h
            exact hpm m s h
    obtain ⟨st1, hrun1, htax1, hdups1, hpm1⟩ := hnext
    obtain ⟨st2, hrun2, htax2, hdups2⟩ := c2_rerun t1 hpfx1 hshape hP Rem' st1 hRem htax1
      hdups1 hpm1
    refine ⟨st2, ?_, htax2, hdups2⟩
    simp only [dupOuter, hv2]
    have hrg : List.range' 1 ([b, N].length - 1) = [1] := rfl
    rw [hrg, hrun1]
    exact hrun2

/-- C2 (amended): for a store with an empty id prefix, pairwise-distinct
sequence ids, rank paths of length exactly 2, and rank names free of the
underscore character, a `check_for_duplicates(autofix=True)` pass followed by
a detection re-run reports no conflicts at all and leaves the store exactly
as the autofix left it.  Without the underscore restriction the claim fails:
a pre-existing name equal to a synthesized `name_parent` recreates a
collision that the re-run reports against the rewritten sequence (see the
counterexample). -/
theorem c2_amended (t : Taxonomy)
    (hpfx : t.idPrefix = "")
    (hnd : (akeys t.seq_ranks_map).Nodup)
    (hlen2 : ∀ p ∈ t.seq_ranks_map, p.2.length = 2)
    (hus : ∀ p ∈ t.seq_ranks_map, ∀ r ∈ p.2, '_' ∉ r.data)
    (r : List DupRec) (t' : Taxonomy)
    (h : t.check_for_duplicates true = .ok (r, t')) :
    t'.check_for_duplicates false = .ok ([], t') := by
  have hinit : C2Inv t [] ⟨[], [], [], [], t⟩ := by
    refine ⟨rfl, fun s => rfl, ?_, fun s _ => rfl, ?_, ?_, ?_, ?_, ?_, ?_⟩
    · intro s hs
      exact absurd hs (List.not_mem_nil s)
    · intro m s hh
      exact absurd hh (by simp [alookup])
    · intro s hs
      exact absurd hs (List.not_mem_nil s)
    · intro s hs
      exact absurd hs (List.not_mem_nil s)
    · intro m s hh
      exact absurd hh (by simp [alookup])
    · intro m s hh
      exact absurd hh (by simp [alookup])
    · intro s hh
      rcases hh with hh | hh
      · exact absurd hh (by simp [amem])
      · exact absurd hh (by simp [alookup])
  obtain ⟨stf, hrunf, hIf⟩ := c2_outer t hpfx hnd hlen2 hus (akeys t.seq_ranks_map) []
    ⟨[], [], [], [], t⟩ (by simp) hinit
  have hIf2 : C2Inv t (akeys t.seq_ranks_map) stf := by
    rw [← List.nil_append (akeys t.seq_ranks_map)]
    exact hIf
  unfold Taxonomy.check_for_duplicates at h
  simp only [hrunf] at h
  rw [if_pos trivial] at h
  have ht' : t' = stf.tax := by
    have := (Prod.mk.injEq _ _ _ _).mp (by simpa using h)
    exact this.2.symm
  have hpfx' : t'.idPrefix = "" := by
    rw [ht']
    exact hIf2.pfx.trans hpfx
  have hshape : ∀ s (v : List String), alookup t'.seq_ranks_map s = some v →
      ∃ b N, v = [b, N] := by
    intro s v hv
    rw [ht'] at hv
    have hsak : s ∈ akeys t.seq_ranks_map := by
      rw [← amem_iff_mem_akeys, ← hIf2.keys, amem_eq_isSome, hv]
      rfl
    have hisom : (alookup t.seq_ranks_map s).isSome := by
      rw [← amem_eq_isSome]
      exact (amem_iff_mem_akeys _ _).mpr hsak
    obtain ⟨w, hw⟩ := Option.isSome_iff_exists.mp hisom
    obtain ⟨a, n, rfl⟩ := length_two_ex w (hlen2 _ (alookup_mem _ _ _ hw))
    rcases hIf2.entries s hsak a n hw with hc | ⟨_, hc⟩
    · rw [hv] at hc
      exact ⟨a, n, by simpa using hc⟩
    · rw [hv] at hc
      exact ⟨a, n ++ "_" ++ a, by simpa using hc⟩
  have hP' : ∀ s s' b N b', alookup t'.seq_ranks_map s = some [b, N] →
      alookup t'.seq_ranks_map s' = some [b', N] → N ≠ EMPTY_RANK → b = b' := by
    intro s s' b N b' h1 h2 h3
    rw [ht'] at h1 h2
    exact c2_P t stf hlen2 hus hIf2 s s' b N b' h1 h2 h3
  obtain ⟨stg, hrung, htaxg, hdupsg⟩ := c2_rerun t' hpfx' hshape hP'
    (akeys t'.seq_ranks_map) ⟨[], [], [], [], t'⟩
    (fun s hs => (amem_iff_mem_akeys _ _).mpr hs) rfl rfl
    (fun m s hh => absurd hh (by simp [alookup]))
  show Taxonomy.check_for_duplicates t' false = .ok ([], t')
  unfold Taxonomy.check_for_duplicates
  simp only [hrung]
  rw [if_neg (by simp)]
  rw [htaxg, hdupsg]

/-- Witness for C2 (amended): on the store `{s1: [P, X], s2: [Q, X]}` the
autofix pass rewrites both paths, and rerunning detection reports nothing. -/
theorem c2_amended_witness :
    (⟨"", [("s1", ["P", "X_P"]), ("s2", ["Q", "X_Q"])],
      [("P@@X", ["s1"]), ("Q@@X", ["s2"])]⟩ : Taxonomy).check_for_duplicates false =
      .ok ([], ⟨"", [("s1", ["P", "X_P"]), ("s2", ["Q", "X_Q"])],
        [("P@@X", ["s1"]), ("Q@@X", ["s2"])]⟩) :=
  c2_amended (taxFromMap "" [("s1", ["P", "X"]), ("s2", ["Q", "X"])])
    (by rfl) (by decide) (by decide) (by decide)
    [DupRec.five "s1" "s;1" "s2" "s;2" "s;2", DupRec.five "s1" "s;1" "s1" "s;1" "s;1"]
    _ (by rfl)

/-- C2 counterexample: on `{A: [P1, X], B: [P2, X], D: [Q, X_P2]}` the autofix
pass disambiguates the collision on `X` at position 1 by rewriting `A` to
`X_P1` and `B` to `X_P2`, but rerunning detection then reports a conflict
between `B` and `D` at that same rewritten position — `B`'s disambiguated
name collides with `D`'s pre-existing name `X_P2` under a different parent. -/
theorem c2_counterexample :
    (taxFromMap "" [("A", ["P1", "X"]), ("B", ["P2", "X"]),
      ("D", ["Q", "X_P2"])]).check_for_duplicates true =
      .ok ([DupRec.five "A" "A" "B" "B" "B", DupRec.five "A" "A" "A" "A" "A"],
        ⟨"", [("A", ["P1", "X_P1"]), ("B", ["P2", "X_P2"]), ("D", ["Q", "X_P2"])],
         [("P1@@X", ["A"]), ("P2@@X", ["B"]), ("Q@@X_P2", ["D"])]⟩) ∧
    (⟨"", [("A", ["P1", "X_P1"]), ("B", ["P2", "X_P2"]), ("D", ["Q", "X_P2"])],
      [("P1@@X", ["A"]), ("P2@@X", ["B"]), ("Q@@X_P2", ["D"])]⟩ :
        Taxonomy).check_for_duplicates false =
      .ok ([DupRec.four "B" "B" "D" "D"],
        ⟨"", [("A", ["P1", "X_P1"]), ("B", ["P2", "X_P2"]), ("D", ["Q", "X_P2"])],
         [("P1@@X", ["A"]), ("P2@@X", ["B"]), ("Q@@X_P2", ["D"])]⟩) := by
  refine ⟨by rfl, by rfl⟩


/-! ### Claim C8: the tree builder's filters and the per-parent quota -/

theorem walkNE_val (r : List String) :
    ∀ (fuel : Nat) (i j : Int), walkNE r i fuel = .ok j →
      ∃ v, pyIdx r j = some v ∧ v ≠ EMPTY_RANK
  | 0, i, j, h => by
    exact absurd h (by simp [walkNE])
  | fuel + 1, i, j, h => by
    simp only [walkNE] at h
    split at h
    · exact absurd h (by simp)
    · split at h
      · exact walkNE_val r fuel (i - 1) j h
      · injection h with h
        subst h
        exact ⟨_, by assumption, by assumption⟩

theorem walkNE_visited (r : List String) :
    ∀ (fuel : Nat) (i j : Int), walkNE r i fuel = .ok j →
      ∀ k : Int, j < k → k ≤ i → pyIdx r k = some EMPTY_RANK
  | 0, i, j, h => by
    exact absurd h (by simp [walkNE])
  | fuel + 1, i, j, h => by
    simp only [walkNE] at h
    split at h
    · exact absurd h (by simp)
    · split at h
      · intro k hk1 hk2
        rcases lt_or_eq_of_le hk2 with hk3 | rfl
        · exact walkNE_visited r fuel (i - 1) j h k hk1 (by omega)
        · rename_i v hv hE
          rw [hE, hv]
      · injection h with h
        subst h
        intro k hk1 hk2
        omega

theorem pyIdx_some_bound (l : List String) (j : Int) (v : String)
    (h : pyIdx l j = some v) : -(l.length : Int) ≤ j ∧ j < (l.length : Int) := by
  unfold pyIdx at h
  split at h
  · have hb : j.toNat < l.length := by
      by_contra hb
      rw [List.getElem?_eq_none (by omega)] at h
      exact absurd h (by simp)
    omega
  · split at h
    · have hb : l.length - (-j).toNat < l.length := by
        by_contra hb
        rw [List.getElem?_eq_none (by omega)] at h
        exact absurd h (by simp)
      omega
    · exact absurd h (by simp)

theorem pyIdx_wrap (l : List String) (j : Int)
    (h1 : -(l.length : Int) ≤ j) (h2 : j < 0) :
    pyIdx l j = pyIdx l (j + l.length) := by
  unfold pyIdx
  rw [if_neg (by omega), if_pos (by omega), if_pos (by omega)]
  congr 1
  omega

theorem walkNE_nonneg (r : List String) (fuel : Nat) (j : Int)
    (h : walkNE r ((r.length : Int) - 1) fuel = .ok j) : 0 ≤ j := by
  by_contra hneg
  obtain ⟨v, hv, hE⟩ := walkNE_val r fuel _ j h
  obtain ⟨hb1, hb2⟩ := pyIdx_some_bound r j v hv
  have hlen : 1 ≤ r.length := by omega
  have hwrap := pyIdx_wrap r j hb1 (by omega)
  have hvis := walkNE_visited r fuel _ j h (j + r.length) (by omega) (by omega)
  rw [hwrap, hvis] at hv
  exact hE (by simpa using hv.symm)

theorem walkNE_restart (r : List String) (j : Int) (v : String) (fuel : Nat)
    (hv : pyIdx r j = some v) (hE : v ≠ EMPTY_RANK) :
    walkNE r j (fuel + 1) = .ok j := by
  simp only [walkNE, hv]
  rw [if_neg hE]

theorem addTreeNodeKeys_mono (r : List String) :
    ∀ (fuel : Nat) (lvl : Int) (keys keys' : List String),
      addTreeNodeKeys r lvl keys fuel = .ok keys' → ∀ x ∈ keys, x ∈ keys'
  | 0, lvl, keys, keys', h => by
    exact absurd h (by simp [addTreeNodeKeys])
  | fuel + 1, lvl, keys, keys', h => by
    simp only [addTreeNodeKeys] at h
    split at h
    · split at h
      · exact absurd h (by simp)
      · split at h
        · injection h with h
          subst h
          exact fun x hx => hx
        · split at h
          · exact absurd h (by simp)
          · injection h with h
            subst h
            intro x hx
            exact List.mem_append_left _ (addTreeNodeKeys_mono r fuel _ keys _
              (by assumption) x hx)
    · split at h
      · injection h with h
        subst h
        exact fun x hx => hx
      · split at h
        · exact absurd h (by simp)
        · injection h with h
          subst h
          intro x hx
          exact List.mem_append_left _ (addTreeNodeKeys_mono r fuel _ keys _
            (by assumption) x hx)

theorem addTreeNodeKeys_self (r : List String) (fuel : Nat) (lvl : Int)
    (keys keys' : List String) (v : String)
    (h0 : 0 ≤ lvl) (hv : pyIdx r lvl = some v) (hE : v ≠ EMPTY_RANK)
    (h : addTreeNodeKeys r lvl keys (fuel + 1) = .ok keys') :
    get_rank_uid r lvl ∈ keys' := by
  simp only [addTreeNodeKeys] at h
  rw [if_pos h0] at h
  rw [show r.length * 2 + 2 = (r.length * 2 + 1) + 1 from rfl] at h
  simp only [walkNE_restart r lvl v (r.length * 2 + 1) hv hE] at h
  split at h
  · injection h with h
    subst h
    rename_i hcont
    exact List.mem_of_elem_eq_true hcont
  · split at h
    · exact absurd h (by simp)
    · injection h with h
      subst h
      exact List.mem_append_right _ (by simp)


theorem buildStep_cases (cfg : BuildCfg) (st : BuildState) (p : String × List String)
    (st' : BuildState) (h : buildStep cfg st p = .ok st') :
    st' = st ∨
    ((∃ v, pyIdx p.2 (cfg.min_rank : Int) = some v ∧ v ≠ EMPTY_RANK) ∧
     (cfg.clades_to_include.isEmpty = true ∨
       cladeAny p.2 cfg.clades_to_include = .ok true) ∧
     cladeAny p.2 cfg.clades_to_ignore = .ok false ∧
     ∃ parent_level keys',
       walkNE p.2 ((p.2.length : Int) - 1) (p.2.length * 2 + 2) = .ok parent_level ∧
       addTreeNodeKeys p.2 parent_level st.tree_nodes (p.2.length * 2 + 4) = .ok keys' ∧
       st' = ⟨keys',
         aset st.leaf_count (get_rank_uid p.2 parent_level)
           ((alookup st.leaf_count (get_rank_uid p.2 parent_level)).getD 0 + 1),
         st.seq_ids ++ [p.1]⟩) := by
  cases hmin : pyIdx p.2 (cfg.min_rank : Int) with
  | none =>
    simp only [buildStep, hmin] at h
    exact absurd h (by simp)
  | some v =>
    simp only [buildStep, hmin] at h
    by_cases hvE : v = EMPTY_RANK
    · rw [if_pos hvE] at h
      injection h with h
      exact Or.inl h.symm
    · rw [if_neg hvE] at h
      cases hinc : (if cfg.clades_to_include.isEmpty = true then Except.ok true
          else cladeAny p.2 cfg.clades_to_include) with
      | error e =>
        simp only [hinc] at h
        exact absurd h (by simp)
      | ok okInc =>
        simp only [hinc] at h
        cases hok : (if okInc = true
            then Except.map (fun b => !b) (cladeAny p.2 cfg.clades_to_ignore)
            else Except.ok false) with
        | error e =>
          simp only [hok] at h
          exact absurd h (by simp)
        | ok okAll =>
          simp only [hok] at h
          by_cases hall : okAll = true
          · rw [if_neg (by simp [hall])] at h
            cases hwalk : walkNE p.2 ((p.2.length : Int) - 1) (p.2.length * 2 + 2) with
            | error e =>
              simp only [hwalk] at h
              exact absurd h (by simp)
            | ok parent_level =>
              simp only [hwalk] at h
              by_cases hskip : (st.tree_nodes.contains (get_rank_uid p.2 parent_level) &&
                  (decide (parent_level = (p.2.length : Int) - 1) &&
                   (amem st.leaf_count (get_rank_uid p.2 parent_level) &&
                    decide (cfg.max_seqs_per_leaf ≤
                      (alookup st.leaf_count (get_rank_uid p.2 parent_level)).getD 0)))) = true
              · rw [if_pos hskip] at h
                injection h with h
                exact Or.inl h.symm
              · rw [if_neg hskip] at h
                cases haddt : addTreeNodeKeys p.2 parent_level st.tree_nodes
                    (p.2.length * 2 + 4) with
                | error e =>
                  simp only [haddt] at h
                  exact absurd h (by simp)
                | ok keys' =>
                  simp only [haddt] at h
                  injection h with h
                  refine Or.inr ⟨⟨v, rfl, hvE⟩, ?_, ?_, parent_level, keys', rfl, haddt,
                    h.symm⟩
                  · by_cases hie : cfg.clades_to_include.isEmpty = true
                    · exact Or.inl hie
                    · rw [if_neg hie] at hinc
                      have hoi : okInc = true := by
                        by_contra hoi
                        rw [if_neg hoi] at hok
                        simp only [Except.ok.injEq] at hok
                        rw [← hok] at hall
                        exact Bool.noConfusion hall
                      rw [hoi] at hinc
                      exact Or.inr hinc
                  · have hoi : okInc = true := by
                      by_contra hoi
                      rw [if_neg hoi] at hok
                      simp only [Except.ok.injEq] at hok
                      rw [← hok] at hall
                      exact Bool.noConfusion hall
                    rw [if_pos hoi] at hok
                    cases hign : cladeAny p.2 cfg.clades_to_ignore with
                    | error e =>
                      rw [hign] at hok
                      exact absurd hok (by simp [Except.map])
                    | ok b =>
                      rw [hign] at hok
                      simp only [Except.map, Except.ok.injEq] at hok
                      have hb : b = false := by
                        rw [← hok] at hall
                        simpa using hall
                      rw [hb]
          · rw [if_pos (by simp [hall])] at h
            injection h with h
            exact Or.inl h.symm

theorem buildAux_mem (cfg : BuildCfg) :
    ∀ (items : List (String × List String)) (st st' : BuildState),
      buildAux cfg items st = .ok st' →
      ∀ sid, sid ∈ st'.seq_ids → sid ∈ st.seq_ids ∨
        ∃ ranks, (sid, ranks) ∈ items ∧
          (∃ v, pyIdx ranks (cfg.min_rank : Int) = some v ∧ v ≠ EMPTY_RANK) ∧
          (cfg.clades_to_include.isEmpty = true ∨
            cladeAny ranks cfg.clades_to_include = .ok true) ∧
          cladeAny ranks cfg.clades_to_ignore = .ok false
  | [], st, st', h, sid, hs => by
    injection h with h
    subst h
    exact Or.inl hs
  | p :: rest, st, st', h, sid, hs => by
    simp only [buildAux] at h
    cases hstep : buildStep cfg st p with
    | error e =>
      rw [hstep] at h
      exact absurd h (by simp)
    | ok st1 =>
      rw [hstep] at h
      rcases buildAux_mem cfg rest st1 st' h sid hs with hmem | ⟨ranks, hr1, hr2, hr3, hr4⟩
      · rcases buildStep_cases cfg st p st1 hstep with rfl | ⟨hf1, hf2, hf3, pl, ks, _, _, hst⟩
        · exact Or.inl hmem
        · rw [hst] at hmem
          rcases (by simpa using hmem : sid ∈ st.seq_ids ∨ sid = p.1) with hm | rfl
          · exact Or.inl hm
          · refine Or.inr ⟨p.2, ?_, hf1, hf2, hf3⟩
            exact List.mem_cons_self p rest
      · exact Or.inr ⟨ranks, List.mem_cons_of_mem _ hr1, hr2, hr3, hr4⟩

theorem buildAux_quota_inv (cfg : BuildCfg) :
    ∀ (items : List (String × List String)) (st st' : BuildState),
      buildAux cfg items st = .ok st' →
      (∀ P, 1 ≤ (alookup st.leaf_count P).getD 0 → P ∈ st.tree_nodes) →
      ∀ P, 1 ≤ (alookup st'.leaf_count P).getD 0 → P ∈ st'.tree_nodes
  | [], st, st', h, hinv => by
    injection h with h
    subst h
    exact hinv
  | p :: rest, st, st', h, hinv => by
    simp only [buildAux] at h
    cases hstep : buildStep cfg st p with
    | error e =>
      rw [hstep] at h
      exact absurd h (by simp)
    | ok st1 =>
      rw [hstep] at h
      refine buildAux_quota_inv cfg rest st1 st' h ?_
      rcases buildStep_cases cfg st p st1 hstep with rfl | ⟨_, _, _, pl, ks, hwalk, haddt, hst⟩
      · exact hinv
      · obtain ⟨w, hw, hwE⟩ := walkNE_val p.2 _ _ pl hwalk
        have hpl0 : 0 ≤ pl := walkNE_nonneg p.2 _ pl hwalk
        intro P hP
        rw [hst]
        rw [hst] at hP
        simp only at hP
        by_cases hPn : P = get_rank_uid p.2 pl
        · show P ∈ ks
          rw [hPn]
          rw [show p.2.length * 2 + 4 = (p.2.length * 2 + 3) + 1 from rfl] at haddt
          exact addTreeNodeKeys_self p.2 (p.2.length * 2 + 3) pl st.tree_nodes ks w hpl0
            hw hwE haddt
        · rw [alookup_aset, if_neg hPn] at hP
          exact addTreeNodeKeys_mono p.2 _ pl st.tree_nodes ks haddt P (hinv P hP)

theorem buildStep_skip (cfg : BuildCfg) (st : BuildState) (sid : String)
    (ranks : List String) (v : String) (parent_level : Int)
    (hmin : pyIdx ranks (cfg.min_rank : Int) = some v) (hvE : v ≠ EMPTY_RANK)
    (hinc : cfg.clades_to_include.isEmpty = true ∨
      cladeAny ranks cfg.clades_to_include = .ok true)
    (hign : cladeAny ranks cfg.clades_to_ignore = .ok false)
    (hwalk : walkNE ranks ((ranks.length : Int) - 1) (ranks.length * 2 + 2) =
      .ok parent_level)
    (hlvl : parent_level = (ranks.length : Int) - 1)
    (htree : get_rank_uid ranks parent_level ∈ st.tree_nodes)
    (hmax : 1 ≤ cfg.max_seqs_per_leaf)
    (hquota : cfg.max_seqs_per_leaf ≤
      (alookup st.leaf_count (get_rank_uid ranks parent_level)).getD 0) :
    buildStep cfg st (sid, ranks) = .ok st := by
  have hinc2 : (if cfg.clades_to_include.isEmpty = true then Except.ok true
      else cladeAny ranks cfg.clades_to_include) = .ok true := by
    by_cases hie : cfg.clades_to_include.isEmpty = true
    · rw [if_pos hie]
    · rw [if_neg hie]
      rcases hinc with h | h
      · exact absurd h hie
      · exact h
  have hamem : amem st.leaf_count (get_rank_uid ranks parent_level) = true := by
    rw [amem_eq_isSome]
    cases hn : alookup st.leaf_count (get_rank_uid ranks parent_level) with
    | none =>
      rw [hn] at hquota
      simp only [Option.getD_none] at hquota
      omega
    | some c => rfl
  simp only [buildStep, hmin]
  rw [if_neg hvE]
  simp only [hinc2]
  rw [if_pos trivial]
  simp only [hign, Except.map]
  rw [if_neg (by simp)]
  simp only [hwalk]
  rw [if_pos (by
    simp only [Bool.and_eq_true, decide_eq_true_eq]
    refine ⟨List.elem_eq_true_of_mem htree, hlvl, hamem, hquota⟩)]

/-- C8 (amended, requiring a quota of at least 1): (a) every sequence id in
the list returned by `build` comes from a store entry that passed the three
filters — non-empty rank at `min_rank`, a match in `clades_to_include` (or
that list empty), and no match in `clades_to_ignore`; (b) in any state
reachable from the initial one, once a parent at level `len - 1` has a leaf
count at or above `max_seqs_per_leaf`, a further candidate under that parent
that passes all the filters is skipped: the step returns the state
unchanged, so the sequence enters neither the tree nor the returned list.
With `max_seqs_per_leaf = 0` part (b) fails — the first sequence under a
fresh parent is always admitted (see the counterexample). -/
theorem c8_amended (cfg : BuildCfg) (hmax : 1 ≤ cfg.max_seqs_per_leaf) (t : Taxonomy) :
    (∀ sids, build cfg t = .ok sids → ∀ sid ∈ sids, ∃ ranks,
        (sid, ranks) ∈ t.seq_ranks_map ∧
        (∃ v, pyIdx ranks (cfg.min_rank : Int) = some v ∧ v ≠ EMPTY_RANK) ∧
        (cfg.clades_to_include.isEmpty = true ∨
          cladeAny ranks cfg.clades_to_include = .ok true) ∧
        cladeAny ranks cfg.clades_to_ignore = .ok false) ∧
    (∀ (pre : List (String × List String)) (st1 : BuildState),
      buildAux cfg pre ⟨[ROOT_LABEL], [(ROOT_LABEL, 0)], []⟩ = .ok st1 →
      ∀ (sid : String) (ranks : List String) (v : String) (parent_level : Int),
        pyIdx ranks (cfg.min_rank : Int) = some v → v ≠ EMPTY_RANK →
        (cfg.clades_to_include.isEmpty = true ∨
          cladeAny ranks cfg.clades_to_include = .ok true) →
        cladeAny ranks cfg.clades_to_ignore = .ok false →
        walkNE ranks ((ranks.length : Int) - 1) (ranks.length * 2 + 2) =
          .ok parent_level →
        parent_level = (ranks.length : Int) - 1 →
        cfg.max_seqs_per_leaf ≤
          (alookup st1.leaf_count (get_rank_uid ranks parent_level)).getD 0 →
        buildStep cfg st1 (sid, ranks) = .ok st1) := by
  constructor
  · intro sids h sid hs
    unfold build at h
    cases hrun : buildAux cfg t.seq_ranks_map ⟨[ROOT_LABEL], [(ROOT_LABEL, 0)], []⟩ with
    | error e =>
      rw [hrun] at h
      exact absurd h (by simp)
    | ok stf =>
      rw [hrun] at h
      have hsid : sid ∈ stf.seq_ids := by
        injection h with h
        rw [h]
        exact hs
      rcases buildAux_mem cfg t.seq_ranks_map _ stf hrun sid hsid with hm | ⟨ranks, hr⟩
      · exact absurd hm (by simp)
      · exact ⟨ranks, hr⟩
  · intro pre st1 hpre sid ranks v parent_level hmin hvE hinc hign hwalk hlvl hquota
    have hinv : ∀ P, 1 ≤ (alookup st1.leaf_count P).getD 0 → P ∈ st1.tree_nodes := by
      refine buildAux_quota_inv cfg pre _ st1 hpre ?_
      intro P hP
      by_cases hroot : P = ROOT_LABEL
      · rw [hroot]
        simp
      · rw [show alookup [(ROOT_LABEL, 0)] P = none from by
          rw [alookup_cons]
          rw [if_neg (fun hh => hroot hh.symm)]
          rfl] at hP
        simp at hP
    have htree : get_rank_uid ranks parent_level ∈ st1.tree_nodes :=
      hinv _ (le_trans hmax hquota)
    exact buildStep_skip cfg st1 sid ranks v parent_level hmin hvE hinc hign hwalk hlvl
      htree hmax hquota

/-- Witness for C8 (amended): with quota 1 and one sequence `s1` already
admitted under parent `A`, the candidate `s2` under `A` is skipped. -/
theorem c8_amended_witness :
    buildStep ⟨0, 1, [], []⟩ ⟨[ROOT_LABEL, "A"], [(ROOT_LABEL, 0), ("A", 1)], ["s1"]⟩
      ("s2", ["A"]) = .ok ⟨[ROOT_LABEL, "A"], [(ROOT_LABEL, 0), ("A", 1)], ["s1"]⟩ :=
  (c8_amended ⟨0, 1, [], []⟩ (by decide) (taxFromMap "" [("s1", ["A"])])).2
    [("s1", ["A"])] ⟨[ROOT_LABEL, "A"], [(ROOT_LABEL, 0), ("A", 1)], ["s1"]⟩ (by rfl)
    "s2" ["A"] "A" 0 (by rfl) (by decide) (Or.inl (by rfl)) (by rfl) (by rfl)
    (by decide) (by decide)

/-- C8 counterexample: with `max_seqs_per_leaf = 0` the store `{s1: [A]}`
still yields `[s1]`, although `A`'s leaf count (0, not yet tracked) has
already reached the quota 0 before `s1` is processed — the skip condition
additionally requires the parent to be memoized and counted, so the first
sequence under any parent is admitted no matter the quota. -/
theorem c8_counterexample :
    build ⟨0, 0, [], []⟩ (taxFromMap "" [("s1", ["A"])]) = .ok ["s1"] ∧
    (alookup ([(ROOT_LABEL, 0)] : List (String × Nat))
      (get_rank_uid ["A"] ((1 : Int) - 1))).getD 0 = 0 := by
  refine ⟨by rfl, by rfl⟩

end TaxonomyUtil
